import Mathlib

/-!
Shallow embedding of the text-translator repository: the markup codec
(preprocessText / postprocessText), the translation client (translateText)
and the recursive tree translator (translateNestedJson / processTranslations)
from the React component, together with proofs of the specification claims.

Modelling conventions:
  * JavaScript strings are Lean `String`s, scanned as `List Char`.
  * The external translation capability (the fetch to the API route) is an
    oracle `tr : String → String → Option String`; `none` models a thrown
    error (network failure, non-ok response, missing configuration), `some t`
    a successful response body.  The list of `(text, targetLanguage)` pairs
    issued to the oracle is returned alongside every result so that claims
    about the capability not being invoked can be stated.
  * `uuidv4` is modelled as a deterministic supply `uuid : Nat → String`
    threaded by an index; concurrency of `Promise.all` is modelled by the
    sequential left-to-right linearisation (claims do not depend on call
    order).
  * `String.prototype.replace` with a string pattern replaces the first
    occurrence of the pattern, after applying the substitution templates of
    GetSubstitution to the replacement string: `$$` inserts a dollar sign,
    `$&` the matched pattern, a dollar sign followed by a backquote the text
    before the match, and `$'` the text after the match; with a string
    pattern there are no capture groups, so every other dollar sequence is
    literal.
-/

/-- Left brace character, written via its code point. -/
def lbrace : Char := Char.ofNat 123

/-- Right brace character, written via its code point. -/
def rbrace : Char := Char.ofNat 125

/-- Characters that the JavaScript regex dot does not match
(line terminators). -/
def dotExcluded (c : Char) : Bool :=
  c = '\n' || c = '\r' || c = ' ' || c = ' '

/-- Scan for the literal closing delimiter `close`, returning the characters
consumed before it (the non-greedy capture) and the remainder after it.
The capture may not contain line terminators, which the JavaScript regex
dot does not match.  At every position the close delimiter is tried first,
giving the non-greedy (shortest-capture) semantics. -/
def scanTo (close : List Char) : List Char → Option (List Char × List Char)
  | [] => if close.isPrefixOf ([] : List Char) then some ([], []) else none
  | c :: cs =>
    if close.isPrefixOf (c :: cs) then some ([], (c :: cs).drop close.length)
    else if dotExcluded c then none
    else
      match scanTo close cs with
      | some (content, rest) => some (c :: content, rest)
      | none => none

theorem scanTo_length {close l content rest : List Char}
    (h : scanTo close l = some (content, rest)) : rest.length ≤ l.length := by
  induction l generalizing content rest with
  | nil =>
    simp only [scanTo] at h
    split at h <;> simp_all
  | cons c cs ih =>
    simp only [scanTo] at h
    split at h
    · simp only [Option.some.injEq, Prod.mk.injEq] at h
      obtain ⟨-, h2⟩ := h
      subst h2
      simp [List.length_drop]
    · split at h
      · simp_all
      · split at h
        next content' rest' heq =>
          simp only [Option.some.injEq, Prod.mk.injEq] at h
          obtain ⟨-, h2⟩ := h
          subst h2
          have := ih heq
          simp
          omega
        next => simp_all

/-- Delimited form of a placeholder token: the token wrapped in double
braces, as in the source template literal. -/
def tokDelim (t : String) : List Char :=
  lbrace :: lbrace :: (t.data ++ [rbrace, rbrace])

/-- Result of one replacement pass (and of the whole preprocess step):
the rewritten character list, the placeholder pairs recorded in creation
order, and the next fresh-token index. -/
structure PassOut where
  out : List Char
  pairs : List (String × String)
  next : Nat
deriving Repr

/-- One global-replace pass of `preprocessText` for a pattern made of a
literal opening delimiter `o :: os`, a non-greedy capture, and a literal
closing delimiter `close` (the bold, italic and interpolation patterns of
the source).  Each leftmost match is replaced by a fresh token in delimited
form and the pair (token, full matched fragment) is recorded; a position
where the opening delimiter matches but no close follows on the same line
is skipped by one character, as the regex engine does.  The fuel argument
only makes the recursion structural; it never runs out when it starts at
the length of the scanned list. -/
def passAuxF (uuid : Nat → String) (o : Char) (os : List Char) (close : List Char) :
    Nat → Nat → List Char → PassOut
  | _, n, [] => ⟨[], [], n⟩
  | 0, n, l => ⟨l, [], n⟩
  | fuel + 1, n, c :: cs =>
    if (o :: os).isPrefixOf (c :: cs) then
      match scanTo close ((c :: cs).drop (o :: os).length) with
      | some (content, rest) =>
        let tok := uuid n
        let r := passAuxF uuid o os close fuel (n + 1) rest
        ⟨tokDelim tok ++ r.out,
         (tok, String.mk (o :: (os ++ content ++ close))) :: r.pairs, r.next⟩
      | none =>
        let r := passAuxF uuid o os close fuel n cs
        ⟨c :: r.out, r.pairs, r.next⟩
    else
      let r := passAuxF uuid o os close fuel n cs
      ⟨c :: r.out, r.pairs, r.next⟩

theorem passAuxF_fuel (uuid : Nat → String) (o : Char) (os : List Char) (close : List Char)
    (f1 : Nat) : ∀ (f2 n : Nat) (l : List Char), l.length ≤ f1 → l.length ≤ f2 →
    passAuxF uuid o os close f1 n l = passAuxF uuid o os close f2 n l := by
  induction f1 with
  | zero =>
    intro f2 n l h1 h2
    have : l = [] := List.eq_nil_of_length_eq_zero (Nat.le_zero.mp h1)
    subst this
    cases f2 <;> rfl
  | succ f1 ih =>
    intro f2 n l h1 h2
    match l with
    | [] => cases f2 <;> rfl
    | c :: cs =>
      match f2 with
      | 0 => simp at h2
      | f2 + 1 =>
        simp only [List.length_cons, Nat.add_le_add_iff_right] at h1 h2
        rw [passAuxF, passAuxF]
        split
        · split
          next content rest hscan =>
            have hr : rest.length ≤ cs.length := by
              have := scanTo_length hscan
              simp at this
              omega
            rw [ih f2 (n + 1) rest (Nat.le_trans hr h1) (Nat.le_trans hr h2)]
          next => rw [ih f2 n cs h1 h2]
        · rw [ih f2 n cs h1 h2]

/-- The pass entered with fuel equal to the length of the scanned text. -/
def passAux (uuid : Nat → String) (o : Char) (os : List Char) (close : List Char)
    (n : Nat) (l : List Char) : PassOut :=
  passAuxF uuid o os close l.length n l

theorem passAux_nil (uuid : Nat → String) (o : Char) (os : List Char) (close : List Char)
    (n : Nat) : passAux uuid o os close n [] = ⟨[], [], n⟩ := rfl

theorem passAux_cons_hit (uuid : Nat → String) (o : Char) (os : List Char)
    (close : List Char) (n : Nat) (c : Char) (cs content rest : List Char)
    (hpre : (o :: os).isPrefixOf (c :: cs) = true)
    (hscan : scanTo close ((c :: cs).drop (o :: os).length) = some (content, rest)) :
    passAux uuid o os close n (c :: cs) =
      ⟨tokDelim (uuid n) ++ (passAux uuid o os close (n + 1) rest).out,
       (uuid n, String.mk (o :: (os ++ content ++ close))) ::
         (passAux uuid o os close (n + 1) rest).pairs,
       (passAux uuid o os close (n + 1) rest).next⟩ := by
  have hr : rest.length ≤ cs.length := by
    have := scanTo_length hscan
    simp at this
    omega
  rw [passAux, List.length_cons, passAuxF, if_pos hpre]
  simp only [hscan]
  rw [passAuxF_fuel uuid o os close cs.length rest.length (n + 1) rest hr (Nat.le_refl _)]
  rfl

theorem passAux_cons_noClose (uuid : Nat → String) (o : Char) (os : List Char)
    (close : List Char) (n : Nat) (c : Char) (cs : List Char)
    (hpre : (o :: os).isPrefixOf (c :: cs) = true)
    (hscan : scanTo close ((c :: cs).drop (o :: os).length) = none) :
    passAux uuid o os close n (c :: cs) =
      ⟨c :: (passAux uuid o os close n cs).out, (passAux uuid o os close n cs).pairs,
       (passAux uuid o os close n cs).next⟩ := by
  rw [passAux, List.length_cons, passAuxF, if_pos hpre]
  simp only [hscan]
  rfl

theorem passAux_cons_noOpen (uuid : Nat → String) (o : Char) (os : List Char)
    (close : List Char) (n : Nat) (c : Char) (cs : List Char)
    (hpre : (o :: os).isPrefixOf (c :: cs) = false) :
    passAux uuid o os close n (c :: cs) =
      ⟨c :: (passAux uuid o os close n cs).out, (passAux uuid o os close n cs).pairs,
       (passAux uuid o os close n cs).next⟩ := by
  rw [passAux, List.length_cons, passAuxF, if_neg (by simp [hpre])]
  rfl

/-- Opening literal of the hyperlink pattern. -/
def linkOpen : List Char := "<a href=\"".data

/-- Middle literal of the hyperlink pattern, ending the href capture. -/
def linkMid : List Char := "\">".data

/-- Closing literal of the hyperlink pattern. -/
def linkClose : List Char := "</a>".data

/-- The hyperlink replacement pass: pattern `<a href=` quote, non-greedy
href capture, quote `>`, non-greedy content capture, `</a>`.  The whole
anchor fragment is recorded as one unit.  The fuel argument only makes the
recursion structural. -/
def linkAuxF (uuid : Nat → String) : Nat → Nat → List Char → PassOut
  | _, n, [] => ⟨[], [], n⟩
  | 0, n, l => ⟨l, [], n⟩
  | fuel + 1, n, c :: cs =>
    if linkOpen.isPrefixOf (c :: cs) then
      match scanTo linkMid ((c :: cs).drop linkOpen.length) with
      | some (href, rest1) =>
        match scanTo linkClose rest1 with
        | some (content, rest2) =>
          let tok := uuid n
          let r := linkAuxF uuid fuel (n + 1) rest2
          ⟨tokDelim tok ++ r.out,
           (tok, String.mk (linkOpen ++ href ++ linkMid ++ content ++ linkClose)) :: r.pairs,
           r.next⟩
        | none =>
          let r := linkAuxF uuid fuel n cs
          ⟨c :: r.out, r.pairs, r.next⟩
      | none =>
        let r := linkAuxF uuid fuel n cs
        ⟨c :: r.out, r.pairs, r.next⟩
    else
      let r := linkAuxF uuid fuel n cs
      ⟨c :: r.out, r.pairs, r.next⟩

theorem linkAuxF_fuel (uuid : Nat → String) (f1 : Nat) :
    ∀ (f2 n : Nat) (l : List Char), l.length ≤ f1 → l.length ≤ f2 →
    linkAuxF uuid f1 n l = linkAuxF uuid f2 n l := by
  induction f1 with
  | zero =>
    intro f2 n l h1 h2
    have : l = [] := List.eq_nil_of_length_eq_zero (Nat.le_zero.mp h1)
    subst this
    cases f2 <;> rfl
  | succ f1 ih =>
    intro f2 n l h1 h2
    match l with
    | [] => cases f2 <;> rfl
    | c :: cs =>
      match f2 with
      | 0 => simp at h2
      | f2 + 1 =>
        simp only [List.length_cons, Nat.add_le_add_iff_right] at h1 h2
        rw [linkAuxF, linkAuxF]
        split
        · split
          next href rest1 hscan =>
            split
            next content rest2 hscan2 =>
              have hr : rest2.length ≤ cs.length := by
                have ha := scanTo_length hscan
                have hb := scanTo_length hscan2
                have hc : linkOpen.length = 9 := rfl
                simp at ha
                omega
              rw [ih f2 (n + 1) rest2 (Nat.le_trans hr h1) (Nat.le_trans hr h2)]
            next => rw [ih f2 n cs h1 h2]
          next => rw [ih f2 n cs h1 h2]
        · rw [ih f2 n cs h1 h2]

/-- The hyperlink pass entered with fuel equal to the length of the text. -/
def linkAux (uuid : Nat → String) (n : Nat) (l : List Char) : PassOut :=
  linkAuxF uuid l.length n l

theorem linkAux_nil (uuid : Nat → String) (n : Nat) :
    linkAux uuid n [] = ⟨[], [], n⟩ := rfl

theorem linkAux_cons_hit (uuid : Nat → String) (n : Nat) (c : Char)
    (cs href rest1 content rest2 : List Char)
    (hpre : linkOpen.isPrefixOf (c :: cs) = true)
    (hscan : scanTo linkMid ((c :: cs).drop linkOpen.length) = some (href, rest1))
    (hscan2 : scanTo linkClose rest1 = some (content, rest2)) :
    linkAux uuid n (c :: cs) =
      ⟨tokDelim (uuid n) ++ (linkAux uuid (n + 1) rest2).out,
       (uuid n, String.mk (linkOpen ++ href ++ linkMid ++ content ++ linkClose)) ::
         (linkAux uuid (n + 1) rest2).pairs,
       (linkAux uuid (n + 1) rest2).next⟩ := by
  have hr : rest2.length ≤ cs.length := by
    have ha := scanTo_length hscan
    have hb := scanTo_length hscan2
    have hc : linkOpen.length = 9 := rfl
    simp at ha
    omega
  rw [linkAux, List.length_cons, linkAuxF, if_pos hpre]
  simp only [hscan, hscan2]
  rw [linkAuxF_fuel uuid cs.length rest2.length (n + 1) rest2 hr (Nat.le_refl _)]
  rfl

theorem linkAux_cons_noClose (uuid : Nat → String) (n : Nat) (c : Char)
    (cs href rest1 : List Char)
    (hpre : linkOpen.isPrefixOf (c :: cs) = true)
    (hscan : scanTo linkMid ((c :: cs).drop linkOpen.length) = some (href, rest1))
    (hscan2 : scanTo linkClose rest1 = none) :
    linkAux uuid n (c :: cs) =
      ⟨c :: (linkAux uuid n cs).out, (linkAux uuid n cs).pairs,
       (linkAux uuid n cs).next⟩ := by
  rw [linkAux, List.length_cons, linkAuxF, if_pos hpre]
  simp only [hscan, hscan2]
  rfl

theorem linkAux_cons_noMid (uuid : Nat → String) (n : Nat) (c : Char) (cs : List Char)
    (hpre : linkOpen.isPrefixOf (c :: cs) = true)
    (hscan : scanTo linkMid ((c :: cs).drop linkOpen.length) = none) :
    linkAux uuid n (c :: cs) =
      ⟨c :: (linkAux uuid n cs).out, (linkAux uuid n cs).pairs,
       (linkAux uuid n cs).next⟩ := by
  rw [linkAux, List.length_cons, linkAuxF, if_pos hpre]
  simp only [hscan]
  rfl

theorem linkAux_cons_noOpen (uuid : Nat → String) (n : Nat) (c : Char) (cs : List Char)
    (hpre : linkOpen.isPrefixOf (c :: cs) = false) :
    linkAux uuid n (c :: cs) =
      ⟨c :: (linkAux uuid n cs).out, (linkAux uuid n cs).pairs,
       (linkAux uuid n cs).next⟩ := by
  rw [linkAux, List.length_cons, linkAuxF, if_neg (by simp [hpre])]
  rfl

/-- Result of `preprocessText`: the markup-safe text, the placeholder map
(an insertion-ordered association list, as a JavaScript record), and the
next fresh-token index. -/
structure PreResult where
  text : String
  placeholders : List (String × String)
  next : Nat
deriving Repr

/-- Closing literal of the bold pattern. -/
def boldClose : List Char := "</b>".data

/-- Closing literal of the italic pattern. -/
def italClose : List Char := "</i>".data

/-- Model of the source `preprocessText`: four successive global-replace
passes (bold, italic, hyperlink, interpolation), each extracting its
fragments into fresh delimited tokens and recording token-to-fragment
pairs.  The placeholder record accumulates pairs in creation order. -/
def preprocessText (uuid : Nat → String) (n : Nat) (text : String) : PreResult :=
  let r1 := passAux uuid '<' ['b', '>'] boldClose n text.data
  let r2 := passAux uuid '<' ['i', '>'] italClose r1.next r1.out
  let r3 := linkAux uuid r2.next r2.out
  let r4 := passAux uuid '$' [lbrace] [rbrace] r3.next r3.out
  ⟨String.mk r4.out, r1.pairs ++ r2.pairs ++ r3.pairs ++ r4.pairs, r4.next⟩

/-- The backquote character, written via its code point. -/
def backquote : Char := Char.ofNat 96

/-- The apostrophe character, written via its code point. -/
def squote : Char := Char.ofNat 39

/-- Characters that, directly after a dollar sign in a replacement string,
form a substitution template of GetSubstitution when the pattern is a
string (no capture groups): dollar, ampersand, backquote, apostrophe. -/
def tmplChar (d : Char) : Bool :=
  d = '$' || d = '&' || d = backquote || d = squote

/-- GetSubstitution on a replacement string for a string-pattern match:
`matched` is the matched text (the pattern itself), `before` the text
preceding the match and `after` the text following it.  `$$` yields a
dollar sign, `$&` the match, dollar-backquote the preceding text,
dollar-apostrophe the following text; any other dollar sequence is kept
literally. -/
def expandRepl (matched before after : List Char) : List Char → List Char
  | [] => []
  | [c] => [c]
  | c :: d :: cs =>
    if c = '$' then
      if d = '$' then '$' :: expandRepl matched before after cs
      else if d = '&' then matched ++ expandRepl matched before after cs
      else if d = backquote then before ++ expandRepl matched before after cs
      else if d = squote then after ++ expandRepl matched before after cs
      else c :: expandRepl matched before after (d :: cs)
    else c :: expandRepl matched before after (d :: cs)

/-- The replacement string contains no substitution template: no dollar
sign directly followed by a template character. -/
def noTmpl : List Char → Bool
  | [] => true
  | [_] => true
  | c :: d :: cs => (if c = '$' then !tmplChar d else true) && noTmpl (d :: cs)

theorem expandRepl_noTmpl (matched before after : List Char) :
    ∀ r : List Char, noTmpl r = true → expandRepl matched before after r = r := by
  intro r
  induction r with
  | nil => intro h; rfl
  | cons c cs ih =>
    intro h
    cases cs with
    | nil => rfl
    | cons d cs =>
      rw [noTmpl, Bool.and_eq_true] at h
      rw [expandRepl]
      by_cases hc : c = '$'
      · rw [if_pos hc] at h ⊢
        rw [tmplChar] at h
        have h1 := h.1
        simp only [Bool.not_eq_true', Bool.or_eq_false_iff,
          decide_eq_false_iff_not] at h1
        rw [if_neg h1.1.1.1, if_neg h1.1.1.2, if_neg h1.1.2, if_neg h1.2]
        rw [ih h.2]
      · rw [if_neg hc, ih h.2]

/-- Replace the first occurrence of `pat` in the remaining characters by
the expansion of `rep`, the semantics of JavaScript
`String.prototype.replace` with a string pattern; `before` accumulates the
characters already passed, needed by the substitution templates.  If the
pattern does not occur the list is returned unchanged. -/
def replaceFirstAux (pat rep : List Char) : List Char → List Char → List Char
  | before, [] =>
    if pat.isPrefixOf ([] : List Char) then expandRepl pat before [] rep else []
  | before, c :: cs =>
    if pat.isPrefixOf (c :: cs) then
      expandRepl pat before ((c :: cs).drop pat.length) rep ++ (c :: cs).drop pat.length
    else c :: replaceFirstAux pat rep (before ++ [c]) cs

/-- Replace the first occurrence of `pat` in a character list by the
expansion of `rep`. -/
def replaceFirstL (pat rep l : List Char) : List Char :=
  replaceFirstAux pat rep [] l

/-- String-level wrapper of `replaceFirstL`. -/
def replaceFirst (s pat rep : String) : String :=
  String.mk (replaceFirstL pat.data rep.data s.data)

/-- Model of the source `postprocessText`: for each recorded pair, replace
the first occurrence of the token's delimited form by the captured
fragment, in insertion order. -/
def postprocessText (text : String) (placeholders : List (String × String)) : String :=
  placeholders.foldl (fun acc p => replaceFirst acc (String.mk (tokDelim p.1)) p.2) text

/-- Model of the source `translateText` client: empty text or empty target
language throws before any request is made; otherwise the external
capability is invoked once.  The first component is the result (`none`
models a thrown error), the second the list of requests issued. -/
def translateText (tr : String → String → Option String)
    (text targetLanguage : String) : Option String × List (String × String) :=
  if text = "" ∨ targetLanguage = "" then (none, [])
  else (tr text targetLanguage, [(text, targetLanguage)])

/-- JSON values as decoded by JSON.parse: strings, numbers, booleans, null,
arrays, objects (insertion-ordered association lists with the unique keys
JSON.parse produces).  Numeric values are opaque scalars here. -/
inductive Json where
  | str : String → Json
  | num : Int → Json
  | bool : Bool → Json
  | null : Json
  | arr : List Json → Json
  | obj : List (String × Json) → Json
deriving Repr

/-- Result of a tree-translator step: the produced value, the requests
issued to the external capability, and the next fresh-token index. -/
structure TOut (α : Type) where
  out : α
  calls : List (String × String)
  next : Nat
deriving Repr

mutual

/-- Loop body of `translateNestedJson` for one key/value pair, including
the per-key try/catch: the `original` key is copied without recursion; a
string under the `translated` key is preprocessed, sent to the capability
when the safe text is non-empty and postprocessed, reverting to the input
value when the capability throws; arrays are mapped element-wise; other
objects are recursed into; every other value is copied unchanged. -/
def tnjValue (uuid : Nat → String) (tr : String → String → Option String)
    (lang : String) (n : Nat) (k : String) (v : Json) : TOut (String × Json) :=
  if k = "original" then ⟨(k, v), [], n⟩
  else
    match v with
    | .str s =>
      if k = "translated" then
        let pre := preprocessText uuid n s
        if pre.text = "" then ⟨(k, .str s), [], pre.next⟩
        else
          match translateText tr pre.text lang with
          | (some t, calls) => ⟨(k, .str (postprocessText t pre.placeholders)), calls, pre.next⟩
          | (none, calls) => ⟨(k, .str s), calls, pre.next⟩
      else ⟨(k, .str s), [], n⟩
    | .arr xs =>
      let r := tnjItems uuid tr lang n xs
      ⟨(k, .arr r.out), r.calls, r.next⟩
    | .obj fs =>
      let r := tnjEntries uuid tr lang n fs
      ⟨(k, .obj r.out), r.calls, r.next⟩
    | w => ⟨(k, w), [], n⟩

/-- The `for (const [key, value] of Object.entries(data))` loop of
`translateNestedJson` over an entry list, assembling the output object in
iteration order. -/
def tnjEntries (uuid : Nat → String) (tr : String → String → Option String)
    (lang : String) (n : Nat) (fs : List (String × Json)) : TOut (List (String × Json)) :=
  match fs with
  | [] => ⟨[], [], n⟩
  | (k, v) :: rest =>
    let r1 := tnjValue uuid tr lang n k v
    let r2 := tnjEntries uuid tr lang r1.next rest
    ⟨r1.out :: r2.out, r1.calls ++ r2.calls, r2.next⟩

/-- The `value.map` over an array value: object and array items recurse via
`translateNestedJson`, every other item passes through unchanged. -/
def tnjItems (uuid : Nat → String) (tr : String → String → Option String)
    (lang : String) (n : Nat) (xs : List Json) : TOut (List Json) :=
  match xs with
  | [] => ⟨[], [], n⟩
  | x :: rest =>
    let r1 := tnjItem uuid tr lang n x
    let r2 := tnjItems uuid tr lang r1.next rest
    ⟨r1.out :: r2.out, r1.calls ++ r2.calls, r2.next⟩

/-- One array item: `typeof item === "object" && item !== null` holds for
objects and also for arrays, so both are fed back into
`translateNestedJson`; for an array, `Object.entries` enumerates its
index-keyed entries and the result is assembled as an object. -/
def tnjItem (uuid : Nat → String) (tr : String → String → Option String)
    (lang : String) (n : Nat) (x : Json) : TOut Json :=
  match x with
  | .obj fs =>
    let r := tnjEntries uuid tr lang n fs
    ⟨.obj r.out, r.calls, r.next⟩
  | .arr ys =>
    let r := tnjIdxEntries uuid tr lang 0 n ys
    ⟨.obj r.out, r.calls, r.next⟩
  | w => ⟨w, [], n⟩

/-- The entry loop of `translateNestedJson` applied to the index-keyed
entries that `Object.entries` produces for an array argument. -/
def tnjIdxEntries (uuid : Nat → String) (tr : String → String → Option String)
    (lang : String) (i : Nat) (n : Nat) (xs : List Json) : TOut (List (String × Json)) :=
  match xs with
  | [] => ⟨[], [], n⟩
  | x :: rest =>
    let r1 := tnjValue uuid tr lang n (Nat.repr i) x
    let r2 := tnjIdxEntries uuid tr lang (i + 1) r1.next rest
    ⟨r1.out :: r2.out, r1.calls ++ r2.calls, r2.next⟩

end

/-- Index-keyed entries of an array, as produced by `Object.entries`. -/
def arrEntries : Nat → List Json → List (String × Json)
  | _, [] => []
  | i, x :: rest => (Nat.repr i, x) :: arrEntries (i + 1) rest

/-- Index-keyed single-character entries of a string, as produced by
`Object.entries` on a primitive string. -/
def strEntries : Nat → List Char → List (String × Json)
  | _, [] => []
  | i, c :: rest => (Nat.repr i, Json.str (String.mk [c])) :: strEntries (i + 1) rest

/-- Behaviour of `Object.entries` on an arbitrary parsed value: objects
yield their entries, arrays index-keyed entries, strings per-character
entries, numbers and booleans no entries, and null throws a TypeError
(modelled as `none`). -/
def jsEntries : Json → Option (List (String × Json))
  | .null => none
  | .obj fs => some fs
  | .arr xs => some (arrEntries 0 xs)
  | .str s => some (strEntries 0 s.data)
  | _ => some []

/-- Outcome of `processTranslations`: either the output tree handed to
`setOutputJson`, or the error path (`setError` with the output cleared). -/
inductive ProcResult where
  | ok : Json → ProcResult
  | errorOut : ProcResult
deriving Repr

/-- Model of the source `processTranslations`: parsing failure of the
input (modelled by the `parsed` argument being `none`) is caught and
surfaced as an error with no output; otherwise `translateNestedJson` runs
on the entries of the parsed value (a TypeError from `Object.entries` on
null is likewise caught) and the resulting object is the output. -/
def processTranslations (uuid : Nat → String) (tr : String → String → Option String)
    (lang : String) (parsed : Option Json) : ProcResult :=
  match parsed with
  | none => .errorOut
  | some d =>
    match jsEntries d with
    | none => .errorOut
    | some fs => .ok (.obj (tnjEntries uuid tr lang 0 fs).out)

/-- Default deterministic token supply standing in for `uuidv4`. -/
def uuidD (n : Nat) : String := "u" ++ Nat.repr n

mutual

/-- Erase the content of every string stored under a `translated` key,
recursing through the whole tree.  Two documents have the same mask
exactly when they have identical shape (key sets and order, sequence
lengths and order, nesting) and differ at most in the content of string
values under `translated` keys. -/
def maskJson : Json → Json
  | .arr xs => .arr (maskList xs)
  | .obj fs => .obj (maskEntries fs)
  | w => w

/-- List part of `maskJson`. -/
def maskList : List Json → List Json
  | [] => []
  | x :: rest => maskJson x :: maskList rest

/-- Entry part of `maskJson`: a string value under a `translated` key is
replaced by the empty string, every other value is masked recursively. -/
def maskEntries : List (String × Json) → List (String × Json)
  | [] => []
  | (k, v) :: rest =>
    (k, if k = "translated" then
          match v with
          | .str _ => .str ""
          | w => maskJson w
        else maskJson v) :: maskEntries rest

end

/-- Mask of a single value in key context `k` (the value inserted by
`maskEntries`). -/
def maskKV (k : String) (v : Json) : Json :=
  if k = "translated" then
    match v with
    | .str _ => .str ""
    | w => maskJson w
  else maskJson v

/-- True when a value is not an array. -/
def notArr : Json → Bool
  | .arr _ => false
  | _ => true

mutual

/-- No sequence occurs directly as an element of another sequence
anywhere in the value. -/
def noNestedArr : Json → Bool
  | .arr xs => noNestedArrItems xs
  | .obj fs => noNestedArrEntries fs
  | _ => true

/-- Item part of `noNestedArr`: array elements may not themselves be
arrays. -/
def noNestedArrItems : List Json → Bool
  | [] => true
  | x :: rest => notArr x && noNestedArr x && noNestedArrItems rest

/-- Entry part of `noNestedArr`. -/
def noNestedArrEntries : List (String × Json) → Bool
  | [] => true
  | (_, v) :: rest => noNestedArr v && noNestedArrEntries rest

end

theorem tnjValue_original (uuid : Nat → String) (tr : String → String → Option String)
    (lang : String) (n : Nat) (v : Json) :
    tnjValue uuid tr lang n "original" v = ⟨("original", v), [], n⟩ := by
  rw [tnjValue.eq_def]
  simp

theorem tnjValue_str_other (uuid : Nat → String) (tr : String → String → Option String)
    (lang : String) (n : Nat) (k s : String)
    (hk0 : k ≠ "original") (hk : k ≠ "translated") :
    tnjValue uuid tr lang n k (.str s) = ⟨(k, .str s), [], n⟩ := by
  simp [tnjValue, hk0, hk]

theorem tnjValue_translated_empty (uuid : Nat → String) (tr : String → String → Option String)
    (lang : String) (n : Nat) (s : String)
    (hp : (preprocessText uuid n s).text = "") :
    tnjValue uuid tr lang n "translated" (.str s) =
      ⟨("translated", .str s), [], (preprocessText uuid n s).next⟩ := by
  simp [tnjValue, hp]

theorem tnjValue_translated_ok (uuid : Nat → String) (tr : String → String → Option String)
    (lang : String) (n : Nat) (s t : String)
    (hp : (preprocessText uuid n s).text ≠ "") (hl : lang ≠ "")
    (ht : tr (preprocessText uuid n s).text lang = some t) :
    tnjValue uuid tr lang n "translated" (.str s) =
      ⟨("translated", .str (postprocessText t (preprocessText uuid n s).placeholders)),
       [((preprocessText uuid n s).text, lang)], (preprocessText uuid n s).next⟩ := by
  simp [tnjValue, hp, translateText, hl, ht]

theorem tnjValue_translated_err (uuid : Nat → String) (tr : String → String → Option String)
    (lang : String) (n : Nat) (s : String) (cl : List (String × String))
    (hp : (preprocessText uuid n s).text ≠ "")
    (ht : translateText tr (preprocessText uuid n s).text lang = (none, cl)) :
    tnjValue uuid tr lang n "translated" (.str s) =
      ⟨("translated", .str s), cl, (preprocessText uuid n s).next⟩ := by
  simp only [tnjValue, hp, if_neg (by decide : ("translated" : String) ≠ "original"),
    if_pos rfl, if_neg hp, ht]
  simp

theorem tnjValue_arr (uuid : Nat → String) (tr : String → String → Option String)
    (lang : String) (n : Nat) (k : String) (xs : List Json)
    (hk0 : k ≠ "original") :
    tnjValue uuid tr lang n k (.arr xs) =
      ⟨(k, .arr (tnjItems uuid tr lang n xs).out), (tnjItems uuid tr lang n xs).calls,
       (tnjItems uuid tr lang n xs).next⟩ := by
  simp [tnjValue, hk0]

theorem tnjValue_obj (uuid : Nat → String) (tr : String → String → Option String)
    (lang : String) (n : Nat) (k : String) (fs : List (String × Json))
    (hk0 : k ≠ "original") :
    tnjValue uuid tr lang n k (.obj fs) =
      ⟨(k, .obj (tnjEntries uuid tr lang n fs).out), (tnjEntries uuid tr lang n fs).calls,
       (tnjEntries uuid tr lang n fs).next⟩ := by
  simp [tnjValue, hk0]

theorem tnjValue_num (uuid : Nat → String) (tr : String → String → Option String)
    (lang : String) (n : Nat) (k : String) (m : Int) (hk0 : k ≠ "original") :
    tnjValue uuid tr lang n k (.num m) = ⟨(k, .num m), [], n⟩ := by
  simp [tnjValue, hk0]

theorem tnjValue_bool (uuid : Nat → String) (tr : String → String → Option String)
    (lang : String) (n : Nat) (k : String) (b : Bool) (hk0 : k ≠ "original") :
    tnjValue uuid tr lang n k (.bool b) = ⟨(k, .bool b), [], n⟩ := by
  simp [tnjValue, hk0]

theorem tnjValue_null (uuid : Nat → String) (tr : String → String → Option String)
    (lang : String) (n : Nat) (k : String) (hk0 : k ≠ "original") :
    tnjValue uuid tr lang n k .null = ⟨(k, .null), [], n⟩ := by
  simp [tnjValue, hk0]

theorem maskEntries_cons (p : String × Json) (rest : List (String × Json)) :
    maskEntries (p :: rest) = (p.1, maskKV p.1 p.2) :: maskEntries rest := by
  obtain ⟨k, v⟩ := p
  cases v <;> rfl

theorem maskKV_str_translated (s : String) :
    maskKV "translated" (.str s) = .str "" := by
  simp [maskKV]

theorem maskKV_arr (k : String) (xs : List Json) :
    maskKV k (.arr xs) = .arr (maskList xs) := by
  rw [maskKV.eq_def]
  split
  · show maskJson (Json.arr xs) = Json.arr (maskList xs)
    rw [maskJson]
  · rw [maskJson]

theorem maskKV_obj (k : String) (fs : List (String × Json)) :
    maskKV k (.obj fs) = .obj (maskEntries fs) := by
  rw [maskKV.eq_def]
  split
  · show maskJson (Json.obj fs) = Json.obj (maskEntries fs)
    rw [maskJson]
  · rw [maskJson]

mutual

theorem mask_tnjEntries (uuid : Nat → String) (tr : String → String → Option String)
    (lang : String) (n : Nat) (fs : List (String × Json))
    (h : noNestedArrEntries fs = true) :
    maskEntries (tnjEntries uuid tr lang n fs).out = maskEntries fs := by
  match fs with
  | [] => rw [tnjEntries]
  | (k, v) :: rest =>
    rw [noNestedArrEntries, Bool.and_eq_true] at h
    have h1 := mask_tnjValue uuid tr lang n k v h.1
    have h2 := mask_tnjEntries uuid tr lang (tnjValue uuid tr lang n k v).next rest h.2
    rw [tnjEntries]
    rw [maskEntries_cons, maskEntries_cons]
    rw [h1.1, h1.2, h2]

theorem mask_tnjValue (uuid : Nat → String) (tr : String → String → Option String)
    (lang : String) (n : Nat) (k : String) (v : Json)
    (h : noNestedArr v = true) :
    (tnjValue uuid tr lang n k v).out.1 = k ∧
      maskKV k (tnjValue uuid tr lang n k v).out.2 = maskKV k v := by
  by_cases hk0 : k = "original"
  · subst hk0
    rw [tnjValue_original]
    exact ⟨rfl, rfl⟩
  · match v with
    | .str s =>
      by_cases hk : k = "translated"
      · subst hk
        by_cases hp : (preprocessText uuid n s).text = ""
        · rw [tnjValue_translated_empty uuid tr lang n s hp]
          exact ⟨rfl, rfl⟩
        · match hc : translateText tr (preprocessText uuid n s).text lang with
          | (some t, cl) =>
            have hl : lang ≠ "" := by
              intro he
              rw [translateText, if_pos (Or.inr he)] at hc
              simp at hc
            have ht : tr (preprocessText uuid n s).text lang = some t := by
              rw [translateText, if_neg] at hc
              · simp only [Prod.mk.injEq] at hc
                exact hc.1
              · simp [hp, hl]
            rw [tnjValue_translated_ok uuid tr lang n s t hp hl ht]
            refine ⟨rfl, ?_⟩
            rw [maskKV_str_translated, maskKV_str_translated]
          | (none, cl) =>
            rw [tnjValue_translated_err uuid tr lang n s cl hp hc]
            exact ⟨rfl, rfl⟩
      · rw [tnjValue_str_other uuid tr lang n k s hk0 hk]
        exact ⟨rfl, rfl⟩
    | .arr xs =>
      rw [tnjValue_arr uuid tr lang n k xs hk0]
      refine ⟨rfl, ?_⟩
      have h3 := mask_tnjItems uuid tr lang n xs (by rw [noNestedArr] at h; exact h)
      rw [maskKV_arr, maskKV_arr, h3]
    | .obj gs =>
      rw [tnjValue_obj uuid tr lang n k gs hk0]
      refine ⟨rfl, ?_⟩
      have h3 := mask_tnjEntries uuid tr lang n gs (by rw [noNestedArr] at h; exact h)
      rw [maskKV_obj, maskKV_obj, h3]
    | .num m =>
      rw [tnjValue_num uuid tr lang n k m hk0]
      exact ⟨rfl, rfl⟩
    | .bool b =>
      rw [tnjValue_bool uuid tr lang n k b hk0]
      exact ⟨rfl, rfl⟩
    | .null =>
      rw [tnjValue_null uuid tr lang n k hk0]
      exact ⟨rfl, rfl⟩

theorem mask_tnjItems (uuid : Nat → String) (tr : String → String → Option String)
    (lang : String) (n : Nat) (xs : List Json)
    (h : noNestedArrItems xs = true) :
    maskList (tnjItems uuid tr lang n xs).out = maskList xs := by
  match xs with
  | [] => rw [tnjItems]
  | x :: rest =>
    rw [noNestedArrItems, Bool.and_eq_true, Bool.and_eq_true] at h
    have h1 := mask_tnjItem uuid tr lang n x h.1.1 h.1.2
    have h2 := mask_tnjItems uuid tr lang (tnjItem uuid tr lang n x).next rest h.2
    rw [tnjItems]
    rw [maskList, maskList]
    rw [h1, h2]

theorem mask_tnjItem (uuid : Nat → String) (tr : String → String → Option String)
    (lang : String) (n : Nat) (x : Json)
    (hx : notArr x = true) (h : noNestedArr x = true) :
    maskJson (tnjItem uuid tr lang n x).out = maskJson x := by
  match x with
  | .obj fs =>
    have h3 := mask_tnjEntries uuid tr lang n fs (by rw [noNestedArr] at h; exact h)
    rw [tnjItem]
    rw [maskJson, maskJson, h3]
  | .arr ys => simp [notArr] at hx
  | .str s => simp [tnjItem.eq_def]
  | .num m => simp [tnjItem.eq_def]
  | .bool b => simp [tnjItem.eq_def]
  | .null => simp [tnjItem.eq_def]

end

theorem translateText_fst_none (tr : String → String → Option String)
    (htr : ∀ a b, tr a b = none) (text lang : String) :
    (translateText tr text lang).1 = none := by
  rw [translateText]
  split
  · rfl
  · simp [htr]

mutual

theorem revert_tnjEntries (uuid : Nat → String) (tr : String → String → Option String)
    (lang : String) (n : Nat) (fs : List (String × Json))
    (htr : ∀ a b, tr a b = none) (h : noNestedArrEntries fs = true) :
    (tnjEntries uuid tr lang n fs).out = fs := by
  match fs with
  | [] => rw [tnjEntries]
  | (k, v) :: rest =>
    rw [noNestedArrEntries, Bool.and_eq_true] at h
    have h1 := revert_tnjValue uuid tr lang n k v htr h.1
    have h2 := revert_tnjEntries uuid tr lang (tnjValue uuid tr lang n k v).next rest htr h.2
    rw [tnjEntries]
    rw [h1, h2]

theorem revert_tnjValue (uuid : Nat → String) (tr : String → String → Option String)
    (lang : String) (n : Nat) (k : String) (v : Json)
    (htr : ∀ a b, tr a b = none) (h : noNestedArr v = true) :
    (tnjValue uuid tr lang n k v).out = (k, v) := by
  by_cases hk0 : k = "original"
  · subst hk0
    rw [tnjValue_original]
  · match v with
    | .str s =>
      by_cases hk : k = "translated"
      · subst hk
        by_cases hp : (preprocessText uuid n s).text = ""
        · rw [tnjValue_translated_empty uuid tr lang n s hp]
        · match hc : translateText tr (preprocessText uuid n s).text lang with
          | (some t, cl) =>
            have := translateText_fst_none tr htr (preprocessText uuid n s).text lang
            rw [hc] at this
            simp at this
          | (none, cl) =>
            rw [tnjValue_translated_err uuid tr lang n s cl hp hc]
      · rw [tnjValue_str_other uuid tr lang n k s hk0 hk]
    | .arr xs =>
      rw [tnjValue_arr uuid tr lang n k xs hk0]
      have h3 := revert_tnjItems uuid tr lang n xs htr (by rw [noNestedArr] at h; exact h)
      rw [h3]
    | .obj gs =>
      rw [tnjValue_obj uuid tr lang n k gs hk0]
      have h3 := revert_tnjEntries uuid tr lang n gs htr (by rw [noNestedArr] at h; exact h)
      rw [h3]
    | .num m => rw [tnjValue_num uuid tr lang n k m hk0]
    | .bool b => rw [tnjValue_bool uuid tr lang n k b hk0]
    | .null => rw [tnjValue_null uuid tr lang n k hk0]

theorem revert_tnjItems (uuid : Nat → String) (tr : String → String → Option String)
    (lang : String) (n : Nat) (xs : List Json)
    (htr : ∀ a b, tr a b = none) (h : noNestedArrItems xs = true) :
    (tnjItems uuid tr lang n xs).out = xs := by
  match xs with
  | [] => rw [tnjItems]
  | x :: rest =>
    rw [noNestedArrItems, Bool.and_eq_true, Bool.and_eq_true] at h
    have h1 := revert_tnjItem uuid tr lang n x htr h.1.1 h.1.2
    have h2 := revert_tnjItems uuid tr lang (tnjItem uuid tr lang n x).next rest htr h.2
    rw [tnjItems]
    rw [h1, h2]

theorem revert_tnjItem (uuid : Nat → String) (tr : String → String → Option String)
    (lang : String) (n : Nat) (x : Json)
    (htr : ∀ a b, tr a b = none) (hx : notArr x = true) (h : noNestedArr x = true) :
    (tnjItem uuid tr lang n x).out = x := by
  match x with
  | .obj fs =>
    have h3 := revert_tnjEntries uuid tr lang n fs htr (by rw [noNestedArr] at h; exact h)
    rw [tnjItem]
    rw [h3]
  | .arr ys => simp [notArr] at hx
  | .str s => simp [tnjItem.eq_def]
  | .num m => simp [tnjItem.eq_def]
  | .bool b => simp [tnjItem.eq_def]
  | .null => simp [tnjItem.eq_def]

end

/-- Substring occurrence test: `pat` occurs somewhere in the list. -/
def containsSub (pat : List Char) : List Char → Bool
  | [] => pat.isPrefixOf ([] : List Char)
  | c :: cs => pat.isPrefixOf (c :: cs) || containsSub pat cs

theorem replaceFirstAux_not_contains (pat rep : List Char) :
    ∀ (l before : List Char), containsSub pat l = false →
    replaceFirstAux pat rep before l = l := by
  intro l
  induction l with
  | nil =>
    intro before h
    rw [containsSub] at h
    rw [replaceFirstAux, if_neg (by simp [h])]
  | cons c cs ih =>
    intro before h
    rw [containsSub, Bool.or_eq_false_iff] at h
    rw [replaceFirstAux, if_neg (by simp [h.1]), ih _ h.2]

theorem replaceFirstL_not_contains (pat rep l : List Char)
    (h : containsSub pat l = false) : replaceFirstL pat rep l = l :=
  replaceFirstAux_not_contains pat rep l [] h

theorem isPrefixOf_self_append (p b : List Char) : p.isPrefixOf (p ++ b) = true := by
  induction p with
  | nil =>
    cases b <;> rfl
  | cons c cs ih => simpa [List.isPrefixOf] using ih

theorem replaceFirstAux_head (pat rep b before : List Char) :
    replaceFirstAux pat rep before (pat ++ b) =
      expandRepl pat before b rep ++ b := by
  have hpre := isPrefixOf_self_append pat b
  match hp : pat ++ b with
  | [] =>
    rw [List.append_eq_nil] at hp
    obtain ⟨h1, h2⟩ := hp
    subst h1
    subst h2
    simp [replaceFirstAux]
  | c :: cs =>
    rw [hp] at hpre
    rw [replaceFirstAux, if_pos hpre, ← hp, List.drop_left]

theorem replaceFirstL_head (pat rep b : List Char) :
    replaceFirstL pat rep (pat ++ b) = expandRepl pat [] b rep ++ b :=
  replaceFirstAux_head pat rep b []

theorem replaceFirstAux_at (pat rep b : List Char) :
    ∀ a before : List Char,
    (∀ j, j < a.length → pat.isPrefixOf ((a ++ pat ++ b).drop j) = false) →
    replaceFirstAux pat rep before (a ++ pat ++ b) =
      a ++ expandRepl pat (before ++ a) b rep ++ b := by
  intro a
  induction a with
  | nil =>
    intro before _
    simpa using replaceFirstAux_head pat rep b before
  | cons x a' ih =>
    intro before hj
    have h0 : pat.isPrefixOf (x :: (a' ++ (pat ++ b))) = false := by
      have h1 := hj 0 (by simp)
      simpa using h1
    have hrec := ih (before ++ [x]) (fun j hjlt => by
      have h2 := hj (j + 1) (by simp; omega)
      simpa using h2)
    simp only [List.cons_append, List.append_assoc]
    rw [replaceFirstAux, if_neg (by rw [h0]; simp)]
    rw [← List.append_assoc, hrec]
    simp

theorem replaceFirstL_at (pat rep b : List Char) :
    ∀ a : List Char,
    (∀ j, j < a.length → pat.isPrefixOf ((a ++ pat ++ b).drop j) = false) →
    replaceFirstL pat rep (a ++ pat ++ b) = a ++ expandRepl pat a b rep ++ b := by
  intro a hj
  rw [replaceFirstL, replaceFirstAux_at pat rep b a [] hj]
  simp

/-- The translated text is parsed by the top level as an Option so the
empty preprocess result threads the token index through unchanged. -/
theorem preprocessText_empty (uuid : Nat → String) (n : Nat) :
    preprocessText uuid n "" = ⟨"", [], n⟩ := rfl

theorem tnjEntries_get (uuid : Nat → String) (tr : String → String → Option String)
    (lang : String) :
    ∀ (fs : List (String × Json)) (n i : Nat) (k : String) (v : Json),
    fs[i]? = some (k, v) →
    ∃ m, (tnjEntries uuid tr lang n fs).out[i]? = some (tnjValue uuid tr lang m k v).out := by
  intro fs
  induction fs with
  | nil => intro n i k v h; simp at h
  | cons p rest ih =>
    intro n i k v h
    obtain ⟨k0, v0⟩ := p
    match i with
    | 0 =>
      simp only [List.getElem?_cons_zero, Option.some.injEq, Prod.mk.injEq] at h
      refine ⟨n, ?_⟩
      rw [tnjEntries, h.1, h.2]
      simp
    | i + 1 =>
      simp only [List.getElem?_cons_succ] at h
      obtain ⟨m, hm⟩ := ih (tnjValue uuid tr lang n k0 v0).next i k v h
      refine ⟨m, ?_⟩
      rw [tnjEntries]
      simpa using hm

/-- C10: the translation client `translateText` throws (result `none`)
and issues no request to the external capability whenever its text or its
targetLanguage argument is the empty string. -/
theorem claim10_client_precondition (tr : String → String → Option String)
    (text lang : String) (h : text = "" ∨ lang = "") :
    translateText tr text lang = (none, []) := by
  rw [translateText, if_pos h]

theorem claim10_witness :
    ("" = "" ∨ "es" = "") ∧ translateText (fun t _ => some t) "" "es" = (none, []) :=
  ⟨Or.inl rfl, claim10_client_precondition (fun t _ => some t) "" "es" (Or.inl rfl)⟩

/-- C5 counterexample: decode does not in general replace the token's
delimited form by the fragment itself.  JavaScript replacement-string
substitution turns the template of two dollar signs inside the fragment
into a single dollar sign, so the reachable fragment bold-wrapped double
dollar is inserted as bold-wrapped single dollar, not as the fragment. -/
theorem claim5_counterexample :
    postprocessText (String.mk (tokDelim "u9")) [("u9", "<b>$$</b>")] =
      "<b>$</b>" ∧ ("<b>$</b>" : String) ≠ "<b>$$</b>" := by
  refine ⟨rfl, ?_⟩
  decide

/-- C5 (amended): decode semantics of `postprocessText`.  Each pair is
applied as an independent first-occurrence replacement of the token's
delimited form; a pair whose token does not occur leaves the text
unchanged (and no error is possible, the function is total); when the
delimited token first occurs after a prefix, only that occurrence is
rewritten, the rest of the text is kept verbatim, and what is inserted is
the fragment after GetSubstitution expansion of its dollar templates; in
particular a fragment containing no substitution template is inserted
verbatim. -/
theorem claim5_decode_semantics (id c : String) (t : String) :
    (∀ rest : List (String × String),
      postprocessText t ((id, c) :: rest) =
        postprocessText (replaceFirst t (String.mk (tokDelim id)) c) rest) ∧
    (containsSub (tokDelim id) t.data = false → postprocessText t [(id, c)] = t) ∧
    (∀ a b : List Char, t.data = a ++ tokDelim id ++ b →
      (∀ j, j < a.length →
        (tokDelim id).isPrefixOf ((a ++ tokDelim id ++ b).drop j) = false) →
      postprocessText t [(id, c)] =
          String.mk (a ++ expandRepl (tokDelim id) a b c.data ++ b) ∧
        (noTmpl c.data = true →
          postprocessText t [(id, c)] = String.mk (a ++ c.data ++ b))) := by
  refine ⟨fun rest => rfl, fun habs => ?_, fun a b hsplit hj => ?_⟩
  · show replaceFirst t (String.mk (tokDelim id)) c = t
    rw [replaceFirst]
    rw [replaceFirstL_not_contains _ _ _ habs]
  · have hgen : postprocessText t [(id, c)] =
        String.mk (a ++ expandRepl (tokDelim id) a b c.data ++ b) := by
      show replaceFirst t (String.mk (tokDelim id)) c = _
      rw [replaceFirst, hsplit]
      rw [replaceFirstL_at _ _ _ _ hj]
    refine ⟨hgen, fun hnt => ?_⟩
    rw [hgen, expandRepl_noTmpl _ _ _ _ hnt]

theorem claim5_witness :
    ((String.mk (tokDelim "u9" ++ 'x' :: tokDelim "u9")).data =
        [] ++ tokDelim "u9" ++ ('x' :: tokDelim "u9") ∧
      noTmpl "B".data = true ∧
      postprocessText (String.mk (tokDelim "u9" ++ 'x' :: tokDelim "u9")) [("u9", "B")] =
        String.mk ([] ++ "B".data ++ ('x' :: tokDelim "u9"))) ∧
    containsSub (tokDelim "u7") "plain".data = false ∧
    postprocessText "plain" [("u7", "B")] = "plain" := by
  refine ⟨⟨?_, ?_, ?_⟩, ?_, ?_⟩
  · decide
  · decide
  · exact ((claim5_decode_semantics "u9" "B"
      (String.mk (tokDelim "u9" ++ 'x' :: tokDelim "u9"))).2.2 []
      ('x' :: tokDelim "u9") (by decide) (by decide)).2 (by decide)
  · decide
  · exact (claim5_decode_semantics "u7" "B" "plain").2.1 (by decide)

/-- C3: values under a key literally named `original` appear unchanged at
the same position of the output, and the translator does not recurse into
them and issues no capability request for them, whatever their shape. -/
theorem claim3_original_immutability (uuid : Nat → String)
    (tr : String → String → Option String) (lang : String) (n : Nat)
    (fs : List (String × Json)) (i : Nat) (v : Json)
    (h : fs[i]? = some ("original", v)) :
    (tnjEntries uuid tr lang n fs).out[i]? = some ("original", v) ∧
    tnjValue uuid tr lang n "original" v = ⟨("original", v), [], n⟩ := by
  obtain ⟨m, hm⟩ := tnjEntries_get uuid tr lang fs n i "original" v h
  rw [tnjValue_original uuid tr lang m v] at hm
  exact ⟨hm, tnjValue_original uuid tr lang n v⟩

theorem claim3_witness :
    [("original", Json.obj [("translated", Json.str "keep")])][0]? =
        some ("original", Json.obj [("translated", Json.str "keep")]) ∧
    ((tnjEntries uuidD (fun t _ => some t) "es" 0
        [("original", Json.obj [("translated", Json.str "keep")])]).out[0]? =
      some ("original", Json.obj [("translated", Json.str "keep")]) ∧
    tnjValue uuidD (fun t _ => some t) "es" 0 "original"
        (Json.obj [("translated", Json.str "keep")]) =
      ⟨("original", Json.obj [("translated", Json.str "keep")]), [], 0⟩) :=
  ⟨rfl, claim3_original_immutability uuidD (fun t _ => some t) "es" 0
    [("original", Json.obj [("translated", Json.str "keep")])] 0
    (Json.obj [("translated", Json.str "keep")]) rfl⟩

/-- C6: a `translated` leaf holding the empty string is emitted unchanged
and the external capability is not invoked for it (the empty preprocessed
text short-circuits before `translateText`). -/
theorem claim6_empty_short_circuit (uuid : Nat → String)
    (tr : String → String → Option String) (lang : String) (n : Nat)
    (fs : List (String × Json)) (i : Nat)
    (h : fs[i]? = some ("translated", Json.str "")) :
    (tnjEntries uuid tr lang n fs).out[i]? = some ("translated", Json.str "") ∧
    tnjValue uuid tr lang n "translated" (Json.str "") =
      ⟨("translated", Json.str ""), [], n⟩ := by
  have hval : ∀ m : Nat, tnjValue uuid tr lang m "translated" (Json.str "") =
      ⟨("translated", Json.str ""), [], m⟩ := by
    intro m
    have h1 : (preprocessText uuid m "").text = "" := by rw [preprocessText_empty]
    have h2 := tnjValue_translated_empty uuid tr lang m "" h1
    rw [preprocessText_empty] at h2
    exact h2
  obtain ⟨m, hm⟩ := tnjEntries_get uuid tr lang fs n i "translated" (Json.str "") h
  rw [hval m] at hm
  exact ⟨hm, hval n⟩

theorem claim6_witness :
    [("translated", Json.str "")][0]? = some ("translated", Json.str "") ∧
    ((tnjEntries uuidD (fun t _ => some t) "es" 0
        [("translated", Json.str "")]).out[0]? = some ("translated", Json.str "") ∧
    tnjValue uuidD (fun t _ => some t) "es" 0 "translated" (Json.str "") =
      ⟨("translated", Json.str ""), [], 0⟩) :=
  ⟨rfl, claim6_empty_short_circuit uuidD (fun t _ => some t) "es" 0
    [("translated", Json.str "")] 0 rfl⟩

/-- C1 as stated is false: a sequence nested directly inside another
sequence is fed back through `Object.entries` and rebuilt as an
index-keyed mapping, so the output shape differs from the input shape
even though no `translated` string is involved. -/
theorem claim1_counterexample :
    maskEntries (tnjEntries uuidD (fun t _ => some t) "es" 0
        [("k", Json.arr [Json.arr []])]).out ≠
      maskEntries [("k", Json.arr [Json.arr []])] := by
  have e1 : maskEntries (tnjEntries uuidD (fun t _ => some t) "es" 0
      [("k", Json.arr [Json.arr []])]).out = [("k", Json.arr [Json.obj []])] := rfl
  have e2 : maskEntries [("k", Json.arr [Json.arr []])] =
      [("k", Json.arr [Json.arr []])] := rfl
  rw [e1, e2]
  simp

/-- C1 amended: for every document in which no sequence occurs directly as
an element of another sequence, the output of `translateNestedJson` has
exactly the structural shape of the input (identical key sets and order in
every mapping, identical sequence lengths and order, identical nesting)
and differs from it at most in the content of string values stored under
keys literally named `translated`: both sides have the same mask. -/
theorem claim1_shape_preservation (uuid : Nat → String)
    (tr : String → String → Option String) (lang : String) (n : Nat)
    (fs : List (String × Json)) (h : noNestedArrEntries fs = true) :
    maskEntries (tnjEntries uuid tr lang n fs).out = maskEntries fs :=
  mask_tnjEntries uuid tr lang n fs h

theorem claim1_witness :
    noNestedArrEntries
        [("g", Json.obj [("original", Json.str "a"), ("translated", Json.str "b"),
          ("m", Json.num 3),
          ("l", Json.arr [Json.obj [("translated", Json.str "c")], Json.str "s"])])] = true ∧
    maskEntries (tnjEntries uuidD (fun t _ => some ("T" ++ t)) "es" 0
        [("g", Json.obj [("original", Json.str "a"), ("translated", Json.str "b"),
          ("m", Json.num 3),
          ("l", Json.arr [Json.obj [("translated", Json.str "c")], Json.str "s"])])]).out =
      maskEntries
        [("g", Json.obj [("original", Json.str "a"), ("translated", Json.str "b"),
          ("m", Json.num 3),
          ("l", Json.arr [Json.obj [("translated", Json.str "c")], Json.str "s"])])] :=
  ⟨rfl, claim1_shape_preservation uuidD (fun t _ => some ("T" ++ t)) "es" 0
    [("g", Json.obj [("original", Json.str "a"), ("translated", Json.str "b"),
      ("m", Json.num 3),
      ("l", Json.arr [Json.obj [("translated", Json.str "c")], Json.str "s"])])] rfl⟩

/-- C7 as stated is false: with the external capability entirely
unreachable (every request fails), `processTranslations` does not surface
a whole-operation error and does not stop before the leaves.  The leaf is
processed (a request for it is issued), its value silently reverts, and a
complete output tree is returned to the caller. -/
theorem claim7_counterexample :
    processTranslations uuidD (fun _ _ => none) "es"
        (some (Json.obj [("greeting", Json.obj [("translated", Json.str "hi")])])) =
      .ok (Json.obj [("greeting", Json.obj [("translated", Json.str "hi")])]) ∧
    (tnjEntries uuidD (fun _ _ => none) "es" 0
        [("greeting", Json.obj [("translated", Json.str "hi")])]).calls =
      [("hi", "es")] :=
  ⟨rfl, rfl⟩

/-- C7 amended: a configuration failure of the external capability is not
surfaced as a whole-operation error and does not stop the traversal;
every affected leaf is caught individually and reverted to its input
value, and the caller receives the complete output tree (equal to the
input on documents without directly nested sequences) with no top-level
error. -/
theorem claim7_config_error (uuid : Nat → String)
    (tr : String → String → Option String) (lang : String)
    (fs : List (String × Json)) (htr : ∀ a b, tr a b = none)
    (h : noNestedArrEntries fs = true) :
    processTranslations uuid tr lang (some (Json.obj fs)) = .ok (Json.obj fs) := by
  show ProcResult.ok (Json.obj (tnjEntries uuid tr lang 0 fs).out) = .ok (Json.obj fs)
  rw [revert_tnjEntries uuid tr lang 0 fs htr h]

theorem claim7_witness :
    (∀ a b : String, (fun _ _ => (none : Option String)) a b = none) ∧
    noNestedArrEntries [("greeting", Json.obj [("original", Json.str "x"),
        ("translated", Json.str "hello")])] = true ∧
    processTranslations uuidD (fun _ _ => none) "fr"
        (some (Json.obj [("greeting", Json.obj [("original", Json.str "x"),
          ("translated", Json.str "hello")])])) =
      .ok (Json.obj [("greeting", Json.obj [("original", Json.str "x"),
        ("translated", Json.str "hello")])]) :=
  ⟨fun _ _ => rfl, rfl,
    claim7_config_error uuidD (fun _ _ => none) "fr"
      [("greeting", Json.obj [("original", Json.str "x"),
        ("translated", Json.str "hello")])] (fun _ _ => rfl) rfl⟩

/-- C8 as stated is false: a top-level input that is valid JSON but not an
object (here the number 5) is not rejected; no error is surfaced and an
output tree (the empty object) is produced. -/
theorem claim8_counterexample :
    processTranslations uuidD (fun t _ => some t) "es" (some (Json.num 5)) =
        .ok (Json.obj []) ∧
    processTranslations uuidD (fun t _ => some t) "es" (some (Json.num 5)) ≠
        .errorOut := by
  refine ⟨rfl, ?_⟩
  intro h
  rw [show processTranslations uuidD (fun t _ => some t) "es" (some (Json.num 5)) =
      .ok (Json.obj []) from rfl] at h
  simp at h

/-- C8 amended: invalid JSON input and a top-level JSON null surface an
error with no output tree; every other non-object top-level value is not
rejected: it is processed through its `Object.entries` view, producing an
object-shaped output (empty for numbers and booleans, index-keyed for
arrays and strings). -/
theorem claim8_input_format (uuid : Nat → String)
    (tr : String → String → Option String) (lang : String) :
    processTranslations uuid tr lang none = .errorOut ∧
    processTranslations uuid tr lang (some Json.null) = .errorOut ∧
    (∀ m : Int, processTranslations uuid tr lang (some (Json.num m)) =
      .ok (Json.obj [])) ∧
    (∀ b : Bool, processTranslations uuid tr lang (some (Json.bool b)) =
      .ok (Json.obj [])) ∧
    (∀ xs : List Json, processTranslations uuid tr lang (some (Json.arr xs)) =
      .ok (Json.obj (tnjEntries uuid tr lang 0 (arrEntries 0 xs)).out)) ∧
    (∀ s : String, processTranslations uuid tr lang (some (Json.str s)) =
      .ok (Json.obj (tnjEntries uuid tr lang 0 (strEntries 0 s.data)).out)) :=
  ⟨rfl, rfl, fun _ => rfl, fun _ => rfl, fun _ => rfl, fun _ => rfl⟩

/-- C2: failure isolation per leaf.  For a document with two sibling
records each holding a `translated` string leaf, if the capability fails
for the first leaf's encoded text and succeeds for the second, the output
keeps the first leaf's value exactly as in the input while the second is
translated; the failure neither alters nor aborts the processing of the
sibling. -/
theorem claim2_failure_isolation (uuid : Nat → String)
    (tr : String → String → Option String) (lang : String) (n : Nat)
    (kA kB a b tb : String)
    (hkA0 : kA ≠ "original") (hkA1 : kA ≠ "translated")
    (hkB0 : kB ≠ "original") (hl : lang ≠ "")
    (hpa : (preprocessText uuid n a).text ≠ "")
    (hfa : tr (preprocessText uuid n a).text lang = none)
    (hpb : (preprocessText uuid (preprocessText uuid n a).next b).text ≠ "")
    (hsb : tr (preprocessText uuid (preprocessText uuid n a).next b).text lang = some tb) :
    (tnjEntries uuid tr lang n
        [(kA, Json.obj [("translated", Json.str a)]),
         (kB, Json.obj [("translated", Json.str b)])]).out =
      [(kA, Json.obj [("translated", Json.str a)]),
       (kB, Json.obj [("translated", Json.str (postprocessText tb
          (preprocessText uuid (preprocessText uuid n a).next b).placeholders))])] := by
  have eA := tnjValue_translated_err uuid tr lang n a
    [((preprocessText uuid n a).text, lang)] hpa
    (by rw [translateText, if_neg (not_or.mpr ⟨hpa, hl⟩), hfa])
  have eIA : tnjEntries uuid tr lang n [("translated", Json.str a)] =
      ⟨[("translated", Json.str a)], [((preprocessText uuid n a).text, lang)],
       (preprocessText uuid n a).next⟩ := by
    rw [tnjEntries, eA]
    rw [show (tnjEntries uuid tr lang
      (⟨("translated", Json.str a), [((preprocessText uuid n a).text, lang)],
        (preprocessText uuid n a).next⟩ : TOut (String × Json)).next []) =
      ⟨[], [], (preprocessText uuid n a).next⟩ from by rw [tnjEntries]]
    rfl
  have eVA : tnjValue uuid tr lang n kA (Json.obj [("translated", Json.str a)]) =
      ⟨(kA, Json.obj [("translated", Json.str a)]),
       [((preprocessText uuid n a).text, lang)], (preprocessText uuid n a).next⟩ := by
    rw [tnjValue_obj uuid tr lang n kA _ hkA0, eIA]
  have eB := tnjValue_translated_ok uuid tr lang (preprocessText uuid n a).next b tb hpb hl hsb
  have eIB : tnjEntries uuid tr lang (preprocessText uuid n a).next
      [("translated", Json.str b)] =
      ⟨[("translated", Json.str (postprocessText tb
          (preprocessText uuid (preprocessText uuid n a).next b).placeholders))],
       [((preprocessText uuid (preprocessText uuid n a).next b).text, lang)],
       (preprocessText uuid (preprocessText uuid n a).next b).next⟩ := by
    rw [tnjEntries, eB]
    rw [show (tnjEntries uuid tr lang
      (⟨("translated", Json.str (postprocessText tb
          (preprocessText uuid (preprocessText uuid n a).next b).placeholders)),
        [((preprocessText uuid (preprocessText uuid n a).next b).text, lang)],
        (preprocessText uuid (preprocessText uuid n a).next b).next⟩ :
          TOut (String × Json)).next []) =
      ⟨[], [], (preprocessText uuid (preprocessText uuid n a).next b).next⟩ from by
        rw [tnjEntries]]
    rfl
  have eVB : tnjValue uuid tr lang (preprocessText uuid n a).next kB
      (Json.obj [("translated", Json.str b)]) =
      ⟨(kB, Json.obj [("translated", Json.str (postprocessText tb
          (preprocessText uuid (preprocessText uuid n a).next b).placeholders))]),
       [((preprocessText uuid (preprocessText uuid n a).next b).text, lang)],
       (preprocessText uuid (preprocessText uuid n a).next b).next⟩ := by
    rw [tnjValue_obj uuid tr lang (preprocessText uuid n a).next kB _ hkB0, eIB]
  rw [tnjEntries, eVA]
  rw [show ((⟨(kA, Json.obj [("translated", Json.str a)]),
      [((preprocessText uuid n a).text, lang)],
      (preprocessText uuid n a).next⟩ : TOut (String × Json)).next) =
    (preprocessText uuid n a).next from rfl]
  rw [tnjEntries, eVB]
  rw [show ∀ m : Nat, tnjEntries uuid tr lang m ([] : List (String × Json)) =
    ⟨[], [], m⟩ from fun m => by rw [tnjEntries]]

theorem claim2_witness :
    (preprocessText uuidD 0 "x").text ≠ "" ∧
    (fun t (_ : String) => if t = "y" then some "Y" else none)
        (preprocessText uuidD 0 "x").text "es" = none ∧
    (tnjEntries uuidD (fun t _ => if t = "y" then some "Y" else none) "es" 0
        [("A", Json.obj [("translated", Json.str "x")]),
         ("B", Json.obj [("translated", Json.str "y")])]).out =
      [("A", Json.obj [("translated", Json.str "x")]),
       ("B", Json.obj [("translated", Json.str (postprocessText "Y"
          (preprocessText uuidD (preprocessText uuidD 0 "x").next "y").placeholders))])] :=
  ⟨by decide, by decide,
    claim2_failure_isolation uuidD (fun t _ => if t = "y" then some "Y" else none)
      "es" 0 "A" "B" "x" "y" "Y" (by decide) (by decide) (by decide) (by decide)
      (by decide) (by decide) (by decide) (by decide)⟩

/-- Characters that play no role in any of the four patterns: not a
pattern opener or closer, not a quote, not a brace, and matched by the
regex dot. -/
def safeChar (c : Char) : Bool :=
  !(c = '<' || c = '$' || c = lbrace || c = rbrace || c = '"' || dotExcluded c)

/-- A pattern can never start inside `cl`, whatever text follows it. -/
def neverOpens (pat cl : List Char) : Prop :=
  ∀ (j : Nat) (rest : List Char), j < cl.length → pat.isPrefixOf (cl.drop j ++ rest) = false

theorem neverOpens_append {pat a b : List Char}
    (ha : neverOpens pat a) (hb : neverOpens pat b) : neverOpens pat (a ++ b) := by
  intro j rest hj
  rcases Nat.lt_or_ge j a.length with hcase | hcase
  · have hdrop : (a ++ b).drop j = a.drop j ++ b := by
      rw [List.drop_append_of_le_length (Nat.le_of_lt hcase)]
    rw [hdrop, List.append_assoc]
    exact ha j (b ++ rest) hcase
  · obtain ⟨d, rfl⟩ : ∃ d, j = a.length + d := ⟨j - a.length, by omega⟩
    rw [List.drop_append]
    refine hb d rest ?_
    simp at hj
    omega

theorem isPrefixOf_cons_false {o c : Char} {os l : List Char} (h : o ≠ c) :
    (o :: os).isPrefixOf (c :: l) = false := by
  simp [List.isPrefixOf, h]

theorem neverOpens_of_head_ne {o : Char} {os cl : List Char}
    (h : ∀ c ∈ cl, c ≠ o) : neverOpens (o :: os) cl := by
  intro j rest hj
  match hd : cl.drop j with
  | [] =>
    have := congrArg List.length hd
    simp at this
    omega
  | c :: tl =>
    have hc : c ∈ cl := by
      have hm : c ∈ cl.drop j := by rw [hd]; exact List.mem_cons_self c tl
      exact List.drop_subset j cl hm
    rw [List.cons_append]
    exact isPrefixOf_cons_false (fun he => (h c hc) he.symm)

theorem isPrefixOf_getElem {pat l : List Char} (h : pat.isPrefixOf l = true)
    (m : Nat) (hm : m < pat.length) : l[m]? = pat[m]? := by
  rw [List.isPrefixOf_iff_prefix] at h
  obtain ⟨t, ht⟩ := h
  rw [← ht, List.getElem?_append_left hm]

/-- Decidable sufficient criterion for `neverOpens`: at every start
position inside `cl` the pattern already disagrees with `cl` itself at
some index. -/
def mismatchInside (pat cl : List Char) : Bool :=
  (List.range cl.length).all fun j =>
    (List.range (min pat.length (cl.length - j))).any fun m => cl[j + m]? ≠ pat[m]?

theorem neverOpens_of_mismatch {pat cl : List Char}
    (h : mismatchInside pat cl = true) : neverOpens pat cl := by
  intro j rest hj
  rw [mismatchInside, List.all_eq_true] at h
  have hj2 := h j (by simpa using hj)
  rw [List.any_eq_true] at hj2
  obtain ⟨m, hm1, hm2⟩ := hj2
  simp only [List.mem_range, Nat.lt_min] at hm1
  by_contra hcon
  rw [Bool.not_eq_false] at hcon
  have hget := isPrefixOf_getElem hcon m (by omega)
  have hcl : (cl.drop j ++ rest)[m]? = cl[j + m]? := by
    rw [List.getElem?_append_left (by simp; omega), List.getElem?_drop]
  rw [hcl] at hget
  simp only [decide_eq_true_eq] at hm2
  exact hm2 hget

theorem passAux_skip (uuid : Nat → String) (o : Char) (os close : List Char)
    (cl : List Char) (h : neverOpens (o :: os) cl) :
    ∀ (n : Nat) (rest : List Char),
    passAux uuid o os close n (cl ++ rest) =
      ⟨cl ++ (passAux uuid o os close n rest).out, (passAux uuid o os close n rest).pairs,
       (passAux uuid o os close n rest).next⟩ := by
  induction cl with
  | nil => intro n rest; rfl
  | cons c cl' ih =>
    intro n rest
    have h0 : (o :: os).isPrefixOf (c :: (cl' ++ rest)) = false := by
      have := h 0 rest (by simp)
      simpa using this
    rw [List.cons_append, passAux_cons_noOpen uuid o os close n c (cl' ++ rest) h0]
    rw [ih (fun j r hj => h (j + 1) r (by simp; omega)) n rest]
    rfl

theorem linkAux_skip (uuid : Nat → String) (cl : List Char)
    (h : neverOpens linkOpen cl) :
    ∀ (n : Nat) (rest : List Char),
    linkAux uuid n (cl ++ rest) =
      ⟨cl ++ (linkAux uuid n rest).out, (linkAux uuid n rest).pairs,
       (linkAux uuid n rest).next⟩ := by
  induction cl with
  | nil => intro n rest; rfl
  | cons c cl' ih =>
    intro n rest
    have h0 : linkOpen.isPrefixOf (c :: (cl' ++ rest)) = false := by
      have := h 0 rest (by simp)
      simpa using this
    rw [List.cons_append, linkAux_cons_noOpen uuid n c (cl' ++ rest) h0]
    rw [ih (fun j r hj => h (j + 1) r (by simp; omega)) n rest]
    rfl

theorem replaceFirstAux_skip (pat rep cl : List Char) (h : neverOpens pat cl) :
    ∀ before rest : List Char,
    replaceFirstAux pat rep before (cl ++ rest) =
      cl ++ replaceFirstAux pat rep (before ++ cl) rest := by
  induction cl with
  | nil => intro before rest; simp
  | cons c cl' ih =>
    intro before rest
    have h0 : pat.isPrefixOf (c :: (cl' ++ rest)) = false := by
      have := h 0 rest (by simp)
      simpa using this
    rw [List.cons_append, replaceFirstAux, if_neg (by simp [h0])]
    rw [ih (fun j r hj => h (j + 1) r (by simp; omega)) (before ++ [c]) rest]
    simp

theorem replaceFirstAux_acc (pat rep : List Char) (hnt : noTmpl rep = true) :
    ∀ l before before2 : List Char,
    replaceFirstAux pat rep before l = replaceFirstAux pat rep before2 l := by
  intro l
  induction l with
  | nil =>
    intro before before2
    rw [replaceFirstAux, replaceFirstAux]
    by_cases hp : pat.isPrefixOf ([] : List Char) = true
    · rw [if_pos hp, if_pos hp, expandRepl_noTmpl _ _ _ _ hnt,
        expandRepl_noTmpl _ _ _ _ hnt]
    · rw [if_neg hp, if_neg hp]
  | cons c cs ih =>
    intro before before2
    rw [replaceFirstAux, replaceFirstAux]
    by_cases hp : pat.isPrefixOf (c :: cs) = true
    · rw [if_pos hp, if_pos hp, expandRepl_noTmpl _ _ _ _ hnt,
        expandRepl_noTmpl _ _ _ _ hnt]
    · rw [if_neg hp, if_neg hp, ih (before ++ [c]) (before2 ++ [c])]

theorem replaceFirstL_skip (pat rep cl : List Char) (hnt : noTmpl rep = true)
    (h : neverOpens pat cl) :
    ∀ rest : List Char,
    replaceFirstL pat rep (cl ++ rest) = cl ++ replaceFirstL pat rep rest := by
  intro rest
  rw [replaceFirstL, replaceFirstAux_skip pat rep cl h [] rest]
  rw [replaceFirstAux_acc pat rep hnt rest ([] ++ cl) []]
  rfl

theorem scanTo_exact (ch : Char) (ct s rest : List Char)
    (hs : ∀ c ∈ s, c ≠ ch ∧ dotExcluded c = false) :
    scanTo (ch :: ct) (s ++ (ch :: ct) ++ rest) = some (s, rest) := by
  induction s with
  | nil =>
    simp only [List.nil_append]
    match hsplit : (ch :: ct) ++ rest with
    | [] => simp at hsplit
    | c :: cs =>
      have hpre : (ch :: ct).isPrefixOf ((ch :: ct) ++ rest) = true :=
        isPrefixOf_self_append _ _
      rw [hsplit] at hpre
      rw [scanTo, if_pos hpre, ← hsplit, List.drop_left]
  | cons c s' ih =>
    have hc := hs c (List.mem_cons_self c s')
    have hpre : (ch :: ct).isPrefixOf (c :: (s' ++ (ch :: ct) ++ rest)) = false :=
      isPrefixOf_cons_false (fun he => hc.1 he.symm)
    have hrec := ih (fun d hd => hs d (List.mem_cons_of_mem c hd))
    simp only [List.cons_append]
    rw [scanTo, if_neg (by rw [show ((ch :: ct).isPrefixOf
        (c :: (s' ++ (ch :: ct) ++ rest))) = false from hpre]; simp),
      if_neg (by rw [hc.2]; simp)]
    simp only [hrec]

/-- A markup shape for round-trip statements: a string is described as a
concatenation of plain segments and non-overlapping fragments of the four
pattern classes; `tok` denotes an already-extracted delimited token and
appears only in intermediate states of the encoder and decoder. -/
inductive Frag where
  | plain : String → Frag
  | bold : String → Frag
  | ital : String → Frag
  | link : String → String → Frag
  | interp : String → Frag
  | tok : String → Frag
deriving Repr, DecidableEq

/-- Characters of one fragment as they appear in the described string. -/
def renderF : Frag → List Char
  | .plain s => s.data
  | .bold s => '<' :: 'b' :: '>' :: (s.data ++ boldClose)
  | .ital s => '<' :: 'i' :: '>' :: (s.data ++ italClose)
  | .link h c => linkOpen ++ h.data ++ linkMid ++ c.data ++ linkClose
  | .interp s => '$' :: lbrace :: (s.data ++ [rbrace])
  | .tok t => tokDelim t

/-- Characters of a fragment list. -/
def renderL : List Frag → List Char
  | [] => []
  | p :: ps => renderF p ++ renderL ps

/-- All inner content of the fragment consists of safe characters. -/
def goodFrag : Frag → Bool
  | .plain s => s.data.all safeChar
  | .bold s => s.data.all safeChar
  | .ital s => s.data.all safeChar
  | .link h c => h.data.all safeChar && c.data.all safeChar
  | .interp s => s.data.all safeChar
  | .tok t => t.data.all safeChar

/-- All parts are good. -/
def goodParts (ps : List Frag) : Bool := ps.all goodFrag

/-- Fragment class tests. -/
def isTok : Frag → Bool
  | .tok _ => true
  | _ => false

/-- Bold test. -/
def isBold : Frag → Bool
  | .bold _ => true
  | _ => false

/-- Italic test. -/
def isItal : Frag → Bool
  | .ital _ => true
  | _ => false

/-- Hyperlink test. -/
def isLink : Frag → Bool
  | .link _ _ => true
  | _ => false

/-- Interpolation test. -/
def isInterp : Frag → Bool
  | .interp _ => true
  | _ => false

theorem safeChar_spec {c : Char} (h : safeChar c = true) :
    c ≠ '<' ∧ c ≠ '$' ∧ c ≠ lbrace ∧ c ≠ rbrace ∧ c ≠ '"' ∧ dotExcluded c = false := by
  rw [safeChar] at h
  simp only [Bool.not_eq_true'] at h
  repeat rw [Bool.or_eq_false_iff] at h
  refine ⟨?_, ?_, ?_, ?_, ?_, h.2⟩ <;> simp_all

theorem neverOpens_safe_head {o : Char} {os cl : List Char}
    (ho : safeChar o = false) (h : cl.all safeChar = true) : neverOpens (o :: os) cl := by
  refine neverOpens_of_head_ne fun c hc he => ?_
  rw [List.all_eq_true] at h
  have := h c hc
  rw [he, ho] at this
  simp at this

theorem neverOpens_boldPat (p : Frag) (hg : goodFrag p = true) (hk : isBold p = false) :
    neverOpens ['<', 'b', '>'] (renderF p) := by
  match p with
  | .plain s => exact neverOpens_safe_head (by decide) hg
  | .bold s => simp [isBold] at hk
  | .ital s =>
    show neverOpens ['<', 'b', '>'] (['<', 'i', '>'] ++ (s.data ++ italClose))
    refine neverOpens_append (neverOpens_of_mismatch (by decide))
      (neverOpens_append ?_ (neverOpens_of_mismatch (by decide)))
    exact neverOpens_safe_head (by decide) hg
  | .link h c =>
    rw [goodFrag, Bool.and_eq_true] at hg
    rw [show renderF (Frag.link h c) =
      linkOpen ++ (h.data ++ (linkMid ++ (c.data ++ linkClose))) from by
        simp [renderF]]
    refine neverOpens_append (neverOpens_of_mismatch (by decide))
      (neverOpens_append (neverOpens_safe_head (by decide) hg.1)
        (neverOpens_append (neverOpens_of_mismatch (by decide))
          (neverOpens_append (neverOpens_safe_head (by decide) hg.2)
            (neverOpens_of_mismatch (by decide)))))
  | .interp s =>
    show neverOpens ['<', 'b', '>'] (['$', lbrace] ++ (s.data ++ [rbrace]))
    refine neverOpens_append (neverOpens_of_mismatch (by decide))
      (neverOpens_append (neverOpens_safe_head (by decide) hg)
        (neverOpens_of_mismatch (by decide)))
  | .tok t =>
    show neverOpens ['<', 'b', '>'] ([lbrace, lbrace] ++ (t.data ++ [rbrace, rbrace]))
    refine neverOpens_append (neverOpens_of_mismatch (by decide))
      (neverOpens_append (neverOpens_safe_head (by decide) hg)
        (neverOpens_of_mismatch (by decide)))

theorem neverOpens_italPat (p : Frag) (hg : goodFrag p = true) (hk : isItal p = false) :
    neverOpens ['<', 'i', '>'] (renderF p) := by
  match p with
  | .plain s => exact neverOpens_safe_head (by decide) hg
  | .ital s => simp [isItal] at hk
  | .bold s =>
    show neverOpens ['<', 'i', '>'] (['<', 'b', '>'] ++ (s.data ++ boldClose))
    refine neverOpens_append (neverOpens_of_mismatch (by decide))
      (neverOpens_append (neverOpens_safe_head (by decide) hg)
        (neverOpens_of_mismatch (by decide)))
  | .link h c =>
    rw [goodFrag, Bool.and_eq_true] at hg
    rw [show renderF (Frag.link h c) =
      linkOpen ++ (h.data ++ (linkMid ++ (c.data ++ linkClose))) from by
        simp [renderF]]
    refine neverOpens_append (neverOpens_of_mismatch (by decide))
      (neverOpens_append (neverOpens_safe_head (by decide) hg.1)
        (neverOpens_append (neverOpens_of_mismatch (by decide))
          (neverOpens_append (neverOpens_safe_head (by decide) hg.2)
            (neverOpens_of_mismatch (by decide)))))
  | .interp s =>
    show neverOpens ['<', 'i', '>'] (['$', lbrace] ++ (s.data ++ [rbrace]))
    refine neverOpens_append (neverOpens_of_mismatch (by decide))
      (neverOpens_append (neverOpens_safe_head (by decide) hg)
        (neverOpens_of_mismatch (by decide)))
  | .tok t =>
    show neverOpens ['<', 'i', '>'] ([lbrace, lbrace] ++ (t.data ++ [rbrace, rbrace]))
    refine neverOpens_append (neverOpens_of_mismatch (by decide))
      (neverOpens_append (neverOpens_safe_head (by decide) hg)
        (neverOpens_of_mismatch (by decide)))

theorem neverOpens_linkPat (p : Frag) (hg : goodFrag p = true) (hk : isLink p = false) :
    neverOpens linkOpen (renderF p) := by
  match p with
  | .plain s => exact neverOpens_safe_head (by decide) hg
  | .link h c => simp [isLink] at hk
  | .bold s =>
    show neverOpens linkOpen (['<', 'b', '>'] ++ (s.data ++ boldClose))
    refine neverOpens_append (neverOpens_of_mismatch (by decide))
      (neverOpens_append (neverOpens_safe_head (by decide) hg)
        (neverOpens_of_mismatch (by decide)))
  | .ital s =>
    show neverOpens linkOpen (['<', 'i', '>'] ++ (s.data ++ italClose))
    refine neverOpens_append (neverOpens_of_mismatch (by decide))
      (neverOpens_append (neverOpens_safe_head (by decide) hg)
        (neverOpens_of_mismatch (by decide)))
  | .interp s =>
    show neverOpens linkOpen (['$', lbrace] ++ (s.data ++ [rbrace]))
    refine neverOpens_append (neverOpens_of_mismatch (by decide))
      (neverOpens_append (neverOpens_safe_head (by decide) hg)
        (neverOpens_of_mismatch (by decide)))
  | .tok t =>
    show neverOpens linkOpen ([lbrace, lbrace] ++ (t.data ++ [rbrace, rbrace]))
    refine neverOpens_append (neverOpens_of_mismatch (by decide))
      (neverOpens_append (neverOpens_safe_head (by decide) hg)
        (neverOpens_of_mismatch (by decide)))

theorem neverOpens_interpPat (p : Frag) (hg : goodFrag p = true) (hk : isInterp p = false) :
    neverOpens ['$', lbrace] (renderF p) := by
  match p with
  | .plain s => exact neverOpens_safe_head (by decide) hg
  | .interp s => simp [isInterp] at hk
  | .bold s =>
    show neverOpens ['$', lbrace] (['<', 'b', '>'] ++ (s.data ++ boldClose))
    refine neverOpens_append (neverOpens_of_mismatch (by decide))
      (neverOpens_append (neverOpens_safe_head (by decide) hg)
        (neverOpens_of_mismatch (by decide)))
  | .ital s =>
    show neverOpens ['$', lbrace] (['<', 'i', '>'] ++ (s.data ++ italClose))
    refine neverOpens_append (neverOpens_of_mismatch (by decide))
      (neverOpens_append (neverOpens_safe_head (by decide) hg)
        (neverOpens_of_mismatch (by decide)))
  | .link h c =>
    rw [goodFrag, Bool.and_eq_true] at hg
    rw [show renderF (Frag.link h c) =
      linkOpen ++ (h.data ++ (linkMid ++ (c.data ++ linkClose))) from by
        simp [renderF]]
    refine neverOpens_append (neverOpens_of_mismatch (by decide))
      (neverOpens_append (neverOpens_safe_head (by decide) hg.1)
        (neverOpens_append (neverOpens_of_mismatch (by decide))
          (neverOpens_append (neverOpens_safe_head (by decide) hg.2)
            (neverOpens_of_mismatch (by decide)))))
  | .tok t =>
    show neverOpens ['$', lbrace] ([lbrace, lbrace] ++ (t.data ++ [rbrace, rbrace]))
    refine neverOpens_append (neverOpens_of_mismatch (by decide))
      (neverOpens_append (neverOpens_safe_head (by decide) hg)
        (neverOpens_of_mismatch (by decide)))

theorem passAux_chunk_hit (uuid : Nat → String) (o : Char) (os : List Char)
    (closeH : Char) (closeT : List Char) (n : Nat) (inner rest : List Char)
    (hinner : ∀ c ∈ inner, c ≠ closeH ∧ dotExcluded c = false) :
    passAux uuid o os (closeH :: closeT) n
        ((o :: os) ++ (inner ++ ((closeH :: closeT) ++ rest))) =
      ⟨tokDelim (uuid n) ++ (passAux uuid o os (closeH :: closeT) (n + 1) rest).out,
       (uuid n, String.mk ((o :: os) ++ (inner ++ (closeH :: closeT)))) ::
         (passAux uuid o os (closeH :: closeT) (n + 1) rest).pairs,
       (passAux uuid o os (closeH :: closeT) (n + 1) rest).next⟩ := by
  have hpre : (o :: os).isPrefixOf
      ((o :: os) ++ (inner ++ ((closeH :: closeT) ++ rest))) = true :=
    isPrefixOf_self_append _ _
  have hscan : scanTo (closeH :: closeT)
      (((o :: os) ++ (inner ++ ((closeH :: closeT) ++ rest))).drop (o :: os).length) =
      some (inner, rest) := by
    rw [List.drop_left]
    rw [show inner ++ ((closeH :: closeT) ++ rest) =
      inner ++ (closeH :: closeT) ++ rest from by simp]
    exact scanTo_exact closeH closeT inner rest hinner
  rw [show (o :: os) ++ (inner ++ ((closeH :: closeT) ++ rest)) =
    o :: (os ++ (inner ++ ((closeH :: closeT) ++ rest))) from rfl] at hpre hscan ⊢
  rw [passAux_cons_hit uuid o os (closeH :: closeT) n o
    (os ++ (inner ++ ((closeH :: closeT) ++ rest))) inner rest hpre hscan]
  simp

/-- Number of bold fragments. -/
def countB : List Frag → Nat
  | [] => 0
  | p :: ps => (if isBold p then 1 else 0) + countB ps

/-- Parts after the bold pass: bold fragments become tokens, numbered from
the entry index. -/
def passBParts (uuid : Nat → String) : Nat → List Frag → List Frag
  | _, [] => []
  | n, .bold s :: ps => .tok (uuid n) :: passBParts uuid (n + 1) ps
  | n, p :: ps => p :: passBParts uuid n ps

/-- Placeholder pairs recorded by the bold pass, with the captured
fragment kept in structured form. -/
def passBPairsF (uuid : Nat → String) : Nat → List Frag → List (String × Frag)
  | _, [] => []
  | n, .bold s :: ps => (uuid n, .bold s) :: passBPairsF uuid (n + 1) ps
  | n, _ :: ps => passBPairsF uuid n ps

theorem passB_renders (uuid : Nat → String)
    (htok : ∀ m, (uuid m).data.all safeChar = true) :
    ∀ (ps : List Frag) (n : Nat), goodParts ps = true →
    passAux uuid '<' ['b', '>'] boldClose n (renderL ps) =
      ⟨renderL (passBParts uuid n ps),
       (passBPairsF uuid n ps).map (fun pr => (pr.1, String.mk (renderF pr.2))),
       n + countB ps⟩ := by
  intro ps
  induction ps with
  | nil =>
    intro n _
    rw [renderL, passAux_nil]
    simp [passBParts, passBPairsF, countB, renderL]
  | cons p ps ih =>
    intro n hgood
    rw [goodParts, List.all_cons, Bool.and_eq_true] at hgood
    match p with
    | .bold s =>
      have hinner : ∀ c ∈ s.data, c ≠ '<' ∧ dotExcluded c = false := by
        intro c hc
        have hs : safeChar c = true := by
          have := hgood.1
          rw [goodFrag, List.all_eq_true] at this
          exact this c hc
        have := safeChar_spec hs
        exact ⟨this.1, this.2.2.2.2.2⟩
      rw [renderL]
      rw [show renderF (Frag.bold s) ++ renderL ps =
        ('<' :: ['b', '>']) ++ (s.data ++ (boldClose ++ renderL ps)) from by
          simp [renderF]]
      rw [show boldClose = '<' :: ['/', 'b', '>'] from rfl]
      rw [passAux_chunk_hit uuid '<' ['b', '>'] '<' ['/', 'b', '>'] n s.data
        (renderL ps) hinner]
      have ih2 := ih (n + 1) hgood.2
      rw [show boldClose = '<' :: ['/', 'b', '>'] from rfl] at ih2
      rw [ih2]
      simp [passBParts, passBPairsF, countB, isBold, renderL, renderF, boldClose]
      omega
    | .plain s =>
      rw [renderL, passAux_skip uuid '<' ['b', '>'] boldClose (renderF (.plain s))
        (neverOpens_boldPat _ hgood.1 rfl) n (renderL ps), ih n hgood.2]
      simp [passBParts, passBPairsF, countB, isBold, renderL]
    | .ital s =>
      rw [renderL, passAux_skip uuid '<' ['b', '>'] boldClose (renderF (.ital s))
        (neverOpens_boldPat _ hgood.1 rfl) n (renderL ps), ih n hgood.2]
      simp [passBParts, passBPairsF, countB, isBold, renderL]
    | .link h c =>
      rw [renderL, passAux_skip uuid '<' ['b', '>'] boldClose (renderF (.link h c))
        (neverOpens_boldPat _ hgood.1 rfl) n (renderL ps), ih n hgood.2]
      simp [passBParts, passBPairsF, countB, isBold, renderL]
    | .interp s =>
      rw [renderL, passAux_skip uuid '<' ['b', '>'] boldClose (renderF (.interp s))
        (neverOpens_boldPat _ hgood.1 rfl) n (renderL ps), ih n hgood.2]
      simp [passBParts, passBPairsF, countB, isBold, renderL]
    | .tok t =>
      rw [renderL, passAux_skip uuid '<' ['b', '>'] boldClose (renderF (.tok t))
        (neverOpens_boldPat _ hgood.1 rfl) n (renderL ps), ih n hgood.2]
      simp [passBParts, passBPairsF, countB, isBold, renderL]

/-- Number of italic fragments. -/
def countI : List Frag → Nat
  | [] => 0
  | p :: ps => (if isItal p then 1 else 0) + countI ps

/-- Parts after the italic pass. -/
def passIParts (uuid : Nat → String) : Nat → List Frag → List Frag
  | _, [] => []
  | n, .ital s :: ps => .tok (uuid n) :: passIParts uuid (n + 1) ps
  | n, p :: ps => p :: passIParts uuid n ps

/-- Placeholder pairs recorded by the italic pass. -/
def passIPairsF (uuid : Nat → String) : Nat → List Frag → List (String × Frag)
  | _, [] => []
  | n, .ital s :: ps => (uuid n, .ital s) :: passIPairsF uuid (n + 1) ps
  | n, _ :: ps => passIPairsF uuid n ps

theorem passI_renders (uuid : Nat → String)
    (htok : ∀ m, (uuid m).data.all safeChar = true) :
    ∀ (ps : List Frag) (n : Nat), goodParts ps = true →
    passAux uuid '<' ['i', '>'] italClose n (renderL ps) =
      ⟨renderL (passIParts uuid n ps),
       (passIPairsF uuid n ps).map (fun pr => (pr.1, String.mk (renderF pr.2))),
       n + countI ps⟩ := by
  intro ps
  induction ps with
  | nil =>
    intro n _
    rw [renderL, passAux_nil]
    simp [passIParts, passIPairsF, countI, renderL]
  | cons p ps ih =>
    intro n hgood
    rw [goodParts, List.all_cons, Bool.and_eq_true] at hgood
    match p with
    | .ital s =>
      have hinner : ∀ c ∈ s.data, c ≠ '<' ∧ dotExcluded c = false := by
        intro c hc
        have hs : safeChar c = true := by
          have := hgood.1
          rw [goodFrag, List.all_eq_true] at this
          exact this c hc
        have := safeChar_spec hs
        exact ⟨this.1, this.2.2.2.2.2⟩
      rw [renderL]
      rw [show renderF (Frag.ital s) ++ renderL ps =
        ('<' :: ['i', '>']) ++ (s.data ++ (italClose ++ renderL ps)) from by
          simp [renderF]]
      rw [show italClose = '<' :: ['/', 'i', '>'] from rfl]
      rw [passAux_chunk_hit uuid '<' ['i', '>'] '<' ['/', 'i', '>'] n s.data
        (renderL ps) hinner]
      have ih2 := ih (n + 1) hgood.2
      rw [show italClose = '<' :: ['/', 'i', '>'] from rfl] at ih2
      rw [ih2]
      simp [passIParts, passIPairsF, countI, isItal, renderL, renderF, italClose]
      omega
    | .plain s =>
      rw [renderL, passAux_skip uuid '<' ['i', '>'] italClose (renderF (.plain s))
        (neverOpens_italPat _ hgood.1 rfl) n (renderL ps), ih n hgood.2]
      simp [passIParts, passIPairsF, countI, isItal, renderL]
    | .bold s =>
      rw [renderL, passAux_skip uuid '<' ['i', '>'] italClose (renderF (.bold s))
        (neverOpens_italPat _ hgood.1 rfl) n (renderL ps), ih n hgood.2]
      simp [passIParts, passIPairsF, countI, isItal, renderL]
    | .link h c =>
      rw [renderL, passAux_skip uuid '<' ['i', '>'] italClose (renderF (.link h c))
        (neverOpens_italPat _ hgood.1 rfl) n (renderL ps), ih n hgood.2]
      simp [passIParts, passIPairsF, countI, isItal, renderL]
    | .interp s =>
      rw [renderL, passAux_skip uuid '<' ['i', '>'] italClose (renderF (.interp s))
        (neverOpens_italPat _ hgood.1 rfl) n (renderL ps), ih n hgood.2]
      simp [passIParts, passIPairsF, countI, isItal, renderL]
    | .tok t =>
      rw [renderL, passAux_skip uuid '<' ['i', '>'] italClose (renderF (.tok t))
        (neverOpens_italPat _ hgood.1 rfl) n (renderL ps), ih n hgood.2]
      simp [passIParts, passIPairsF, countI, isItal, renderL]

/-- Number of interpolation fragments. -/
def countD : List Frag → Nat
  | [] => 0
  | p :: ps => (if isInterp p then 1 else 0) + countD ps

/-- Parts after the interpolation pass. -/
def passDParts (uuid : Nat → String) : Nat → List Frag → List Frag
  | _, [] => []
  | n, .interp s :: ps => .tok (uuid n) :: passDParts uuid (n + 1) ps
  | n, p :: ps => p :: passDParts uuid n ps

/-- Placeholder pairs recorded by the interpolation pass. -/
def passDPairsF (uuid : Nat → String) : Nat → List Frag → List (String × Frag)
  | _, [] => []
  | n, .interp s :: ps => (uuid n, .interp s) :: passDPairsF uuid (n + 1) ps
  | n, _ :: ps => passDPairsF uuid n ps

theorem passD_renders (uuid : Nat → String)
    (htok : ∀ m, (uuid m).data.all safeChar = true) :
    ∀ (ps : List Frag) (n : Nat), goodParts ps = true →
    passAux uuid '$' [lbrace] [rbrace] n (renderL ps) =
      ⟨renderL (passDParts uuid n ps),
       (passDPairsF uuid n ps).map (fun pr => (pr.1, String.mk (renderF pr.2))),
       n + countD ps⟩ := by
  intro ps
  induction ps with
  | nil =>
    intro n _
    rw [renderL, passAux_nil]
    simp [passDParts, passDPairsF, countD, renderL]
  | cons p ps ih =>
    intro n hgood
    rw [goodParts, List.all_cons, Bool.and_eq_true] at hgood
    match p with
    | .interp s =>
      have hinner : ∀ c ∈ s.data, c ≠ rbrace ∧ dotExcluded c = false := by
        intro c hc
        have hs : safeChar c = true := by
          have := hgood.1
          rw [goodFrag, List.all_eq_true] at this
          exact this c hc
        have := safeChar_spec hs
        exact ⟨this.2.2.2.1, this.2.2.2.2.2⟩
      rw [renderL]
      rw [show renderF (Frag.interp s) ++ renderL ps =
        ('$' :: [lbrace]) ++ (s.data ++ (([rbrace] : List Char) ++ renderL ps)) from by
          simp [renderF]]
      rw [show ([rbrace] : List Char) = rbrace :: [] from rfl]
      rw [passAux_chunk_hit uuid '$' [lbrace] rbrace [] n s.data
        (renderL ps) hinner]
      have ih2 := ih (n + 1) hgood.2
      rw [show ([rbrace] : List Char) = rbrace :: [] from rfl] at ih2
      rw [ih2]
      simp [passDParts, passDPairsF, countD, isInterp, renderL, renderF]
      omega
    | .plain s =>
      rw [renderL, passAux_skip uuid '$' [lbrace] [rbrace] (renderF (.plain s))
        (neverOpens_interpPat _ hgood.1 rfl) n (renderL ps), ih n hgood.2]
      simp [passDParts, passDPairsF, countD, isInterp, renderL]
    | .bold s =>
      rw [renderL, passAux_skip uuid '$' [lbrace] [rbrace] (renderF (.bold s))
        (neverOpens_interpPat _ hgood.1 rfl) n (renderL ps), ih n hgood.2]
      simp [passDParts, passDPairsF, countD, isInterp, renderL]
    | .ital s =>
      rw [renderL, passAux_skip uuid '$' [lbrace] [rbrace] (renderF (.ital s))
        (neverOpens_interpPat _ hgood.1 rfl) n (renderL ps), ih n hgood.2]
      simp [passDParts, passDPairsF, countD, isInterp, renderL]
    | .link h c =>
      rw [renderL, passAux_skip uuid '$' [lbrace] [rbrace] (renderF (.link h c))
        (neverOpens_interpPat _ hgood.1 rfl) n (renderL ps), ih n hgood.2]
      simp [passDParts, passDPairsF, countD, isInterp, renderL]
    | .tok t =>
      rw [renderL, passAux_skip uuid '$' [lbrace] [rbrace] (renderF (.tok t))
        (neverOpens_interpPat _ hgood.1 rfl) n (renderL ps), ih n hgood.2]
      simp [passDParts, passDPairsF, countD, isInterp, renderL]

theorem linkAux_chunk_hit (uuid : Nat → String) (n : Nat) (href content rest : List Char)
    (hh : ∀ c ∈ href, c ≠ '"' ∧ dotExcluded c = false)
    (hc : ∀ c ∈ content, c ≠ '<' ∧ dotExcluded c = false) :
    linkAux uuid n (linkOpen ++ (href ++ (linkMid ++ (content ++ (linkClose ++ rest))))) =
      ⟨tokDelim (uuid n) ++ (linkAux uuid (n + 1) rest).out,
       (uuid n, String.mk (linkOpen ++ href ++ linkMid ++ content ++ linkClose)) ::
         (linkAux uuid (n + 1) rest).pairs,
       (linkAux uuid (n + 1) rest).next⟩ := by
  have hpre : linkOpen.isPrefixOf
      (linkOpen ++ (href ++ (linkMid ++ (content ++ (linkClose ++ rest))))) = true :=
    isPrefixOf_self_append _ _
  have hscan : scanTo linkMid
      ((linkOpen ++ (href ++ (linkMid ++ (content ++ (linkClose ++ rest))))).drop
        linkOpen.length) = some (href, content ++ (linkClose ++ rest)) := by
    rw [List.drop_left]
    rw [show href ++ (linkMid ++ (content ++ (linkClose ++ rest))) =
      href ++ ('"' :: ['>']) ++ (content ++ (linkClose ++ rest)) from by simp [linkMid]]
    exact scanTo_exact '"' ['>'] href (content ++ (linkClose ++ rest)) hh
  have hscan2 : scanTo linkClose (content ++ (linkClose ++ rest)) =
      some (content, rest) := by
    rw [show content ++ (linkClose ++ rest) =
      content ++ ('<' :: ['/', 'a', '>']) ++ rest from by simp [linkClose]]
    exact scanTo_exact '<' ['/', 'a', '>'] content rest hc
  rw [show linkOpen ++ (href ++ (linkMid ++ (content ++ (linkClose ++ rest)))) =
    '<' :: ("a href=\"".data ++ (href ++ (linkMid ++ (content ++ (linkClose ++ rest)))))
    from rfl] at hpre hscan ⊢
  rw [linkAux_cons_hit uuid n '<'
    ("a href=\"".data ++ (href ++ (linkMid ++ (content ++ (linkClose ++ rest)))))
    href (content ++ (linkClose ++ rest)) content rest hpre hscan hscan2]

/-- Number of hyperlink fragments. -/
def countA : List Frag → Nat
  | [] => 0
  | p :: ps => (if isLink p then 1 else 0) + countA ps

/-- Parts after the hyperlink pass. -/
def passAParts (uuid : Nat → String) : Nat → List Frag → List Frag
  | _, [] => []
  | n, .link h c :: ps => .tok (uuid n) :: passAParts uuid (n + 1) ps
  | n, p :: ps => p :: passAParts uuid n ps

/-- Placeholder pairs recorded by the hyperlink pass. -/
def passAPairsF (uuid : Nat → String) : Nat → List Frag → List (String × Frag)
  | _, [] => []
  | n, .link h c :: ps => (uuid n, .link h c) :: passAPairsF uuid (n + 1) ps
  | n, _ :: ps => passAPairsF uuid n ps

theorem passA_renders (uuid : Nat → String)
    (htok : ∀ m, (uuid m).data.all safeChar = true) :
    ∀ (ps : List Frag) (n : Nat), goodParts ps = true →
    linkAux uuid n (renderL ps) =
      ⟨renderL (passAParts uuid n ps),
       (passAPairsF uuid n ps).map (fun pr => (pr.1, String.mk (renderF pr.2))),
       n + countA ps⟩ := by
  intro ps
  induction ps with
  | nil =>
    intro n _
    rw [renderL, linkAux_nil]
    simp [passAParts, passAPairsF, countA, renderL]
  | cons p ps ih =>
    intro n hgood
    rw [goodParts, List.all_cons, Bool.and_eq_true] at hgood
    match p with
    | .link h c =>
      have hgood1 := hgood.1
      rw [goodFrag, Bool.and_eq_true] at hgood1
      have hh : ∀ d ∈ h.data, d ≠ '"' ∧ dotExcluded d = false := by
        intro d hd
        have hs : safeChar d = true := by
          have := hgood1.1
          rw [List.all_eq_true] at this
          exact this d hd
        have := safeChar_spec hs
        exact ⟨this.2.2.2.2.1, this.2.2.2.2.2⟩
      have hcn : ∀ d ∈ c.data, d ≠ '<' ∧ dotExcluded d = false := by
        intro d hd
        have hs : safeChar d = true := by
          have := hgood1.2
          rw [List.all_eq_true] at this
          exact this d hd
        have := safeChar_spec hs
        exact ⟨this.1, this.2.2.2.2.2⟩
      rw [renderL]
      rw [show renderF (Frag.link h c) ++ renderL ps =
        linkOpen ++ (h.data ++ (linkMid ++ (c.data ++ (linkClose ++ renderL ps))))
        from by simp [renderF]]
      rw [linkAux_chunk_hit uuid n h.data c.data (renderL ps) hh hcn]
      rw [ih (n + 1) hgood.2]
      simp [passAParts, passAPairsF, countA, isLink, renderL, renderF]
      omega
    | .plain s =>
      rw [renderL, linkAux_skip uuid (renderF (.plain s))
        (neverOpens_linkPat _ hgood.1 rfl) n (renderL ps), ih n hgood.2]
      simp [passAParts, passAPairsF, countA, isLink, renderL]
    | .bold s =>
      rw [renderL, linkAux_skip uuid (renderF (.bold s))
        (neverOpens_linkPat _ hgood.1 rfl) n (renderL ps), ih n hgood.2]
      simp [passAParts, passAPairsF, countA, isLink, renderL]
    | .ital s =>
      rw [renderL, linkAux_skip uuid (renderF (.ital s))
        (neverOpens_linkPat _ hgood.1 rfl) n (renderL ps), ih n hgood.2]
      simp [passAParts, passAPairsF, countA, isLink, renderL]
    | .interp s =>
      rw [renderL, linkAux_skip uuid (renderF (.interp s))
        (neverOpens_linkPat _ hgood.1 rfl) n (renderL ps), ih n hgood.2]
      simp [passAParts, passAPairsF, countA, isLink, renderL]
    | .tok t =>
      rw [renderL, linkAux_skip uuid (renderF (.tok t))
        (neverOpens_linkPat _ hgood.1 rfl) n (renderL ps), ih n hgood.2]
      simp [passAParts, passAPairsF, countA, isLink, renderL]

theorem goodParts_passBParts (uuid : Nat → String)
    (htok : ∀ m, (uuid m).data.all safeChar = true) :
    ∀ (ps : List Frag) (n : Nat), goodParts ps = true →
    goodParts (passBParts uuid n ps) = true := by
  intro ps
  induction ps with
  | nil => intro n _; rfl
  | cons p ps ih =>
    intro n hgood
    rw [goodParts, List.all_cons, Bool.and_eq_true] at hgood
    match p with
    | .bold s =>
      have hrec := ih (n + 1) hgood.2
      rw [goodParts] at hrec
      rw [passBParts, goodParts, List.all_cons, hrec]
      simp [goodFrag, htok]
    | .plain s =>
      have hrec := ih n hgood.2
      rw [goodParts] at hrec
      rw [passBParts, goodParts, List.all_cons, hrec,
        show goodFrag (Frag.plain s) = true from hgood.1]
      rfl
      all_goals simp
    | .ital s =>
      have hrec := ih n hgood.2
      rw [goodParts] at hrec
      rw [passBParts, goodParts, List.all_cons, hrec,
        show goodFrag (Frag.ital s) = true from hgood.1]
      rfl
      all_goals simp
    | .link h c =>
      have hrec := ih n hgood.2
      rw [goodParts] at hrec
      rw [passBParts, goodParts, List.all_cons, hrec,
        show goodFrag (Frag.link h c) = true from hgood.1]
      rfl
      all_goals simp
    | .interp s =>
      have hrec := ih n hgood.2
      rw [goodParts] at hrec
      rw [passBParts, goodParts, List.all_cons, hrec,
        show goodFrag (Frag.interp s) = true from hgood.1]
      rfl
      all_goals simp
    | .tok t =>
      have hrec := ih n hgood.2
      rw [goodParts] at hrec
      rw [passBParts, goodParts, List.all_cons, hrec,
        show goodFrag (Frag.tok t) = true from hgood.1]
      rfl
      all_goals simp

theorem goodParts_passIParts (uuid : Nat → String)
    (htok : ∀ m, (uuid m).data.all safeChar = true) :
    ∀ (ps : List Frag) (n : Nat), goodParts ps = true →
    goodParts (passIParts uuid n ps) = true := by
  intro ps
  induction ps with
  | nil => intro n _; rfl
  | cons p ps ih =>
    intro n hgood
    rw [goodParts, List.all_cons, Bool.and_eq_true] at hgood
    match p with
    | .ital s =>
      have hrec := ih (n + 1) hgood.2
      rw [goodParts] at hrec
      rw [passIParts, goodParts, List.all_cons, hrec]
      simp [goodFrag, htok]
    | .plain s =>
      have hrec := ih n hgood.2
      rw [goodParts] at hrec
      rw [passIParts, goodParts, List.all_cons, hrec,
        show goodFrag (Frag.plain s) = true from hgood.1]
      rfl
      all_goals simp
    | .bold s =>
      have hrec := ih n hgood.2
      rw [goodParts] at hrec
      rw [passIParts, goodParts, List.all_cons, hrec,
        show goodFrag (Frag.bold s) = true from hgood.1]
      rfl
      all_goals simp
    | .link h c =>
      have hrec := ih n hgood.2
      rw [goodParts] at hrec
      rw [passIParts, goodParts, List.all_cons, hrec,
        show goodFrag (Frag.link h c) = true from hgood.1]
      rfl
      all_goals simp
    | .interp s =>
      have hrec := ih n hgood.2
      rw [goodParts] at hrec
      rw [passIParts, goodParts, List.all_cons, hrec,
        show goodFrag (Frag.interp s) = true from hgood.1]
      rfl
      all_goals simp
    | .tok t =>
      have hrec := ih n hgood.2
      rw [goodParts] at hrec
      rw [passIParts, goodParts, List.all_cons, hrec,
        show goodFrag (Frag.tok t) = true from hgood.1]
      rfl
      all_goals simp

theorem goodParts_passAParts (uuid : Nat → String)
    (htok : ∀ m, (uuid m).data.all safeChar = true) :
    ∀ (ps : List Frag) (n : Nat), goodParts ps = true →
    goodParts (passAParts uuid n ps) = true := by
  intro ps
  induction ps with
  | nil => intro n _; rfl
  | cons p ps ih =>
    intro n hgood
    rw [goodParts, List.all_cons, Bool.and_eq_true] at hgood
    match p with
    | .link h c =>
      have hrec := ih (n + 1) hgood.2
      rw [goodParts] at hrec
      rw [passAParts, goodParts, List.all_cons, hrec]
      simp [goodFrag, htok]
    | .plain s =>
      have hrec := ih n hgood.2
      rw [goodParts] at hrec
      rw [passAParts, goodParts, List.all_cons, hrec,
        show goodFrag (Frag.plain s) = true from hgood.1]
      rfl
      all_goals simp
    | .bold s =>
      have hrec := ih n hgood.2
      rw [goodParts] at hrec
      rw [passAParts, goodParts, List.all_cons, hrec,
        show goodFrag (Frag.bold s) = true from hgood.1]
      rfl
      all_goals simp
    | .ital s =>
      have hrec := ih n hgood.2
      rw [goodParts] at hrec
      rw [passAParts, goodParts, List.all_cons, hrec,
        show goodFrag (Frag.ital s) = true from hgood.1]
      rfl
      all_goals simp
    | .interp s =>
      have hrec := ih n hgood.2
      rw [goodParts] at hrec
      rw [passAParts, goodParts, List.all_cons, hrec,
        show goodFrag (Frag.interp s) = true from hgood.1]
      rfl
      all_goals simp
    | .tok t =>
      have hrec := ih n hgood.2
      rw [goodParts] at hrec
      rw [passAParts, goodParts, List.all_cons, hrec,
        show goodFrag (Frag.tok t) = true from hgood.1]
      rfl
      all_goals simp

theorem goodParts_passDParts (uuid : Nat → String)
    (htok : ∀ m, (uuid m).data.all safeChar = true) :
    ∀ (ps : List Frag) (n : Nat), goodParts ps = true →
    goodParts (passDParts uuid n ps) = true := by
  intro ps
  induction ps with
  | nil => intro n _; rfl
  | cons p ps ih =>
    intro n hgood
    rw [goodParts, List.all_cons, Bool.and_eq_true] at hgood
    match p with
    | .interp s =>
      have hrec := ih (n + 1) hgood.2
      rw [goodParts] at hrec
      rw [passDParts, goodParts, List.all_cons, hrec]
      simp [goodFrag, htok]
    | .plain s =>
      have hrec := ih n hgood.2
      rw [goodParts] at hrec
      rw [passDParts, goodParts, List.all_cons, hrec,
        show goodFrag (Frag.plain s) = true from hgood.1]
      rfl
      all_goals simp
    | .bold s =>
      have hrec := ih n hgood.2
      rw [goodParts] at hrec
      rw [passDParts, goodParts, List.all_cons, hrec,
        show goodFrag (Frag.bold s) = true from hgood.1]
      rfl
      all_goals simp
    | .ital s =>
      have hrec := ih n hgood.2
      rw [goodParts] at hrec
      rw [passDParts, goodParts, List.all_cons, hrec,
        show goodFrag (Frag.ital s) = true from hgood.1]
      rfl
      all_goals simp
    | .link h c =>
      have hrec := ih n hgood.2
      rw [goodParts] at hrec
      rw [passDParts, goodParts, List.all_cons, hrec,
        show goodFrag (Frag.link h c) = true from hgood.1]
      rfl
      all_goals simp
    | .tok t =>
      have hrec := ih n hgood.2
      rw [goodParts] at hrec
      rw [passDParts, goodParts, List.all_cons, hrec,
        show goodFrag (Frag.tok t) = true from hgood.1]
      rfl
      all_goals simp

/-- Parts remaining after all four encode passes. -/
def encodedParts (uuid : Nat → String) (n : Nat) (ps : List Frag) : List Frag :=
  passDParts uuid
    (n + countB ps + countI (passBParts uuid n ps) +
      countA (passIParts uuid (n + countB ps) (passBParts uuid n ps)))
    (passAParts uuid (n + countB ps + countI (passBParts uuid n ps))
      (passIParts uuid (n + countB ps) (passBParts uuid n ps)))

/-- Placeholder pairs recorded by the four encode passes, in creation
order. -/
def encodedPairsF (uuid : Nat → String) (n : Nat) (ps : List Frag) :
    List (String × Frag) :=
  passBPairsF uuid n ps ++
    passIPairsF uuid (n + countB ps) (passBParts uuid n ps) ++
    passAPairsF uuid (n + countB ps + countI (passBParts uuid n ps))
      (passIParts uuid (n + countB ps) (passBParts uuid n ps)) ++
    passDPairsF uuid
      (n + countB ps + countI (passBParts uuid n ps) +
        countA (passIParts uuid (n + countB ps) (passBParts uuid n ps)))
      (passAParts uuid (n + countB ps + countI (passBParts uuid n ps))
        (passIParts uuid (n + countB ps) (passBParts uuid n ps)))

/-- Next fresh-token index after the four encode passes. -/
def encodedNext (uuid : Nat → String) (n : Nat) (ps : List Frag) : Nat :=
  n + countB ps + countI (passBParts uuid n ps) +
    countA (passIParts uuid (n + countB ps) (passBParts uuid n ps)) +
    countD (passAParts uuid (n + countB ps + countI (passBParts uuid n ps))
      (passIParts uuid (n + countB ps) (passBParts uuid n ps)))

theorem preprocess_renders (uuid : Nat → String)
    (htok : ∀ m, (uuid m).data.all safeChar = true)
    (ps : List Frag) (n : Nat) (hgood : goodParts ps = true) :
    preprocessText uuid n (String.mk (renderL ps)) =
      ⟨String.mk (renderL (encodedParts uuid n ps)),
       (encodedPairsF uuid n ps).map (fun pr => (pr.1, String.mk (renderF pr.2))),
       encodedNext uuid n ps⟩ := by
  have hg1 := goodParts_passBParts uuid htok ps n hgood
  have hg2 := goodParts_passIParts uuid htok (passBParts uuid n ps) (n + countB ps) hg1
  have hg3 := goodParts_passAParts uuid htok
    (passIParts uuid (n + countB ps) (passBParts uuid n ps))
    (n + countB ps + countI (passBParts uuid n ps)) hg2
  have e1 := passB_renders uuid htok ps n hgood
  have e2 := passI_renders uuid htok (passBParts uuid n ps) (n + countB ps) hg1
  have e3 := passA_renders uuid htok
    (passIParts uuid (n + countB ps) (passBParts uuid n ps))
    (n + countB ps + countI (passBParts uuid n ps)) hg2
  have e4 := passD_renders uuid htok
    (passAParts uuid (n + countB ps + countI (passBParts uuid n ps))
      (passIParts uuid (n + countB ps) (passBParts uuid n ps)))
    (n + countB ps + countI (passBParts uuid n ps) +
      countA (passIParts uuid (n + countB ps) (passBParts uuid n ps))) hg3
  rw [preprocessText]
  rw [show (String.mk (renderL ps)).data = renderL ps from rfl]
  simp only [e1, e2, e3, e4, encodedParts, encodedPairsF, encodedNext, List.map_append]

/-- C9: non-greedy bold matching.  Encoding the string with two separate
bold spans produces exactly two placeholder entries, one per span (never a
single entry spanning both), and a safe text made of the two distinct
delimited tokens separated by the intervening character. -/
theorem claim9_nongreedy_bold (uuid : Nat → String) (n : Nat)
    (htok : ∀ m, (uuid m).data.all safeChar = true)
    (hne : uuid n ≠ uuid (n + 1)) :
    preprocessText uuid n "<b>a</b>x<b>c</b>" =
      ⟨String.mk (tokDelim (uuid n) ++ ('x' :: tokDelim (uuid (n + 1)))),
       [(uuid n, "<b>a</b>"), (uuid (n + 1), "<b>c</b>")], n + 2⟩ ∧
    uuid n ≠ uuid (n + 1) := by
  refine ⟨?_, hne⟩
  have h := preprocess_renders uuid htok [.bold "a", .plain "x", .bold "c"] n (by decide)
  rw [show ("<b>a</b>x<b>c</b>" : String) =
    String.mk (renderL [Frag.bold "a", Frag.plain "x", Frag.bold "c"]) from rfl]
  rw [h]
  simp [encodedParts, encodedNext, encodedPairsF, passBParts, passIParts, passAParts,
    passDParts, passBPairsF, passIPairsF, passAPairsF, passDPairsF, countB, countI,
    countA, countD, renderL, renderF, isBold, isItal, isLink, isInterp]
  constructor
  · rfl
  · constructor <;> rfl

theorem replicate_u_safe (m : Nat) : (List.replicate m 'u').all safeChar = true := by
  induction m with
  | zero => rfl
  | succ m ih =>
    rw [List.replicate_succ, List.all_cons, ih]
    rfl

theorem claim9_witness :
    (∀ m : Nat, ((fun k => String.mk (List.replicate k 'u')) m).data.all safeChar = true) ∧
    ((fun k => String.mk (List.replicate k 'u')) 0 ≠
      (fun k => String.mk (List.replicate k 'u')) (0 + 1)) ∧
    (preprocessText (fun k => String.mk (List.replicate k 'u')) 0 "<b>a</b>x<b>c</b>" =
      ⟨String.mk (tokDelim (String.mk (List.replicate 0 'u')) ++
          ('x' :: tokDelim (String.mk (List.replicate (0 + 1) 'u')))),
       [(String.mk (List.replicate 0 'u'), "<b>a</b>"),
        (String.mk (List.replicate (0 + 1) 'u'), "<b>c</b>")], 0 + 2⟩ ∧
      (fun k => String.mk (List.replicate k 'u')) 0 ≠
        (fun k => String.mk (List.replicate k 'u')) (0 + 1)) :=
  ⟨fun m => replicate_u_safe m, by decide,
    claim9_nongreedy_bold (fun k => String.mk (List.replicate k 'u')) 0
      (fun m => replicate_u_safe m) (by decide)⟩

theorem isPrefixOf_second_false {o o2 c c2 : Char} {os l : List Char} (h : o2 ≠ c2) :
    (o :: o2 :: os).isPrefixOf (c :: c2 :: l) = false := by
  simp [List.isPrefixOf, h]

theorem token_close_prefix_false :
    ∀ (a b u w : List Char), (∀ c ∈ a, c ≠ rbrace) → (∀ c ∈ b, c ≠ rbrace) → a ≠ b →
    (a ++ rbrace :: u).isPrefixOf (b ++ rbrace :: w) = false := by
  intro a
  induction a with
  | nil =>
    intro b u w _ hb hne
    match b with
    | [] => exact absurd rfl hne
    | y :: b' =>
      exact isPrefixOf_cons_false (fun he => hb y (List.mem_cons_self y b') he.symm)
  | cons x a' ih =>
    intro b u w ha hb hne
    match b with
    | [] =>
      exact isPrefixOf_cons_false (fun he => ha x (List.mem_cons_self x a') he)
    | y :: b' =>
      by_cases hxy : x = y
      · subst hxy
        simp only [List.cons_append, List.isPrefixOf, beq_self_eq_true, Bool.true_and,
          List.append_eq]
        exact ih b' u w (fun c hc => ha c (List.mem_cons_of_mem x hc))
          (fun c hc => hb c (List.mem_cons_of_mem x hc))
          (fun he => hne (by rw [he]))
      · exact isPrefixOf_cons_false hxy

theorem safe_ne_rbrace {s : List Char} (hs : s.all safeChar = true) :
    ∀ c ∈ s, c ≠ rbrace := by
  intro c hc
  rw [List.all_eq_true] at hs
  exact (safeChar_spec (hs c hc)).2.2.2.1

theorem safe_ne_lbrace {s : List Char} (hs : s.all safeChar = true) :
    ∀ c ∈ s, c ≠ lbrace := by
  intro c hc
  rw [List.all_eq_true] at hs
  exact (safeChar_spec (hs c hc)).2.2.1

theorem neverOpens_tokDelim_tok (t t' : String)
    (ht : t.data.all safeChar = true) (ht' : t'.data.all safeChar = true)
    (hne : t ≠ t') : neverOpens (tokDelim t) (tokDelim t') := by
  intro j rest hj
  rw [tokDelim] at hj
  simp only [List.length_cons, List.length_append] at hj
  match j with
  | 0 =>
    rw [List.drop_zero, tokDelim, tokDelim]
    simp only [List.cons_append, List.isPrefixOf, beq_self_eq_true, Bool.true_and,
      List.append_eq]
    rw [show (t'.data ++ [rbrace, rbrace]) ++ rest =
      t'.data ++ rbrace :: (rbrace :: rest) from by simp]
    rw [show t.data ++ [rbrace, rbrace] = t.data ++ rbrace :: [rbrace] from rfl]
    exact token_close_prefix_false t.data t'.data [rbrace] (rbrace :: rest)
      (safe_ne_rbrace ht) (safe_ne_rbrace ht')
      (fun he => hne (String.ext he))
  | 1 =>
    rw [tokDelim, tokDelim]
    rw [show List.drop 1 (lbrace :: lbrace :: (t'.data ++ [rbrace, rbrace])) =
      lbrace :: (t'.data ++ [rbrace, rbrace]) from rfl]
    match hd : t'.data with
    | [] =>
      rw [show ((lbrace :: ([] ++ [rbrace, rbrace])) ++ rest) =
        lbrace :: rbrace :: (rbrace :: rest) from by simp]
      exact isPrefixOf_second_false (by decide)
    | c :: cs =>
      have hcsafe : c ≠ lbrace := by
        refine safe_ne_lbrace (hd ▸ ht') c ?_
        exact List.mem_cons_self c cs
      rw [show ((lbrace :: ((c :: cs) ++ [rbrace, rbrace])) ++ rest) =
        lbrace :: c :: (cs ++ [rbrace, rbrace] ++ rest) from by simp]
      exact isPrefixOf_second_false (fun he => hcsafe he.symm)
  | j + 2 =>
    rw [tokDelim, tokDelim]
    rw [show List.drop (j + 2) (lbrace :: lbrace :: (t'.data ++ [rbrace, rbrace])) =
      List.drop j (t'.data ++ [rbrace, rbrace]) from by rw [List.drop_succ_cons,
        List.drop_succ_cons]]
    have hmem : ∀ c ∈ t'.data ++ [rbrace, rbrace], c ≠ lbrace := by
      intro c hc
      rw [List.mem_append] at hc
      rcases hc with hc | hc
      · exact safe_ne_lbrace ht' c hc
      · simp at hc
        subst hc
        decide
    exact neverOpens_of_head_ne hmem j rest (by
      have hb : t'.data.length = t'.length := rfl
      simp at hj ⊢
      omega)

theorem neverOpens_tokDelim_interp (t x : String)
    (hx : x.data.all safeChar = true) :
    neverOpens (tokDelim t) (renderF (Frag.interp x)) := by
  intro j rest hj
  rw [renderF] at hj ⊢
  simp only [List.length_cons, List.length_append] at hj
  match j with
  | 0 =>
    rw [List.drop_zero, tokDelim]
    exact isPrefixOf_cons_false (by decide)
  | 1 =>
    rw [show List.drop 1 ('$' :: lbrace :: (x.data ++ [rbrace])) =
      lbrace :: (x.data ++ [rbrace]) from rfl]
    rw [tokDelim]
    match hd : x.data with
    | [] =>
      rw [show ((lbrace :: ([] ++ [rbrace])) ++ rest) =
        lbrace :: rbrace :: rest from by simp]
      exact isPrefixOf_second_false (by decide)
    | c :: cs =>
      have hcsafe : c ≠ lbrace := by
        refine safe_ne_lbrace (hd ▸ hx) c ?_
        exact List.mem_cons_self c cs
      rw [show ((lbrace :: ((c :: cs) ++ [rbrace])) ++ rest) =
        lbrace :: c :: (cs ++ [rbrace] ++ rest) from by simp]
      exact isPrefixOf_second_false (fun he => hcsafe he.symm)
  | j + 2 =>
    rw [show List.drop (j + 2) ('$' :: lbrace :: (x.data ++ [rbrace])) =
      List.drop j (x.data ++ [rbrace]) from rfl]
    have hmem : ∀ c ∈ x.data ++ [rbrace], c ≠ lbrace := by
      intro c hc
      rw [List.mem_append] at hc
      rcases hc with hc | hc
      · exact safe_ne_lbrace hx c hc
      · simp at hc
        subst hc
        decide
    exact neverOpens_of_head_ne hmem j rest (by
      have hb : x.data.length = x.length := rfl
      simp at hj ⊢
      omega)

theorem neverOpens_tokDelim_frag (t : String) (ht : t.data.all safeChar = true)
    (p : Frag) (hg : goodFrag p = true) (hne : p ≠ .tok t) :
    neverOpens (tokDelim t) (renderF p) := by
  match p with
  | .plain s =>
    rw [tokDelim]
    exact neverOpens_safe_head (by decide) hg
  | .bold s =>
    rw [tokDelim]
    refine neverOpens_of_head_ne fun c hc => ?_
    rw [renderF] at hc
    simp only [List.mem_cons, List.mem_append] at hc
    rcases hc with hc | hc | hc | hc
    · subst hc; decide
    · subst hc; decide
    · subst hc; decide
    · rcases hc with hc | hc
      · exact safe_ne_lbrace hg c hc
      · exact (by decide : ∀ d ∈ boldClose, d ≠ lbrace) c hc
  | .ital s =>
    rw [tokDelim]
    refine neverOpens_of_head_ne fun c hc => ?_
    rw [renderF] at hc
    simp only [List.mem_cons, List.mem_append] at hc
    rcases hc with hc | hc | hc | hc
    · subst hc; decide
    · subst hc; decide
    · subst hc; decide
    · rcases hc with hc | hc
      · exact safe_ne_lbrace hg c hc
      · exact (by decide : ∀ d ∈ italClose, d ≠ lbrace) c hc
  | .link h c =>
    rw [goodFrag, Bool.and_eq_true] at hg
    rw [tokDelim]
    refine neverOpens_of_head_ne fun d hd => ?_
    rw [renderF] at hd
    simp only [List.mem_append] at hd
    rcases hd with ⟨⟨⟨hd | hd⟩ | hd⟩ | hd⟩ | hd
    · exact (by decide : ∀ e ∈ linkOpen, e ≠ lbrace) d hd
    · exact safe_ne_lbrace hg.1 d hd
    · exact (by decide : ∀ e ∈ linkMid, e ≠ lbrace) d hd
    · exact safe_ne_lbrace hg.2 d hd
    · exact (by decide : ∀ e ∈ linkClose, e ≠ lbrace) d hd
  | .interp s => exact neverOpens_tokDelim_interp t s hg
  | .tok t' =>
    refine neverOpens_tokDelim_tok t t' ht hg (fun he => hne ?_)
    rw [he]

/-- Decoder over character lists: apply the recorded pairs in order, each
as a first-occurrence replacement of the delimited token by the rendered
fragment. -/
def decodeL : List (String × Frag) → List Char → List Char
  | [], l => l
  | pr :: prs, l => decodeL prs (replaceFirstL (tokDelim pr.1) (renderF pr.2) l)

theorem postprocess_decodeL (prs : List (String × Frag)) :
    ∀ l : List Char,
    postprocessText (String.mk l) (prs.map (fun pr => (pr.1, String.mk (renderF pr.2)))) =
      String.mk (decodeL prs l) := by
  induction prs with
  | nil => intro l; rfl
  | cons pr prs ih =>
    intro l
    obtain ⟨t, f⟩ := pr
    show postprocessText (replaceFirst (String.mk l) (String.mk (tokDelim t))
      (String.mk (renderF f))) (prs.map (fun pr => (pr.1, String.mk (renderF pr.2)))) = _
    rw [show replaceFirst (String.mk l) (String.mk (tokDelim t)) (String.mk (renderF f)) =
      String.mk (replaceFirstL (tokDelim t) (renderF f) l) from rfl]
    rw [ih (replaceFirstL (tokDelim t) (renderF f) l)]
    rfl

theorem noTmpl_of_no_dollar :
    ∀ l : List Char, (∀ c ∈ l, c ≠ '$') → noTmpl l = true := by
  intro l
  induction l with
  | nil => intro _; rfl
  | cons c cs ih =>
    intro h
    cases cs with
    | nil => rfl
    | cons d cs =>
      rw [noTmpl, Bool.and_eq_true]
      have hc : c ≠ '$' := h c (by simp)
      refine ⟨by rw [if_neg hc], ?_⟩
      exact ih (fun x hx => h x (List.mem_cons_of_mem _ hx))

theorem safe_ne_dollar {s : List Char} (hs : s.all safeChar = true) :
    ∀ c ∈ s, c ≠ '$' := by
  intro c hc
  rw [List.all_eq_true] at hs
  exact (safeChar_spec (hs c hc)).2.1

/-- The rendered form of a good fragment contains no substitution
template: its inner content is free of dollar signs and the single dollar
sign an interpolation fragment starts with is followed by a left brace. -/
theorem noTmpl_renderF (f : Frag) (h : goodFrag f = true) :
    noTmpl (renderF f) = true := by
  match f with
  | .plain s =>
    exact noTmpl_of_no_dollar _ (safe_ne_dollar h)
  | .bold s =>
    refine noTmpl_of_no_dollar _ ?_
    intro c hc
    rw [renderF] at hc
    simp only [List.mem_cons, List.mem_append] at hc
    rcases hc with h1 | h1 | h1 | h1 | h1
    · rw [h1]; decide
    · rw [h1]; decide
    · rw [h1]; decide
    · exact safe_ne_dollar h c h1
    · revert h1
      exact fun h1 => (by decide : ∀ d ∈ boldClose, d ≠ '$') c h1
  | .ital s =>
    refine noTmpl_of_no_dollar _ ?_
    intro c hc
    rw [renderF] at hc
    simp only [List.mem_cons, List.mem_append] at hc
    rcases hc with h1 | h1 | h1 | h1 | h1
    · rw [h1]; decide
    · rw [h1]; decide
    · rw [h1]; decide
    · exact safe_ne_dollar h c h1
    · revert h1
      exact fun h1 => (by decide : ∀ d ∈ italClose, d ≠ '$') c h1
  | .link u s =>
    rw [goodFrag, Bool.and_eq_true] at h
    refine noTmpl_of_no_dollar _ ?_
    intro c hc
    rw [renderF] at hc
    simp only [List.mem_append] at hc
    rcases hc with ((((h1 | h1) | h1) | h1) | h1)
    · revert h1
      exact fun h1 => (by decide : ∀ d ∈ linkOpen, d ≠ '$') c h1
    · exact safe_ne_dollar h.1 c h1
    · revert h1
      exact fun h1 => (by decide : ∀ d ∈ linkMid, d ≠ '$') c h1
    · exact safe_ne_dollar h.2 c h1
    · revert h1
      exact fun h1 => (by decide : ∀ d ∈ linkClose, d ≠ '$') c h1
  | .interp s =>
    rw [renderF, noTmpl, Bool.and_eq_true]
    refine ⟨by rw [if_pos rfl]; decide, ?_⟩
    refine noTmpl_of_no_dollar _ ?_
    intro c hc
    simp only [List.mem_cons, List.mem_append] at hc
    rcases hc with h1 | h1 | h1 | h1
    · rw [h1]; decide
    · exact safe_ne_dollar h c h1
    · rw [h1]; decide
    · exact absurd h1 (List.not_mem_nil c)
  | .tok t =>
    rw [renderF, tokDelim]
    refine noTmpl_of_no_dollar _ ?_
    intro c hc
    simp only [List.mem_cons, List.mem_append] at hc
    rcases hc with h1 | h1 | h1 | h1 | h1 | h1
    · rw [h1]; decide
    · rw [h1]; decide
    · exact safe_ne_dollar h c h1
    · rw [h1]; decide
    · rw [h1]; decide
    · exact absurd h1 (List.not_mem_nil c)

/-- One decoding step: the text is a part list in which the first
occurrence of the token `t` in delimited form is the rendered token part,
every part before it being unable to contain the pattern. -/
inductive Steps1 (t : String) (f : Frag) : List Frag → List Frag → Prop where
  | here : ∀ st, Steps1 t f (Frag.tok t :: st) (f :: st)
  | there : ∀ p st st', neverOpens (tokDelim t) (renderF p) →
      Steps1 t f st st' → Steps1 t f (p :: st) (p :: st')

theorem step1_decode {t : String} {f : Frag} {st st' : List Frag}
    (hnt : noTmpl (renderF f) = true) (h : Steps1 t f st st') :
    replaceFirstL (tokDelim t) (renderF f) (renderL st) = renderL st' := by
  induction h with
  | here st =>
    rw [renderL, renderL]
    rw [show renderF (Frag.tok t) = tokDelim t from rfl]
    rw [replaceFirstL_head, expandRepl_noTmpl _ _ _ _ hnt]
  | there p st st' hno hs ih =>
    rw [renderL, renderL, replaceFirstL_skip _ _ _ hnt hno, ih]

/-- Whole decode relation: the pairs are applied in order, each finding
and restoring its token. -/
inductive RestoresAll : List (String × Frag) → List Frag → List Frag → Prop where
  | nil : ∀ st, RestoresAll [] st st
  | cons : ∀ t f prs st st1 st2, Steps1 t f st st1 → RestoresAll prs st1 st2 →
      RestoresAll ((t, f) :: prs) st st2

theorem decode_restoresAll {prs : List (String × Frag)} {st st' : List Frag}
    (hnt : ∀ pr ∈ prs, noTmpl (renderF pr.2) = true)
    (h : RestoresAll prs st st') : decodeL prs (renderL st) = renderL st' := by
  induction h with
  | nil st => rfl
  | cons t f prs st st1 st2 hs hr ih =>
    rw [decodeL]
    rw [show replaceFirstL (tokDelim (t, f).1) (renderF (t, f).2) (renderL st) =
      renderL st1 from step1_decode (hnt (t, f) (List.mem_cons_self _ _)) hs]
    exact ih (fun pr hpr => hnt pr (List.mem_cons_of_mem _ hpr))

theorem RestoresAll_append {p q : List (String × Frag)} {st st1 st2 : List Frag}
    (h1 : RestoresAll p st st1) (h2 : RestoresAll q st1 st2) :
    RestoresAll (p ++ q) st st2 := by
  induction h1 with
  | nil st => exact h2
  | cons t f prs st sta stb hs hr ih =>
    exact RestoresAll.cons t f (prs ++ q) st sta st2 hs (ih h2)

theorem RestoresAll_cons_part {prs : List (String × Frag)} {st st' : List Frag}
    (p : Frag) (hno : ∀ pr ∈ prs, neverOpens (tokDelim pr.1) (renderF p))
    (h : RestoresAll prs st st') : RestoresAll prs (p :: st) (p :: st') := by
  induction h with
  | nil st => exact RestoresAll.nil _
  | cons t f prs st sta stb hs hr ih =>
    refine RestoresAll.cons t f prs (p :: st) (p :: sta) (p :: stb)
      (Steps1.there p st sta (hno (t, f) (List.mem_cons_self _ _)) hs)
      (ih (fun pr hpr => hno pr (List.mem_cons_of_mem _ hpr)))

/-- Intermediate encoder and decoder states: each pattern class is either
still real (its flag false: restored or not yet extracted) or replaced by
its numbered token (flag true).  Counters advance exactly as the passes
advance them. -/
def stageParts (uuid : Nat → String) (tb ti ta td : Bool) :
    Nat → Nat → Nat → Nat → List Frag → List Frag
  | _, _, _, _, [] => []
  | nb, ni, na, nd, .bold s :: ps =>
    (if tb then .tok (uuid nb) else .bold s) ::
      stageParts uuid tb ti ta td (nb + 1) ni na nd ps
  | nb, ni, na, nd, .ital s :: ps =>
    (if ti then .tok (uuid ni) else .ital s) ::
      stageParts uuid tb ti ta td nb (ni + 1) na nd ps
  | nb, ni, na, nd, .link h c :: ps =>
    (if ta then .tok (uuid na) else .link h c) ::
      stageParts uuid tb ti ta td nb ni (na + 1) nd ps
  | nb, ni, na, nd, .interp s :: ps =>
    (if td then .tok (uuid nd) else .interp s) ::
      stageParts uuid tb ti ta td nb ni na (nd + 1) ps
  | nb, ni, na, nd, p :: ps => p :: stageParts uuid tb ti ta td nb ni na nd ps

theorem stage_id (uuid : Nat → String) :
    ∀ (ps : List Frag) (nb ni na nd : Nat),
    stageParts uuid false false false false nb ni na nd ps = ps := by
  intro ps
  induction ps with
  | nil => intro nb ni na nd; rfl
  | cons p ps ih =>
    intro nb ni na nd
    match p with
    | .bold s => rw [stageParts, ih]; rfl
    | .ital s => rw [stageParts, ih]; rfl
    | .link h c => rw [stageParts, ih]; rfl
    | .interp s => rw [stageParts, ih]; rfl
    | .plain s =>
      rw [stageParts, ih]
      all_goals simp
    | .tok t =>
      rw [stageParts, ih]
      all_goals simp

theorem stage_encode (uuid : Nat → String) :
    ∀ (ps : List Frag) (nb ni na nd : Nat),
    passDParts uuid nd (passAParts uuid na (passIParts uuid ni (passBParts uuid nb ps))) =
      stageParts uuid true true true true nb ni na nd ps := by
  intro ps
  induction ps with
  | nil => intro nb ni na nd; rfl
  | cons p ps ih =>
    intro nb ni na nd
    match p with
    | .bold s =>
      rw [passBParts]
      rw [show passIParts uuid ni (Frag.tok (uuid nb) :: passBParts uuid (nb + 1) ps) =
        Frag.tok (uuid nb) :: passIParts uuid ni (passBParts uuid (nb + 1) ps) from by
          rw [passIParts] <;> simp]
      rw [show passAParts uuid na (Frag.tok (uuid nb) ::
          passIParts uuid ni (passBParts uuid (nb + 1) ps)) =
        Frag.tok (uuid nb) :: passAParts uuid na
          (passIParts uuid ni (passBParts uuid (nb + 1) ps)) from by rw [passAParts] <;> simp]
      rw [show passDParts uuid nd (Frag.tok (uuid nb) :: passAParts uuid na
          (passIParts uuid ni (passBParts uuid (nb + 1) ps))) =
        Frag.tok (uuid nb) :: passDParts uuid nd (passAParts uuid na
          (passIParts uuid ni (passBParts uuid (nb + 1) ps))) from by rw [passDParts] <;> simp]
      rw [ih, stageParts]
      rfl
    | .ital s =>
      rw [show passBParts uuid nb (Frag.ital s :: ps) =
        Frag.ital s :: passBParts uuid nb ps from by rw [passBParts] <;> simp]
      rw [passIParts]
      rw [show passAParts uuid na (Frag.tok (uuid ni) ::
          passIParts uuid (ni + 1) (passBParts uuid nb ps)) =
        Frag.tok (uuid ni) :: passAParts uuid na
          (passIParts uuid (ni + 1) (passBParts uuid nb ps)) from by rw [passAParts] <;> simp]
      rw [show passDParts uuid nd (Frag.tok (uuid ni) :: passAParts uuid na
          (passIParts uuid (ni + 1) (passBParts uuid nb ps))) =
        Frag.tok (uuid ni) :: passDParts uuid nd (passAParts uuid na
          (passIParts uuid (ni + 1) (passBParts uuid nb ps))) from by rw [passDParts] <;> simp]
      rw [ih, stageParts]
      rfl
    | .link h c =>
      rw [show passBParts uuid nb (Frag.link h c :: ps) =
        Frag.link h c :: passBParts uuid nb ps from by rw [passBParts] <;> simp]
      rw [show passIParts uuid ni (Frag.link h c :: passBParts uuid nb ps) =
        Frag.link h c :: passIParts uuid ni (passBParts uuid nb ps) from by
          rw [passIParts] <;> simp]
      rw [passAParts]
      rw [show passDParts uuid nd (Frag.tok (uuid na) :: passAParts uuid (na + 1)
          (passIParts uuid ni (passBParts uuid nb ps))) =
        Frag.tok (uuid na) :: passDParts uuid nd (passAParts uuid (na + 1)
          (passIParts uuid ni (passBParts uuid nb ps))) from by rw [passDParts] <;> simp]
      rw [ih, stageParts]
      rfl
    | .interp s =>
      rw [show passBParts uuid nb (Frag.interp s :: ps) =
        Frag.interp s :: passBParts uuid nb ps from by rw [passBParts] <;> simp]
      rw [show passIParts uuid ni (Frag.interp s :: passBParts uuid nb ps) =
        Frag.interp s :: passIParts uuid ni (passBParts uuid nb ps) from by
          rw [passIParts] <;> simp]
      rw [show passAParts uuid na (Frag.interp s ::
          passIParts uuid ni (passBParts uuid nb ps)) =
        Frag.interp s :: passAParts uuid na
          (passIParts uuid ni (passBParts uuid nb ps)) from by rw [passAParts] <;> simp]
      rw [passDParts]
      rw [ih, stageParts]
      rfl
    | .plain s =>
      rw [show passBParts uuid nb (Frag.plain s :: ps) =
        Frag.plain s :: passBParts uuid nb ps from by rw [passBParts] <;> simp]
      rw [show passIParts uuid ni (Frag.plain s :: passBParts uuid nb ps) =
        Frag.plain s :: passIParts uuid ni (passBParts uuid nb ps) from by
          rw [passIParts] <;> simp]
      rw [show passAParts uuid na (Frag.plain s ::
          passIParts uuid ni (passBParts uuid nb ps)) =
        Frag.plain s :: passAParts uuid na
          (passIParts uuid ni (passBParts uuid nb ps)) from by rw [passAParts] <;> simp]
      rw [show passDParts uuid nd (Frag.plain s :: passAParts uuid na
          (passIParts uuid ni (passBParts uuid nb ps))) =
        Frag.plain s :: passDParts uuid nd (passAParts uuid na
          (passIParts uuid ni (passBParts uuid nb ps))) from by rw [passDParts] <;> simp]
      rw [ih]
      rw [show stageParts uuid true true true true nb ni na nd (Frag.plain s :: ps) =
        Frag.plain s :: stageParts uuid true true true true nb ni na nd ps from by
          rw [stageParts] <;> simp]
    | .tok t =>
      rw [show passBParts uuid nb (Frag.tok t :: ps) =
        Frag.tok t :: passBParts uuid nb ps from by rw [passBParts] <;> simp]
      rw [show passIParts uuid ni (Frag.tok t :: passBParts uuid nb ps) =
        Frag.tok t :: passIParts uuid ni (passBParts uuid nb ps) from by
          rw [passIParts] <;> simp]
      rw [show passAParts uuid na (Frag.tok t ::
          passIParts uuid ni (passBParts uuid nb ps)) =
        Frag.tok t :: passAParts uuid na
          (passIParts uuid ni (passBParts uuid nb ps)) from by rw [passAParts] <;> simp]
      rw [show passDParts uuid nd (Frag.tok t :: passAParts uuid na
          (passIParts uuid ni (passBParts uuid nb ps))) =
        Frag.tok t :: passDParts uuid nd (passAParts uuid na
          (passIParts uuid ni (passBParts uuid nb ps))) from by rw [passDParts] <;> simp]
      rw [ih]
      rw [show stageParts uuid true true true true nb ni na nd (Frag.tok t :: ps) =
        Frag.tok t :: stageParts uuid true true true true nb ni na nd ps from by
          rw [stageParts] <;> simp]

theorem passIPairsF_passB (uuid : Nat → String) :
    ∀ (ps : List Frag) (k n : Nat),
    passIPairsF uuid k (passBParts uuid n ps) = passIPairsF uuid k ps := by
  intro ps
  induction ps with
  | nil => intro k n; rfl
  | cons p ps ih =>
    intro k n
    match p with
    | .bold s =>
      rw [passBParts]
      rw [show passIPairsF uuid k (Frag.tok (uuid n) :: passBParts uuid (n + 1) ps) =
        passIPairsF uuid k (passBParts uuid (n + 1) ps) from by
          rw [passIPairsF] <;> simp]
      rw [ih k (n + 1)]
      rw [show passIPairsF uuid k (Frag.bold s :: ps) =
        passIPairsF uuid k ps from by rw [passIPairsF] <;> simp]
    | .ital s =>
      rw [show passBParts uuid n (Frag.ital s :: ps) =
        Frag.ital s :: passBParts uuid n ps from by rw [passBParts] <;> simp]
      rw [passIPairsF, passIPairsF, ih (k + 1) n]
    | .plain s =>
      rw [show passBParts uuid n (Frag.plain s :: ps) =
        Frag.plain s :: passBParts uuid n ps from by rw [passBParts] <;> simp]
      rw [show passIPairsF uuid k (Frag.plain s :: passBParts uuid n ps) =
        passIPairsF uuid k (passBParts uuid n ps) from by
          rw [passIPairsF] <;> simp]
      rw [ih k n]
      rw [show passIPairsF uuid k (Frag.plain s :: ps) =
        passIPairsF uuid k ps from by rw [passIPairsF] <;> simp]
    | .link h c =>
      rw [show passBParts uuid n (Frag.link h c :: ps) =
        Frag.link h c :: passBParts uuid n ps from by rw [passBParts] <;> simp]
      rw [show passIPairsF uuid k (Frag.link h c :: passBParts uuid n ps) =
        passIPairsF uuid k (passBParts uuid n ps) from by
          rw [passIPairsF] <;> simp]
      rw [ih k n]
      rw [show passIPairsF uuid k (Frag.link h c :: ps) =
        passIPairsF uuid k ps from by rw [passIPairsF] <;> simp]
    | .interp s =>
      rw [show passBParts uuid n (Frag.interp s :: ps) =
        Frag.interp s :: passBParts uuid n ps from by rw [passBParts] <;> simp]
      rw [show passIPairsF uuid k (Frag.interp s :: passBParts uuid n ps) =
        passIPairsF uuid k (passBParts uuid n ps) from by
          rw [passIPairsF] <;> simp]
      rw [ih k n]
      rw [show passIPairsF uuid k (Frag.interp s :: ps) =
        passIPairsF uuid k ps from by rw [passIPairsF] <;> simp]
    | .tok t =>
      rw [show passBParts uuid n (Frag.tok t :: ps) =
        Frag.tok t :: passBParts uuid n ps from by rw [passBParts] <;> simp]
      rw [show passIPairsF uuid k (Frag.tok t :: passBParts uuid n ps) =
        passIPairsF uuid k (passBParts uuid n ps) from by
          rw [passIPairsF] <;> simp]
      rw [ih k n]
      rw [show passIPairsF uuid k (Frag.tok t :: ps) =
        passIPairsF uuid k ps from by rw [passIPairsF] <;> simp]

theorem passAPairsF_passB (uuid : Nat → String) :
    ∀ (ps : List Frag) (k n : Nat),
    passAPairsF uuid k (passBParts uuid n ps) = passAPairsF uuid k ps := by
  intro ps
  induction ps with
  | nil => intro k n; rfl
  | cons p ps ih =>
    intro k n
    match p with
    | .bold s =>
      rw [passBParts]
      rw [show passAPairsF uuid k (Frag.tok (uuid n) :: passBParts uuid (n + 1) ps) =
        passAPairsF uuid k (passBParts uuid (n + 1) ps) from by
          rw [passAPairsF] <;> simp]
      rw [ih k (n + 1)]
      rw [show passAPairsF uuid k (Frag.bold s :: ps) =
        passAPairsF uuid k ps from by rw [passAPairsF] <;> simp]
    | .link h c =>
      rw [show passBParts uuid n (Frag.link h c :: ps) =
        Frag.link h c :: passBParts uuid n ps from by rw [passBParts] <;> simp]
      rw [passAPairsF, passAPairsF, ih (k + 1) n]
    | .plain s =>
      rw [show passBParts uuid n (Frag.plain s :: ps) =
        Frag.plain s :: passBParts uuid n ps from by rw [passBParts] <;> simp]
      rw [show passAPairsF uuid k (Frag.plain s :: passBParts uuid n ps) =
        passAPairsF uuid k (passBParts uuid n ps) from by
          rw [passAPairsF] <;> simp]
      rw [ih k n]
      rw [show passAPairsF uuid k (Frag.plain s :: ps) =
        passAPairsF uuid k ps from by rw [passAPairsF] <;> simp]
    | .ital s =>
      rw [show passBParts uuid n (Frag.ital s :: ps) =
        Frag.ital s :: passBParts uuid n ps from by rw [passBParts] <;> simp]
      rw [show passAPairsF uuid k (Frag.ital s :: passBParts uuid n ps) =
        passAPairsF uuid k (passBParts uuid n ps) from by
          rw [passAPairsF] <;> simp]
      rw [ih k n]
      rw [show passAPairsF uuid k (Frag.ital s :: ps) =
        passAPairsF uuid k ps from by rw [passAPairsF] <;> simp]
    | .interp s =>
      rw [show passBParts uuid n (Frag.interp s :: ps) =
        Frag.interp s :: passBParts uuid n ps from by rw [passBParts] <;> simp]
      rw [show passAPairsF uuid k (Frag.interp s :: passBParts uuid n ps) =
        passAPairsF uuid k (passBParts uuid n ps) from by
          rw [passAPairsF] <;> simp]
      rw [ih k n]
      rw [show passAPairsF uuid k (Frag.interp s :: ps) =
        passAPairsF uuid k ps from by rw [passAPairsF] <;> simp]
    | .tok t =>
      rw [show passBParts uuid n (Frag.tok t :: ps) =
        Frag.tok t :: passBParts uuid n ps from by rw [passBParts] <;> simp]
      rw [show passAPairsF uuid k (Frag.tok t :: passBParts uuid n ps) =
        passAPairsF uuid k (passBParts uuid n ps) from by
          rw [passAPairsF] <;> simp]
      rw [ih k n]
      rw [show passAPairsF uuid k (Frag.tok t :: ps) =
        passAPairsF uuid k ps from by rw [passAPairsF] <;> simp]

theorem passAPairsF_passI (uuid : Nat → String) :
    ∀ (ps : List Frag) (k n : Nat),
    passAPairsF uuid k (passIParts uuid n ps) = passAPairsF uuid k ps := by
  intro ps
  induction ps with
  | nil => intro k n; rfl
  | cons p ps ih =>
    intro k n
    match p with
    | .ital s =>
      rw [passIParts]
      rw [show passAPairsF uuid k (Frag.tok (uuid n) :: passIParts uuid (n + 1) ps) =
        passAPairsF uuid k (passIParts uuid (n + 1) ps) from by
          rw [passAPairsF] <;> simp]
      rw [ih k (n + 1)]
      rw [show passAPairsF uuid k (Frag.ital s :: ps) =
        passAPairsF uuid k ps from by rw [passAPairsF] <;> simp]
    | .link h c =>
      rw [show passIParts uuid n (Frag.link h c :: ps) =
        Frag.link h c :: passIParts uuid n ps from by rw [passIParts] <;> simp]
      rw [passAPairsF, passAPairsF, ih (k + 1) n]
    | .plain s =>
      rw [show passIParts uuid n (Frag.plain s :: ps) =
        Frag.plain s :: passIParts uuid n ps from by rw [passIParts] <;> simp]
      rw [show passAPairsF uuid k (Frag.plain s :: passIParts uuid n ps) =
        passAPairsF uuid k (passIParts uuid n ps) from by
          rw [passAPairsF] <;> simp]
      rw [ih k n]
      rw [show passAPairsF uuid k (Frag.plain s :: ps) =
        passAPairsF uuid k ps from by rw [passAPairsF] <;> simp]
    | .bold s =>
      rw [show passIParts uuid n (Frag.bold s :: ps) =
        Frag.bold s :: passIParts uuid n ps from by rw [passIParts] <;> simp]
      rw [show passAPairsF uuid k (Frag.bold s :: passIParts uuid n ps) =
        passAPairsF uuid k (passIParts uuid n ps) from by
          rw [passAPairsF] <;> simp]
      rw [ih k n]
      rw [show passAPairsF uuid k (Frag.bold s :: ps) =
        passAPairsF uuid k ps from by rw [passAPairsF] <;> simp]
    | .interp s =>
      rw [show passIParts uuid n (Frag.interp s :: ps) =
        Frag.interp s :: passIParts uuid n ps from by rw [passIParts] <;> simp]
      rw [show passAPairsF uuid k (Frag.interp s :: passIParts uuid n ps) =
        passAPairsF uuid k (passIParts uuid n ps) from by
          rw [passAPairsF] <;> simp]
      rw [ih k n]
      rw [show passAPairsF uuid k (Frag.interp s :: ps) =
        passAPairsF uuid k ps from by rw [passAPairsF] <;> simp]
    | .tok t =>
      rw [show passIParts uuid n (Frag.tok t :: ps) =
        Frag.tok t :: passIParts uuid n ps from by rw [passIParts] <;> simp]
      rw [show passAPairsF uuid k (Frag.tok t :: passIParts uuid n ps) =
        passAPairsF uuid k (passIParts uuid n ps) from by
          rw [passAPairsF] <;> simp]
      rw [ih k n]
      rw [show passAPairsF uuid k (Frag.tok t :: ps) =
        passAPairsF uuid k ps from by rw [passAPairsF] <;> simp]

theorem passDPairsF_passB (uuid : Nat → String) :
    ∀ (ps : List Frag) (k n : Nat),
    passDPairsF uuid k (passBParts uuid n ps) = passDPairsF uuid k ps := by
  intro ps
  induction ps with
  | nil => intro k n; rfl
  | cons p ps ih =>
    intro k n
    match p with
    | .bold s =>
      rw [passBParts]
      rw [show passDPairsF uuid k (Frag.tok (uuid n) :: passBParts uuid (n + 1) ps) =
        passDPairsF uuid k (passBParts uuid (n + 1) ps) from by
          rw [passDPairsF] <;> simp]
      rw [ih k (n + 1)]
      rw [show passDPairsF uuid k (Frag.bold s :: ps) =
        passDPairsF uuid k ps from by rw [passDPairsF] <;> simp]
    | .interp s =>
      rw [show passBParts uuid n (Frag.interp s :: ps) =
        Frag.interp s :: passBParts uuid n ps from by rw [passBParts] <;> simp]
      rw [passDPairsF, passDPairsF, ih (k + 1) n]
    | .plain s =>
      rw [show passBParts uuid n (Frag.plain s :: ps) =
        Frag.plain s :: passBParts uuid n ps from by rw [passBParts] <;> simp]
      rw [show passDPairsF uuid k (Frag.plain s :: passBParts uuid n ps) =
        passDPairsF uuid k (passBParts uuid n ps) from by
          rw [passDPairsF] <;> simp]
      rw [ih k n]
      rw [show passDPairsF uuid k (Frag.plain s :: ps) =
        passDPairsF uuid k ps from by rw [passDPairsF] <;> simp]
    | .ital s =>
      rw [show passBParts uuid n (Frag.ital s :: ps) =
        Frag.ital s :: passBParts uuid n ps from by rw [passBParts] <;> simp]
      rw [show passDPairsF uuid k (Frag.ital s :: passBParts uuid n ps) =
        passDPairsF uuid k (passBParts uuid n ps) from by
          rw [passDPairsF] <;> simp]
      rw [ih k n]
      rw [show passDPairsF uuid k (Frag.ital s :: ps) =
        passDPairsF uuid k ps from by rw [passDPairsF] <;> simp]
    | .link h c =>
      rw [show passBParts uuid n (Frag.link h c :: ps) =
        Frag.link h c :: passBParts uuid n ps from by rw [passBParts] <;> simp]
      rw [show passDPairsF uuid k (Frag.link h c :: passBParts uuid n ps) =
        passDPairsF uuid k (passBParts uuid n ps) from by
          rw [passDPairsF] <;> simp]
      rw [ih k n]
      rw [show passDPairsF uuid k (Frag.link h c :: ps) =
        passDPairsF uuid k ps from by rw [passDPairsF] <;> simp]
    | .tok t =>
      rw [show passBParts uuid n (Frag.tok t :: ps) =
        Frag.tok t :: passBParts uuid n ps from by rw [passBParts] <;> simp]
      rw [show passDPairsF uuid k (Frag.tok t :: passBParts uuid n ps) =
        passDPairsF uuid k (passBParts uuid n ps) from by
          rw [passDPairsF] <;> simp]
      rw [ih k n]
      rw [show passDPairsF uuid k (Frag.tok t :: ps) =
        passDPairsF uuid k ps from by rw [passDPairsF] <;> simp]

theorem passDPairsF_passI (uuid : Nat → String) :
    ∀ (ps : List Frag) (k n : Nat),
    passDPairsF uuid k (passIParts uuid n ps) = passDPairsF uuid k ps := by
  intro ps
  induction ps with
  | nil => intro k n; rfl
  | cons p ps ih =>
    intro k n
    match p with
    | .ital s =>
      rw [passIParts]
      rw [show passDPairsF uuid k (Frag.tok (uuid n) :: passIParts uuid (n + 1) ps) =
        passDPairsF uuid k (passIParts uuid (n + 1) ps) from by
          rw [passDPairsF] <;> simp]
      rw [ih k (n + 1)]
      rw [show passDPairsF uuid k (Frag.ital s :: ps) =
        passDPairsF uuid k ps from by rw [passDPairsF] <;> simp]
    | .interp s =>
      rw [show passIParts uuid n (Frag.interp s :: ps) =
        Frag.interp s :: passIParts uuid n ps from by rw [passIParts] <;> simp]
      rw [passDPairsF, passDPairsF, ih (k + 1) n]
    | .plain s =>
      rw [show passIParts uuid n (Frag.plain s :: ps) =
        Frag.plain s :: passIParts uuid n ps from by rw [passIParts] <;> simp]
      rw [show passDPairsF uuid k (Frag.plain s :: passIParts uuid n ps) =
        passDPairsF uuid k (passIParts uuid n ps) from by
          rw [passDPairsF] <;> simp]
      rw [ih k n]
      rw [show passDPairsF uuid k (Frag.plain s :: ps) =
        passDPairsF uuid k ps from by rw [passDPairsF] <;> simp]
    | .bold s =>
      rw [show passIParts uuid n (Frag.bold s :: ps) =
        Frag.bold s :: passIParts uuid n ps from by rw [passIParts] <;> simp]
      rw [show passDPairsF uuid k (Frag.bold s :: passIParts uuid n ps) =
        passDPairsF uuid k (passIParts uuid n ps) from by
          rw [passDPairsF] <;> simp]
      rw [ih k n]
      rw [show passDPairsF uuid k (Frag.bold s :: ps) =
        passDPairsF uuid k ps from by rw [passDPairsF] <;> simp]
    | .link h c =>
      rw [show passIParts uuid n (Frag.link h c :: ps) =
        Frag.link h c :: passIParts uuid n ps from by rw [passIParts] <;> simp]
      rw [show passDPairsF uuid k (Frag.link h c :: passIParts uuid n ps) =
        passDPairsF uuid k (passIParts uuid n ps) from by
          rw [passDPairsF] <;> simp]
      rw [ih k n]
      rw [show passDPairsF uuid k (Frag.link h c :: ps) =
        passDPairsF uuid k ps from by rw [passDPairsF] <;> simp]
    | .tok t =>
      rw [show passIParts uuid n (Frag.tok t :: ps) =
        Frag.tok t :: passIParts uuid n ps from by rw [passIParts] <;> simp]
      rw [show passDPairsF uuid k (Frag.tok t :: passIParts uuid n ps) =
        passDPairsF uuid k (passIParts uuid n ps) from by
          rw [passDPairsF] <;> simp]
      rw [ih k n]
      rw [show passDPairsF uuid k (Frag.tok t :: ps) =
        passDPairsF uuid k ps from by rw [passDPairsF] <;> simp]

theorem passDPairsF_passA (uuid : Nat → String) :
    ∀ (ps : List Frag) (k n : Nat),
    passDPairsF uuid k (passAParts uuid n ps) = passDPairsF uuid k ps := by
  intro ps
  induction ps with
  | nil => intro k n; rfl
  | cons p ps ih =>
    intro k n
    match p with
    | .link h c =>
      rw [passAParts]
      rw [show passDPairsF uuid k (Frag.tok (uuid n) :: passAParts uuid (n + 1) ps) =
        passDPairsF uuid k (passAParts uuid (n + 1) ps) from by
          rw [passDPairsF] <;> simp]
      rw [ih k (n + 1)]
      rw [show passDPairsF uuid k (Frag.link h c :: ps) =
        passDPairsF uuid k ps from by rw [passDPairsF] <;> simp]
    | .interp s =>
      rw [show passAParts uuid n (Frag.interp s :: ps) =
        Frag.interp s :: passAParts uuid n ps from by rw [passAParts] <;> simp]
      rw [passDPairsF, passDPairsF, ih (k + 1) n]
    | .plain s =>
      rw [show passAParts uuid n (Frag.plain s :: ps) =
        Frag.plain s :: passAParts uuid n ps from by rw [passAParts] <;> simp]
      rw [show passDPairsF uuid k (Frag.plain s :: passAParts uuid n ps) =
        passDPairsF uuid k (passAParts uuid n ps) from by
          rw [passDPairsF] <;> simp]
      rw [ih k n]
      rw [show passDPairsF uuid k (Frag.plain s :: ps) =
        passDPairsF uuid k ps from by rw [passDPairsF] <;> simp]
    | .bold s =>
      rw [show passAParts uuid n (Frag.bold s :: ps) =
        Frag.bold s :: passAParts uuid n ps from by rw [passAParts] <;> simp]
      rw [show passDPairsF uuid k (Frag.bold s :: passAParts uuid n ps) =
        passDPairsF uuid k (passAParts uuid n ps) from by
          rw [passDPairsF] <;> simp]
      rw [ih k n]
      rw [show passDPairsF uuid k (Frag.bold s :: ps) =
        passDPairsF uuid k ps from by rw [passDPairsF] <;> simp]
    | .ital s =>
      rw [show passAParts uuid n (Frag.ital s :: ps) =
        Frag.ital s :: passAParts uuid n ps from by rw [passAParts] <;> simp]
      rw [show passDPairsF uuid k (Frag.ital s :: passAParts uuid n ps) =
        passDPairsF uuid k (passAParts uuid n ps) from by
          rw [passDPairsF] <;> simp]
      rw [ih k n]
      rw [show passDPairsF uuid k (Frag.ital s :: ps) =
        passDPairsF uuid k ps from by rw [passDPairsF] <;> simp]
    | .tok t =>
      rw [show passAParts uuid n (Frag.tok t :: ps) =
        Frag.tok t :: passAParts uuid n ps from by rw [passAParts] <;> simp]
      rw [show passDPairsF uuid k (Frag.tok t :: passAParts uuid n ps) =
        passDPairsF uuid k (passAParts uuid n ps) from by
          rw [passDPairsF] <;> simp]
      rw [ih k n]
      rw [show passDPairsF uuid k (Frag.tok t :: ps) =
        passDPairsF uuid k ps from by rw [passDPairsF] <;> simp]

theorem passBPairsF_tok (uuid : Nat → String) :
    ∀ (ps : List Frag) (k : Nat) (pr : String × Frag), pr ∈ passBPairsF uuid k ps →
    ∃ m, k ≤ m ∧ m < k + countB ps ∧ pr.1 = uuid m := by
  intro ps
  induction ps with
  | nil =>
    intro k pr hpr
    rw [passBPairsF] at hpr
    simp at hpr
  | cons p ps ih =>
    intro k pr hpr
    match p with
    | .bold s =>
      rw [passBPairsF] at hpr
      rcases List.mem_cons.mp hpr with hm | hm
      · refine ⟨k, Nat.le_refl k, ?_, by rw [hm]⟩
        rw [countB]
        simp [isBold]
      · obtain ⟨m, h1, h2, h3⟩ := ih (k + 1) pr hm
        refine ⟨m, by omega, ?_, h3⟩
        rw [countB]
        simp [isBold]
        omega
    | .plain s =>
      rw [show passBPairsF uuid k (Frag.plain s :: ps) =
        passBPairsF uuid k ps from by rw [passBPairsF] <;> simp] at hpr
      obtain ⟨m, h1, h2, h3⟩ := ih k pr hpr
      refine ⟨m, h1, ?_, h3⟩
      rw [countB]
      simp [isBold]
      omega
    | .ital s =>
      rw [show passBPairsF uuid k (Frag.ital s :: ps) =
        passBPairsF uuid k ps from by rw [passBPairsF] <;> simp] at hpr
      obtain ⟨m, h1, h2, h3⟩ := ih k pr hpr
      refine ⟨m, h1, ?_, h3⟩
      rw [countB]
      simp [isBold]
      omega
    | .link h c =>
      rw [show passBPairsF uuid k (Frag.link h c :: ps) =
        passBPairsF uuid k ps from by rw [passBPairsF] <;> simp] at hpr
      obtain ⟨m, h1, h2, h3⟩ := ih k pr hpr
      refine ⟨m, h1, ?_, h3⟩
      rw [countB]
      simp [isBold]
      omega
    | .interp s =>
      rw [show passBPairsF uuid k (Frag.interp s :: ps) =
        passBPairsF uuid k ps from by rw [passBPairsF] <;> simp] at hpr
      obtain ⟨m, h1, h2, h3⟩ := ih k pr hpr
      refine ⟨m, h1, ?_, h3⟩
      rw [countB]
      simp [isBold]
      omega
    | .tok t =>
      rw [show passBPairsF uuid k (Frag.tok t :: ps) =
        passBPairsF uuid k ps from by rw [passBPairsF] <;> simp] at hpr
      obtain ⟨m, h1, h2, h3⟩ := ih k pr hpr
      refine ⟨m, h1, ?_, h3⟩
      rw [countB]
      simp [isBold]
      omega

theorem passIPairsF_tok (uuid : Nat → String) :
    ∀ (ps : List Frag) (k : Nat) (pr : String × Frag), pr ∈ passIPairsF uuid k ps →
    ∃ m, k ≤ m ∧ m < k + countI ps ∧ pr.1 = uuid m := by
  intro ps
  induction ps with
  | nil =>
    intro k pr hpr
    rw [passIPairsF] at hpr
    simp at hpr
  | cons p ps ih =>
    intro k pr hpr
    match p with
    | .ital s =>
      rw [passIPairsF] at hpr
      rcases List.mem_cons.mp hpr with hm | hm
      · refine ⟨k, Nat.le_refl k, ?_, by rw [hm]⟩
        rw [countI]
        simp [isItal]
      · obtain ⟨m, h1, h2, h3⟩ := ih (k + 1) pr hm
        refine ⟨m, by omega, ?_, h3⟩
        rw [countI]
        simp [isItal]
        omega
    | .plain s =>
      rw [show passIPairsF uuid k (Frag.plain s :: ps) =
        passIPairsF uuid k ps from by rw [passIPairsF] <;> simp] at hpr
      obtain ⟨m, h1, h2, h3⟩ := ih k pr hpr
      refine ⟨m, h1, ?_, h3⟩
      rw [countI]
      simp [isItal]
      omega
    | .bold s =>
      rw [show passIPairsF uuid k (Frag.bold s :: ps) =
        passIPairsF uuid k ps from by rw [passIPairsF] <;> simp] at hpr
      obtain ⟨m, h1, h2, h3⟩ := ih k pr hpr
      refine ⟨m, h1, ?_, h3⟩
      rw [countI]
      simp [isItal]
      omega
    | .link h c =>
      rw [show passIPairsF uuid k (Frag.link h c :: ps) =
        passIPairsF uuid k ps from by rw [passIPairsF] <;> simp] at hpr
      obtain ⟨m, h1, h2, h3⟩ := ih k pr hpr
      refine ⟨m, h1, ?_, h3⟩
      rw [countI]
      simp [isItal]
      omega
    | .interp s =>
      rw [show passIPairsF uuid k (Frag.interp s :: ps) =
        passIPairsF uuid k ps from by rw [passIPairsF] <;> simp] at hpr
      obtain ⟨m, h1, h2, h3⟩ := ih k pr hpr
      refine ⟨m, h1, ?_, h3⟩
      rw [countI]
      simp [isItal]
      omega
    | .tok t =>
      rw [show passIPairsF uuid k (Frag.tok t :: ps) =
        passIPairsF uuid k ps from by rw [passIPairsF] <;> simp] at hpr
      obtain ⟨m, h1, h2, h3⟩ := ih k pr hpr
      refine ⟨m, h1, ?_, h3⟩
      rw [countI]
      simp [isItal]
      omega

theorem passAPairsF_tok (uuid : Nat → String) :
    ∀ (ps : List Frag) (k : Nat) (pr : String × Frag), pr ∈ passAPairsF uuid k ps →
    ∃ m, k ≤ m ∧ m < k + countA ps ∧ pr.1 = uuid m := by
  intro ps
  induction ps with
  | nil =>
    intro k pr hpr
    rw [passAPairsF] at hpr
    simp at hpr
  | cons p ps ih =>
    intro k pr hpr
    match p with
    | .link h c =>
      rw [passAPairsF] at hpr
      rcases List.mem_cons.mp hpr with hm | hm
      · refine ⟨k, Nat.le_refl k, ?_, by rw [hm]⟩
        rw [countA]
        simp [isLink]
      · obtain ⟨m, h1, h2, h3⟩ := ih (k + 1) pr hm
        refine ⟨m, by omega, ?_, h3⟩
        rw [countA]
        simp [isLink]
        omega
    | .plain s =>
      rw [show passAPairsF uuid k (Frag.plain s :: ps) =
        passAPairsF uuid k ps from by rw [passAPairsF] <;> simp] at hpr
      obtain ⟨m, h1, h2, h3⟩ := ih k pr hpr
      refine ⟨m, h1, ?_, h3⟩
      rw [countA]
      simp [isLink]
      omega
    | .bold s =>
      rw [show passAPairsF uuid k (Frag.bold s :: ps) =
        passAPairsF uuid k ps from by rw [passAPairsF] <;> simp] at hpr
      obtain ⟨m, h1, h2, h3⟩ := ih k pr hpr
      refine ⟨m, h1, ?_, h3⟩
      rw [countA]
      simp [isLink]
      omega
    | .ital s =>
      rw [show passAPairsF uuid k (Frag.ital s :: ps) =
        passAPairsF uuid k ps from by rw [passAPairsF] <;> simp] at hpr
      obtain ⟨m, h1, h2, h3⟩ := ih k pr hpr
      refine ⟨m, h1, ?_, h3⟩
      rw [countA]
      simp [isLink]
      omega
    | .interp s =>
      rw [show passAPairsF uuid k (Frag.interp s :: ps) =
        passAPairsF uuid k ps from by rw [passAPairsF] <;> simp] at hpr
      obtain ⟨m, h1, h2, h3⟩ := ih k pr hpr
      refine ⟨m, h1, ?_, h3⟩
      rw [countA]
      simp [isLink]
      omega
    | .tok t =>
      rw [show passAPairsF uuid k (Frag.tok t :: ps) =
        passAPairsF uuid k ps from by rw [passAPairsF] <;> simp] at hpr
      obtain ⟨m, h1, h2, h3⟩ := ih k pr hpr
      refine ⟨m, h1, ?_, h3⟩
      rw [countA]
      simp [isLink]
      omega

theorem passDPairsF_tok (uuid : Nat → String) :
    ∀ (ps : List Frag) (k : Nat) (pr : String × Frag), pr ∈ passDPairsF uuid k ps →
    ∃ m, k ≤ m ∧ m < k + countD ps ∧ pr.1 = uuid m := by
  intro ps
  induction ps with
  | nil =>
    intro k pr hpr
    rw [passDPairsF] at hpr
    simp at hpr
  | cons p ps ih =>
    intro k pr hpr
    match p with
    | .interp s =>
      rw [passDPairsF] at hpr
      rcases List.mem_cons.mp hpr with hm | hm
      · refine ⟨k, Nat.le_refl k, ?_, by rw [hm]⟩
        rw [countD]
        simp [isInterp]
      · obtain ⟨m, h1, h2, h3⟩ := ih (k + 1) pr hm
        refine ⟨m, by omega, ?_, h3⟩
        rw [countD]
        simp [isInterp]
        omega
    | .plain s =>
      rw [show passDPairsF uuid k (Frag.plain s :: ps) =
        passDPairsF uuid k ps from by rw [passDPairsF] <;> simp] at hpr
      obtain ⟨m, h1, h2, h3⟩ := ih k pr hpr
      refine ⟨m, h1, ?_, h3⟩
      rw [countD]
      simp [isInterp]
      omega
    | .bold s =>
      rw [show passDPairsF uuid k (Frag.bold s :: ps) =
        passDPairsF uuid k ps from by rw [passDPairsF] <;> simp] at hpr
      obtain ⟨m, h1, h2, h3⟩ := ih k pr hpr
      refine ⟨m, h1, ?_, h3⟩
      rw [countD]
      simp [isInterp]
      omega
    | .ital s =>
      rw [show passDPairsF uuid k (Frag.ital s :: ps) =
        passDPairsF uuid k ps from by rw [passDPairsF] <;> simp] at hpr
      obtain ⟨m, h1, h2, h3⟩ := ih k pr hpr
      refine ⟨m, h1, ?_, h3⟩
      rw [countD]
      simp [isInterp]
      omega
    | .link h c =>
      rw [show passDPairsF uuid k (Frag.link h c :: ps) =
        passDPairsF uuid k ps from by rw [passDPairsF] <;> simp] at hpr
      obtain ⟨m, h1, h2, h3⟩ := ih k pr hpr
      refine ⟨m, h1, ?_, h3⟩
      rw [countD]
      simp [isInterp]
      omega
    | .tok t =>
      rw [show passDPairsF uuid k (Frag.tok t :: ps) =
        passDPairsF uuid k ps from by rw [passDPairsF] <;> simp] at hpr
      obtain ⟨m, h1, h2, h3⟩ := ih k pr hpr
      refine ⟨m, h1, ?_, h3⟩
      rw [countD]
      simp [isInterp]
      omega

theorem restoreB (uuid : Nat → String) (hinj : Function.Injective uuid)
    (htok : ∀ m, (uuid m).data.all safeChar = true) :
    ∀ (ps : List Frag) (nb ni na nd : Nat), goodParts ps = true →
    ps.all (fun p => !isTok p) = true →
    nb + countB ps ≤ ni → ni + countI ps ≤ na → na + countA ps ≤ nd →
    RestoresAll (passBPairsF uuid nb ps)
      (stageParts uuid true true true true nb ni na nd ps)
      (stageParts uuid false true true true nb ni na nd ps) := by
  intro ps
  induction ps with
  | nil =>
    intro nb ni na nd _ _ _ _ _
    exact RestoresAll.nil _
  | cons p ps ih =>
    intro nb ni na nd hgood hnt h1 h2 h3
    rw [goodParts, List.all_cons, Bool.and_eq_true] at hgood
    rw [List.all_cons, Bool.and_eq_true] at hnt
    have hgood2 : goodParts ps = true := hgood.2
    match p with
    | .bold s =>
      rw [countB] at h1
      rw [countI] at h2
      rw [countA] at h3
      simp only [isBold, isItal, isLink, if_true, if_false] at h1 h2 h3
      rw [passBPairsF, stageParts, stageParts]
      refine RestoresAll.cons (uuid nb) (.bold s) _ _ _ _ (Steps1.here _) ?_
      refine RestoresAll_cons_part (.bold s) ?_
        (ih (nb + 1) ni na nd hgood2 hnt.2 (by omega) (by omega) (by omega))
      intro pr hpr
      obtain ⟨m, hm1, hm2, hm3⟩ := passBPairsF_tok uuid ps (nb + 1) pr hpr
      rw [hm3]
      exact neverOpens_tokDelim_frag (uuid m) (htok m) (.bold s) hgood.1 (by simp)
    | .ital s =>
      rw [countB] at h1
      rw [countI] at h2
      rw [countA] at h3
      simp only [isBold, isItal, isLink, if_true, if_false] at h1 h2 h3
      rw [show passBPairsF uuid nb (Frag.ital s :: ps) = passBPairsF uuid nb ps from by
        rw [passBPairsF] <;> simp]
      rw [stageParts, stageParts]
      refine RestoresAll_cons_part (.tok (uuid ni)) ?_
        (ih nb (ni + 1) na nd hgood2 hnt.2 (by omega) (by omega) (by omega))
      intro pr hpr
      obtain ⟨m, hm1, hm2, hm3⟩ := passBPairsF_tok uuid ps nb pr hpr
      rw [hm3]
      refine neverOpens_tokDelim_frag (uuid m) (htok m) (.tok (uuid ni)) (htok ni) ?_
      intro he
      have he2 : uuid ni = uuid m := by injection he
      have := hinj he2
      omega
    | .link h c =>
      rw [countB] at h1
      rw [countI] at h2
      rw [countA] at h3
      simp only [isBold, isItal, isLink, if_true, if_false] at h1 h2 h3
      rw [show passBPairsF uuid nb (Frag.link h c :: ps) = passBPairsF uuid nb ps from by
        rw [passBPairsF] <;> simp]
      rw [stageParts, stageParts]
      refine RestoresAll_cons_part (.tok (uuid na)) ?_
        (ih nb ni (na + 1) nd hgood2 hnt.2 (by omega) (by omega) (by omega))
      intro pr hpr
      obtain ⟨m, hm1, hm2, hm3⟩ := passBPairsF_tok uuid ps nb pr hpr
      rw [hm3]
      refine neverOpens_tokDelim_frag (uuid m) (htok m) (.tok (uuid na)) (htok na) ?_
      intro he
      have he2 : uuid na = uuid m := by injection he
      have := hinj he2
      omega
    | .interp s =>
      rw [countB] at h1
      rw [countI] at h2
      rw [countA] at h3
      simp only [isBold, isItal, isLink, if_true, if_false] at h1 h2 h3
      rw [show passBPairsF uuid nb (Frag.interp s :: ps) = passBPairsF uuid nb ps from by
        rw [passBPairsF] <;> simp]
      rw [stageParts, stageParts]
      refine RestoresAll_cons_part (.tok (uuid nd)) ?_
        (ih nb ni na (nd + 1) hgood2 hnt.2 (by omega) (by omega) (by omega))
      intro pr hpr
      obtain ⟨m, hm1, hm2, hm3⟩ := passBPairsF_tok uuid ps nb pr hpr
      rw [hm3]
      refine neverOpens_tokDelim_frag (uuid m) (htok m) (.tok (uuid nd)) (htok nd) ?_
      intro he
      have he2 : uuid nd = uuid m := by injection he
      have := hinj he2
      omega
    | .plain s =>
      rw [countB] at h1
      rw [countI] at h2
      rw [countA] at h3
      simp only [isBold, isItal, isLink, if_true, if_false] at h1 h2 h3
      rw [show passBPairsF uuid nb (Frag.plain s :: ps) = passBPairsF uuid nb ps from by
        rw [passBPairsF] <;> simp]
      rw [show stageParts uuid true true true true nb ni na nd (Frag.plain s :: ps) =
        Frag.plain s :: stageParts uuid true true true true nb ni na nd ps from by
          rw [stageParts] <;> simp]
      rw [show stageParts uuid false true true true nb ni na nd (Frag.plain s :: ps) =
        Frag.plain s :: stageParts uuid false true true true nb ni na nd ps from by
          rw [stageParts] <;> simp]
      refine RestoresAll_cons_part (.plain s) ?_
        (ih nb ni na nd hgood2 hnt.2 (by omega) (by omega) (by omega))
      intro pr hpr
      obtain ⟨m, hm1, hm2, hm3⟩ := passBPairsF_tok uuid ps nb pr hpr
      rw [hm3]
      exact neverOpens_tokDelim_frag (uuid m) (htok m) (.plain s) hgood.1 (by simp)
    | .tok t =>
      exact absurd hnt.1 (by simp [isTok])

theorem restoreI (uuid : Nat → String) (hinj : Function.Injective uuid)
    (htok : ∀ m, (uuid m).data.all safeChar = true) :
    ∀ (ps : List Frag) (nb ni na nd : Nat), goodParts ps = true →
    ps.all (fun p => !isTok p) = true →
    ni + countI ps ≤ na → na + countA ps ≤ nd →

    RestoresAll (passIPairsF uuid ni ps)
      (stageParts uuid false true true true nb ni na nd ps)
      (stageParts uuid false false true true nb ni na nd ps) := by
  intro ps
  induction ps with
  | nil =>
    intro nb ni na nd _ _ _ _
    exact RestoresAll.nil _
  | cons p ps ih =>
    intro nb ni na nd hgood hnt h2 h3
    rw [goodParts, List.all_cons, Bool.and_eq_true] at hgood
    rw [List.all_cons, Bool.and_eq_true] at hnt
    have hgood2 : goodParts ps = true := hgood.2
    match p with
    | .ital s =>
      rw [countI] at h2
      rw [countA] at h3
      simp only [isItal, isLink, isBold, isInterp, if_true, if_false] at h2 h3
      rw [passIPairsF, stageParts, stageParts]
      refine RestoresAll.cons (uuid ni) (.ital s) _ _ _ _ (Steps1.here _) ?_
      refine RestoresAll_cons_part (.ital s) ?_
        (ih nb (ni + 1) na nd hgood2 hnt.2 (by omega) (by omega))
      intro pr hpr
      obtain ⟨m, hm1, hm2, hm3⟩ := passIPairsF_tok uuid ps (ni + 1) pr hpr
      rw [hm3]
      exact neverOpens_tokDelim_frag (uuid m) (htok m) (.ital s) hgood.1 (by simp)
    | .bold s =>
      rw [countI] at h2
      rw [countA] at h3
      simp only [isItal, isLink, isBold, isInterp, if_true, if_false] at h2 h3
      rw [show passIPairsF uuid ni (Frag.bold s :: ps) = passIPairsF uuid ni ps from by
        rw [passIPairsF] <;> simp]
      rw [stageParts, stageParts]
      refine RestoresAll_cons_part (.bold s) ?_
        (ih (nb + 1) ni na nd hgood2 hnt.2 (by omega) (by omega))
      intro pr hpr
      obtain ⟨m, hm1, hm2, hm3⟩ := passIPairsF_tok uuid ps ni pr hpr
      rw [hm3]
      exact neverOpens_tokDelim_frag (uuid m) (htok m) (.bold s) hgood.1 (by simp)
    | .link h c =>
      rw [countI] at h2
      rw [countA] at h3
      simp only [isItal, isLink, isBold, isInterp, if_true, if_false] at h2 h3
      rw [show passIPairsF uuid ni (Frag.link h c :: ps) = passIPairsF uuid ni ps from by
        rw [passIPairsF] <;> simp]
      rw [stageParts, stageParts]
      refine RestoresAll_cons_part (.tok (uuid na)) ?_
        (ih nb ni (na + 1) nd hgood2 hnt.2 (by omega) (by omega))
      intro pr hpr
      obtain ⟨m, hm1, hm2, hm3⟩ := passIPairsF_tok uuid ps ni pr hpr
      rw [hm3]
      refine neverOpens_tokDelim_frag (uuid m) (htok m) (.tok (uuid na)) (htok na) ?_
      intro he
      have he2 : uuid na = uuid m := by injection he
      have := hinj he2
      omega
    | .interp s =>
      rw [countI] at h2
      rw [countA] at h3
      simp only [isItal, isLink, isBold, isInterp, if_true, if_false] at h2 h3
      rw [show passIPairsF uuid ni (Frag.interp s :: ps) = passIPairsF uuid ni ps from by
        rw [passIPairsF] <;> simp]
      rw [stageParts, stageParts]
      refine RestoresAll_cons_part (.tok (uuid nd)) ?_
        (ih nb ni na (nd + 1) hgood2 hnt.2 (by omega) (by omega))
      intro pr hpr
      obtain ⟨m, hm1, hm2, hm3⟩ := passIPairsF_tok uuid ps ni pr hpr
      rw [hm3]
      refine neverOpens_tokDelim_frag (uuid m) (htok m) (.tok (uuid nd)) (htok nd) ?_
      intro he
      have he2 : uuid nd = uuid m := by injection he
      have := hinj he2
      omega
    | .plain s =>
      rw [countI] at h2
      rw [countA] at h3
      simp only [isItal, isLink, isBold, isInterp, if_true, if_false] at h2 h3
      rw [show passIPairsF uuid ni (Frag.plain s :: ps) = passIPairsF uuid ni ps from by
        rw [passIPairsF] <;> simp]
      rw [show stageParts uuid false true true true nb ni na nd (Frag.plain s :: ps) =
        Frag.plain s :: stageParts uuid false true true true nb ni na nd ps from by
          rw [stageParts] <;> simp]
      rw [show stageParts uuid false false true true nb ni na nd (Frag.plain s :: ps) =
        Frag.plain s :: stageParts uuid false false true true nb ni na nd ps from by
          rw [stageParts] <;> simp]
      refine RestoresAll_cons_part (.plain s) ?_
        (ih nb ni na nd hgood2 hnt.2 (by omega) (by omega))
      intro pr hpr
      obtain ⟨m, hm1, hm2, hm3⟩ := passIPairsF_tok uuid ps ni pr hpr
      rw [hm3]
      exact neverOpens_tokDelim_frag (uuid m) (htok m) (.plain s) hgood.1 (by simp)
    | .tok t =>
      exact absurd hnt.1 (by simp [isTok])


theorem restoreA (uuid : Nat → String) (hinj : Function.Injective uuid)
    (htok : ∀ m, (uuid m).data.all safeChar = true) :
    ∀ (ps : List Frag) (nb ni na nd : Nat), goodParts ps = true →
    ps.all (fun p => !isTok p) = true →
    na + countA ps ≤ nd →

    RestoresAll (passAPairsF uuid na ps)
      (stageParts uuid false false true true nb ni na nd ps)
      (stageParts uuid false false false true nb ni na nd ps) := by
  intro ps
  induction ps with
  | nil =>
    intro nb ni na nd _ _ _
    exact RestoresAll.nil _
  | cons p ps ih =>
    intro nb ni na nd hgood hnt h3
    rw [goodParts, List.all_cons, Bool.and_eq_true] at hgood
    rw [List.all_cons, Bool.and_eq_true] at hnt
    have hgood2 : goodParts ps = true := hgood.2
    match p with
    | .link h c =>
      rw [countA] at h3
      simp only [isLink, isBold, isItal, isInterp, if_true, if_false] at h3
      rw [passAPairsF, stageParts, stageParts]
      refine RestoresAll.cons (uuid na) (.link h c) _ _ _ _ (Steps1.here _) ?_
      refine RestoresAll_cons_part (.link h c) ?_
        (ih nb ni (na + 1) nd hgood2 hnt.2 (by omega))
      intro pr hpr
      obtain ⟨m, hm1, hm2, hm3⟩ := passAPairsF_tok uuid ps (na + 1) pr hpr
      rw [hm3]
      exact neverOpens_tokDelim_frag (uuid m) (htok m) (.link h c) hgood.1 (by simp)
    | .bold s =>
      rw [countA] at h3
      simp only [isLink, isBold, isItal, isInterp, if_true, if_false] at h3
      rw [show passAPairsF uuid na (Frag.bold s :: ps) = passAPairsF uuid na ps from by
        rw [passAPairsF] <;> simp]
      rw [stageParts, stageParts]
      refine RestoresAll_cons_part (.bold s) ?_
        (ih (nb + 1) ni na nd hgood2 hnt.2 (by omega))
      intro pr hpr
      obtain ⟨m, hm1, hm2, hm3⟩ := passAPairsF_tok uuid ps na pr hpr
      rw [hm3]
      exact neverOpens_tokDelim_frag (uuid m) (htok m) (.bold s) hgood.1 (by simp)
    | .ital s =>
      rw [countA] at h3
      simp only [isLink, isBold, isItal, isInterp, if_true, if_false] at h3
      rw [show passAPairsF uuid na (Frag.ital s :: ps) = passAPairsF uuid na ps from by
        rw [passAPairsF] <;> simp]
      rw [stageParts, stageParts]
      refine RestoresAll_cons_part (.ital s) ?_
        (ih nb (ni + 1) na nd hgood2 hnt.2 (by omega))
      intro pr hpr
      obtain ⟨m, hm1, hm2, hm3⟩ := passAPairsF_tok uuid ps na pr hpr
      rw [hm3]
      exact neverOpens_tokDelim_frag (uuid m) (htok m) (.ital s) hgood.1 (by simp)
    | .interp s =>
      rw [countA] at h3
      simp only [isLink, isBold, isItal, isInterp, if_true, if_false] at h3
      rw [show passAPairsF uuid na (Frag.interp s :: ps) = passAPairsF uuid na ps from by
        rw [passAPairsF] <;> simp]
      rw [stageParts, stageParts]
      refine RestoresAll_cons_part (.tok (uuid nd)) ?_
        (ih nb ni na (nd + 1) hgood2 hnt.2 (by omega))
      intro pr hpr
      obtain ⟨m, hm1, hm2, hm3⟩ := passAPairsF_tok uuid ps na pr hpr
      rw [hm3]
      refine neverOpens_tokDelim_frag (uuid m) (htok m) (.tok (uuid nd)) (htok nd) ?_
      intro he
      have he2 : uuid nd = uuid m := by injection he
      have := hinj he2
      omega
    | .plain s =>
      rw [countA] at h3
      simp only [isLink, isBold, isItal, isInterp, if_true, if_false] at h3
      rw [show passAPairsF uuid na (Frag.plain s :: ps) = passAPairsF uuid na ps from by
        rw [passAPairsF] <;> simp]
      rw [show stageParts uuid false false true true nb ni na nd (Frag.plain s :: ps) =
        Frag.plain s :: stageParts uuid false false true true nb ni na nd ps from by
          rw [stageParts] <;> simp]
      rw [show stageParts uuid false false false true nb ni na nd (Frag.plain s :: ps) =
        Frag.plain s :: stageParts uuid false false false true nb ni na nd ps from by
          rw [stageParts] <;> simp]
      refine RestoresAll_cons_part (.plain s) ?_
        (ih nb ni na nd hgood2 hnt.2 (by omega))
      intro pr hpr
      obtain ⟨m, hm1, hm2, hm3⟩ := passAPairsF_tok uuid ps na pr hpr
      rw [hm3]
      exact neverOpens_tokDelim_frag (uuid m) (htok m) (.plain s) hgood.1 (by simp)
    | .tok t =>
      exact absurd hnt.1 (by simp [isTok])


theorem restoreD (uuid : Nat → String) (hinj : Function.Injective uuid)
    (htok : ∀ m, (uuid m).data.all safeChar = true) :
    ∀ (ps : List Frag) (nb ni na nd : Nat), goodParts ps = true →
    ps.all (fun p => !isTok p) = true →

    RestoresAll (passDPairsF uuid nd ps)
      (stageParts uuid false false false true nb ni na nd ps)
      (stageParts uuid false false false false nb ni na nd ps) := by
  intro ps
  induction ps with
  | nil =>
    intro nb ni na nd _ _ 
    exact RestoresAll.nil _
  | cons p ps ih =>
    intro nb ni na nd hgood hnt 
    rw [goodParts, List.all_cons, Bool.and_eq_true] at hgood
    rw [List.all_cons, Bool.and_eq_true] at hnt
    have hgood2 : goodParts ps = true := hgood.2
    match p with
    | .interp s =>
      rw [passDPairsF, stageParts, stageParts]
      refine RestoresAll.cons (uuid nd) (.interp s) _ _ _ _ (Steps1.here _) ?_
      refine RestoresAll_cons_part (.interp s) ?_
        (ih nb ni na (nd + 1) hgood2 hnt.2)
      intro pr hpr
      obtain ⟨m, hm1, hm2, hm3⟩ := passDPairsF_tok uuid ps (nd + 1) pr hpr
      rw [hm3]
      exact neverOpens_tokDelim_frag (uuid m) (htok m) (.interp s) hgood.1 (by simp)
    | .bold s =>
      rw [show passDPairsF uuid nd (Frag.bold s :: ps) = passDPairsF uuid nd ps from by
        rw [passDPairsF] <;> simp]
      rw [stageParts, stageParts]
      refine RestoresAll_cons_part (Frag.bold s) ?_
        (ih (nb + 1) ni na nd hgood2 hnt.2)
      intro pr hpr
      obtain ⟨m, hm1, hm2, hm3⟩ := passDPairsF_tok uuid ps nd pr hpr
      rw [hm3]
      exact neverOpens_tokDelim_frag (uuid m) (htok m) (Frag.bold s) hgood.1 (by simp)
    | .ital s =>
      rw [show passDPairsF uuid nd (Frag.ital s :: ps) = passDPairsF uuid nd ps from by
        rw [passDPairsF] <;> simp]
      rw [stageParts, stageParts]
      refine RestoresAll_cons_part (Frag.ital s) ?_
        (ih nb (ni + 1) na nd hgood2 hnt.2)
      intro pr hpr
      obtain ⟨m, hm1, hm2, hm3⟩ := passDPairsF_tok uuid ps nd pr hpr
      rw [hm3]
      exact neverOpens_tokDelim_frag (uuid m) (htok m) (Frag.ital s) hgood.1 (by simp)
    | .link h c =>
      rw [show passDPairsF uuid nd (Frag.link h c :: ps) = passDPairsF uuid nd ps from by
        rw [passDPairsF] <;> simp]
      rw [stageParts, stageParts]
      refine RestoresAll_cons_part (Frag.link h c) ?_
        (ih nb ni (na + 1) nd hgood2 hnt.2)
      intro pr hpr
      obtain ⟨m, hm1, hm2, hm3⟩ := passDPairsF_tok uuid ps nd pr hpr
      rw [hm3]
      exact neverOpens_tokDelim_frag (uuid m) (htok m) (Frag.link h c) hgood.1 (by simp)
    | .plain s =>
      rw [show passDPairsF uuid nd (Frag.plain s :: ps) = passDPairsF uuid nd ps from by
        rw [passDPairsF] <;> simp]
      rw [show stageParts uuid false false false true nb ni na nd (Frag.plain s :: ps) =
        Frag.plain s :: stageParts uuid false false false true nb ni na nd ps from by
          rw [stageParts] <;> simp]
      rw [show stageParts uuid false false false false nb ni na nd (Frag.plain s :: ps) =
        Frag.plain s :: stageParts uuid false false false false nb ni na nd ps from by
          rw [stageParts] <;> simp]
      refine RestoresAll_cons_part (.plain s) ?_
        (ih nb ni na nd hgood2 hnt.2)
      intro pr hpr
      obtain ⟨m, hm1, hm2, hm3⟩ := passDPairsF_tok uuid ps nd pr hpr
      rw [hm3]
      exact neverOpens_tokDelim_frag (uuid m) (htok m) (.plain s) hgood.1 (by simp)
    | .tok t =>
      exact absurd hnt.1 (by simp [isTok])

theorem countI_passB (uuid : Nat → String) :
    ∀ (ps : List Frag) (n : Nat), countI (passBParts uuid n ps) = countI ps := by
  intro ps
  induction ps with
  | nil => intro n; rfl
  | cons p ps ih =>
    intro n
    match p with
    | .bold s =>
      rw [passBParts]
      rw [show countI (Frag.tok (uuid n) :: passBParts uuid (n + 1) ps) =
        countI (passBParts uuid (n + 1) ps) from by
          rw [countI]; simp [isItal]]
      rw [ih (n + 1)]
      rw [show countI (Frag.bold s :: ps) = countI ps from by
        rw [countI]; simp [isItal]]
    | .plain s =>
      rw [show passBParts uuid n (Frag.plain s :: ps) =
        Frag.plain s :: passBParts uuid n ps from by rw [passBParts] <;> simp]
      rw [countI, countI, ih n]
    | .ital s =>
      rw [show passBParts uuid n (Frag.ital s :: ps) =
        Frag.ital s :: passBParts uuid n ps from by rw [passBParts] <;> simp]
      rw [countI, countI, ih n]
    | .link h c =>
      rw [show passBParts uuid n (Frag.link h c :: ps) =
        Frag.link h c :: passBParts uuid n ps from by rw [passBParts] <;> simp]
      rw [countI, countI, ih n]
    | .interp s =>
      rw [show passBParts uuid n (Frag.interp s :: ps) =
        Frag.interp s :: passBParts uuid n ps from by rw [passBParts] <;> simp]
      rw [countI, countI, ih n]
    | .tok t =>
      rw [show passBParts uuid n (Frag.tok t :: ps) =
        Frag.tok t :: passBParts uuid n ps from by rw [passBParts] <;> simp]
      rw [countI, countI, ih n]

theorem countA_passB (uuid : Nat → String) :
    ∀ (ps : List Frag) (n : Nat), countA (passBParts uuid n ps) = countA ps := by
  intro ps
  induction ps with
  | nil => intro n; rfl
  | cons p ps ih =>
    intro n
    match p with
    | .bold s =>
      rw [passBParts]
      rw [show countA (Frag.tok (uuid n) :: passBParts uuid (n + 1) ps) =
        countA (passBParts uuid (n + 1) ps) from by
          rw [countA]; simp [isLink]]
      rw [ih (n + 1)]
      rw [show countA (Frag.bold s :: ps) = countA ps from by
        rw [countA]; simp [isLink]]
    | .plain s =>
      rw [show passBParts uuid n (Frag.plain s :: ps) =
        Frag.plain s :: passBParts uuid n ps from by rw [passBParts] <;> simp]
      rw [countA, countA, ih n]
    | .ital s =>
      rw [show passBParts uuid n (Frag.ital s :: ps) =
        Frag.ital s :: passBParts uuid n ps from by rw [passBParts] <;> simp]
      rw [countA, countA, ih n]
    | .link h c =>
      rw [show passBParts uuid n (Frag.link h c :: ps) =
        Frag.link h c :: passBParts uuid n ps from by rw [passBParts] <;> simp]
      rw [countA, countA, ih n]
    | .interp s =>
      rw [show passBParts uuid n (Frag.interp s :: ps) =
        Frag.interp s :: passBParts uuid n ps from by rw [passBParts] <;> simp]
      rw [countA, countA, ih n]
    | .tok t =>
      rw [show passBParts uuid n (Frag.tok t :: ps) =
        Frag.tok t :: passBParts uuid n ps from by rw [passBParts] <;> simp]
      rw [countA, countA, ih n]

theorem countA_passI (uuid : Nat → String) :
    ∀ (ps : List Frag) (n : Nat), countA (passIParts uuid n ps) = countA ps := by
  intro ps
  induction ps with
  | nil => intro n; rfl
  | cons p ps ih =>
    intro n
    match p with
    | .ital s =>
      rw [passIParts]
      rw [show countA (Frag.tok (uuid n) :: passIParts uuid (n + 1) ps) =
        countA (passIParts uuid (n + 1) ps) from by
          rw [countA]; simp [isLink]]
      rw [ih (n + 1)]
      rw [show countA (Frag.ital s :: ps) = countA ps from by
        rw [countA]; simp [isLink]]
    | .plain s =>
      rw [show passIParts uuid n (Frag.plain s :: ps) =
        Frag.plain s :: passIParts uuid n ps from by rw [passIParts] <;> simp]
      rw [countA, countA, ih n]
    | .bold s =>
      rw [show passIParts uuid n (Frag.bold s :: ps) =
        Frag.bold s :: passIParts uuid n ps from by rw [passIParts] <;> simp]
      rw [countA, countA, ih n]
    | .link h c =>
      rw [show passIParts uuid n (Frag.link h c :: ps) =
        Frag.link h c :: passIParts uuid n ps from by rw [passIParts] <;> simp]
      rw [countA, countA, ih n]
    | .interp s =>
      rw [show passIParts uuid n (Frag.interp s :: ps) =
        Frag.interp s :: passIParts uuid n ps from by rw [passIParts] <;> simp]
      rw [countA, countA, ih n]
    | .tok t =>
      rw [show passIParts uuid n (Frag.tok t :: ps) =
        Frag.tok t :: passIParts uuid n ps from by rw [passIParts] <;> simp]
      rw [countA, countA, ih n]

theorem passBPairsF_mem_snd (uuid : Nat → String) :
    ∀ (ps : List Frag) (k : Nat) (pr : String × Frag),
    pr ∈ passBPairsF uuid k ps → pr.2 ∈ ps := by
  intro ps
  induction ps with
  | nil => intro k pr h; rw [passBPairsF] at h; exact absurd h (List.not_mem_nil pr)
  | cons p ps ih =>
    intro k pr h
    match p with
    | .bold s =>
      rw [passBPairsF] at h
      rcases List.mem_cons.mp h with h1 | h1
      · rw [h1]; exact List.mem_cons_self _ _
      · exact List.mem_cons_of_mem _ (ih (k + 1) pr h1)
    | .plain s => rw [passBPairsF] at h; exact List.mem_cons_of_mem _ (ih k pr h); all_goals simp
    | .ital s => rw [passBPairsF] at h; exact List.mem_cons_of_mem _ (ih k pr h); all_goals simp
    | .link u c => rw [passBPairsF] at h; exact List.mem_cons_of_mem _ (ih k pr h); all_goals simp
    | .interp s => rw [passBPairsF] at h; exact List.mem_cons_of_mem _ (ih k pr h); all_goals simp
    | .tok t => rw [passBPairsF] at h; exact List.mem_cons_of_mem _ (ih k pr h); all_goals simp

theorem passIPairsF_mem_snd (uuid : Nat → String) :
    ∀ (ps : List Frag) (k : Nat) (pr : String × Frag),
    pr ∈ passIPairsF uuid k ps → pr.2 ∈ ps := by
  intro ps
  induction ps with
  | nil => intro k pr h; rw [passIPairsF] at h; exact absurd h (List.not_mem_nil pr)
  | cons p ps ih =>
    intro k pr h
    match p with
    | .ital s =>
      rw [passIPairsF] at h
      rcases List.mem_cons.mp h with h1 | h1
      · rw [h1]; exact List.mem_cons_self _ _
      · exact List.mem_cons_of_mem _ (ih (k + 1) pr h1)
    | .plain s => rw [passIPairsF] at h; exact List.mem_cons_of_mem _ (ih k pr h); all_goals simp
    | .bold s => rw [passIPairsF] at h; exact List.mem_cons_of_mem _ (ih k pr h); all_goals simp
    | .link u c => rw [passIPairsF] at h; exact List.mem_cons_of_mem _ (ih k pr h); all_goals simp
    | .interp s => rw [passIPairsF] at h; exact List.mem_cons_of_mem _ (ih k pr h); all_goals simp
    | .tok t => rw [passIPairsF] at h; exact List.mem_cons_of_mem _ (ih k pr h); all_goals simp

theorem passAPairsF_mem_snd (uuid : Nat → String) :
    ∀ (ps : List Frag) (k : Nat) (pr : String × Frag),
    pr ∈ passAPairsF uuid k ps → pr.2 ∈ ps := by
  intro ps
  induction ps with
  | nil => intro k pr h; rw [passAPairsF] at h; exact absurd h (List.not_mem_nil pr)
  | cons p ps ih =>
    intro k pr h
    match p with
    | .link u c =>
      rw [passAPairsF] at h
      rcases List.mem_cons.mp h with h1 | h1
      · rw [h1]; exact List.mem_cons_self _ _
      · exact List.mem_cons_of_mem _ (ih (k + 1) pr h1)
    | .plain s => rw [passAPairsF] at h; exact List.mem_cons_of_mem _ (ih k pr h); all_goals simp
    | .bold s => rw [passAPairsF] at h; exact List.mem_cons_of_mem _ (ih k pr h); all_goals simp
    | .ital s => rw [passAPairsF] at h; exact List.mem_cons_of_mem _ (ih k pr h); all_goals simp
    | .interp s => rw [passAPairsF] at h; exact List.mem_cons_of_mem _ (ih k pr h); all_goals simp
    | .tok t => rw [passAPairsF] at h; exact List.mem_cons_of_mem _ (ih k pr h); all_goals simp

theorem passDPairsF_mem_snd (uuid : Nat → String) :
    ∀ (ps : List Frag) (k : Nat) (pr : String × Frag),
    pr ∈ passDPairsF uuid k ps → pr.2 ∈ ps := by
  intro ps
  induction ps with
  | nil => intro k pr h; rw [passDPairsF] at h; exact absurd h (List.not_mem_nil pr)
  | cons p ps ih =>
    intro k pr h
    match p with
    | .interp s =>
      rw [passDPairsF] at h
      rcases List.mem_cons.mp h with h1 | h1
      · rw [h1]; exact List.mem_cons_self _ _
      · exact List.mem_cons_of_mem _ (ih (k + 1) pr h1)
    | .plain s => rw [passDPairsF] at h; exact List.mem_cons_of_mem _ (ih k pr h); all_goals simp
    | .bold s => rw [passDPairsF] at h; exact List.mem_cons_of_mem _ (ih k pr h); all_goals simp
    | .ital s => rw [passDPairsF] at h; exact List.mem_cons_of_mem _ (ih k pr h); all_goals simp
    | .link u c => rw [passDPairsF] at h; exact List.mem_cons_of_mem _ (ih k pr h); all_goals simp
    | .tok t => rw [passDPairsF] at h; exact List.mem_cons_of_mem _ (ih k pr h); all_goals simp

/-- C4 amended: for the class of strings described as concatenations of
safe plain segments and non-overlapping bold, italic, hyperlink and
interpolation fragments with safe inner content, encoding with fresh
distinct marker-free tokens and decoding the unmodified safe text with
the recorded placeholder map reproduces the string exactly. -/
theorem claim4_markup_roundtrip (uuid : Nat → String) (ps : List Frag) (n : Nat)
    (hgood : goodParts ps = true)
    (hnt : ps.all (fun p => !isTok p) = true)
    (htok : ∀ m, (uuid m).data.all safeChar = true)
    (hinj : Function.Injective uuid) :
    postprocessText (preprocessText uuid n (String.mk (renderL ps))).text
        (preprocessText uuid n (String.mk (renderL ps))).placeholders =
      String.mk (renderL ps) := by
  rw [preprocess_renders uuid htok ps n hgood]
  rw [show (PreResult.mk (String.mk (renderL (encodedParts uuid n ps)))
      ((encodedPairsF uuid n ps).map (fun pr => (pr.1, String.mk (renderF pr.2))))
      (encodedNext uuid n ps)).text = String.mk (renderL (encodedParts uuid n ps)) from rfl]
  rw [show (PreResult.mk (String.mk (renderL (encodedParts uuid n ps)))
      ((encodedPairsF uuid n ps).map (fun pr => (pr.1, String.mk (renderF pr.2))))
      (encodedNext uuid n ps)).placeholders =
    (encodedPairsF uuid n ps).map (fun pr => (pr.1, String.mk (renderF pr.2))) from rfl]
  rw [postprocess_decodeL (encodedPairsF uuid n ps) (renderL (encodedParts uuid n ps))]
  have hR1 := restoreB uuid hinj htok ps n (n + countB ps)
    (n + countB ps + countI (passBParts uuid n ps))
    (n + countB ps + countI (passBParts uuid n ps) +
      countA (passIParts uuid (n + countB ps) (passBParts uuid n ps)))
    hgood hnt (Nat.le_refl _)
    (le_of_eq (by rw [countI_passB uuid ps n]))
    (le_of_eq (by rw [countA_passI uuid (passBParts uuid n ps) (n + countB ps),
      countA_passB uuid ps n]))
  have hR2 := restoreI uuid hinj htok ps n (n + countB ps)
    (n + countB ps + countI (passBParts uuid n ps))
    (n + countB ps + countI (passBParts uuid n ps) +
      countA (passIParts uuid (n + countB ps) (passBParts uuid n ps)))
    hgood hnt
    (le_of_eq (by rw [countI_passB uuid ps n]))
    (le_of_eq (by rw [countA_passI uuid (passBParts uuid n ps) (n + countB ps),
      countA_passB uuid ps n]))
  have hR3 := restoreA uuid hinj htok ps n (n + countB ps)
    (n + countB ps + countI (passBParts uuid n ps))
    (n + countB ps + countI (passBParts uuid n ps) +
      countA (passIParts uuid (n + countB ps) (passBParts uuid n ps)))
    hgood hnt
    (le_of_eq (by rw [countA_passI uuid (passBParts uuid n ps) (n + countB ps),
      countA_passB uuid ps n]))
  have hR4 := restoreD uuid hinj htok ps n (n + countB ps)
    (n + countB ps + countI (passBParts uuid n ps))
    (n + countB ps + countI (passBParts uuid n ps) +
      countA (passIParts uuid (n + countB ps) (passBParts uuid n ps)))
    hgood hnt
  have hR := RestoresAll_append hR1 (RestoresAll_append hR2 (RestoresAll_append hR3 hR4))
  have hpairs : encodedPairsF uuid n ps =
      passBPairsF uuid n ps ++
        (passIPairsF uuid (n + countB ps) ps ++
          (passAPairsF uuid (n + countB ps + countI (passBParts uuid n ps)) ps ++
            passDPairsF uuid
              (n + countB ps + countI (passBParts uuid n ps) +
                countA (passIParts uuid (n + countB ps) (passBParts uuid n ps))) ps)) := by
    rw [encodedPairsF]
    rw [passIPairsF_passB uuid ps (n + countB ps) n]
    rw [passAPairsF_passI uuid (passBParts uuid n ps)
      (n + countB ps + countI (passBParts uuid n ps)) (n + countB ps)]
    rw [passAPairsF_passB uuid ps
      (n + countB ps + countI (passBParts uuid n ps)) n]
    rw [passDPairsF_passA uuid (passIParts uuid (n + countB ps) (passBParts uuid n ps))
      (n + countB ps + countI (passBParts uuid n ps) +
        countA (passIParts uuid (n + countB ps) (passBParts uuid n ps)))
      (n + countB ps + countI (passBParts uuid n ps))]
    rw [passDPairsF_passI uuid (passBParts uuid n ps)
      (n + countB ps + countI (passBParts uuid n ps) +
        countA (passIParts uuid (n + countB ps) (passBParts uuid n ps))) (n + countB ps)]
    rw [passDPairsF_passB uuid ps
      (n + countB ps + countI (passBParts uuid n ps) +
        countA (passIParts uuid (n + countB ps) (passBParts uuid n ps))) n]
    simp [List.append_assoc]
  have hparts : encodedParts uuid n ps =
      stageParts uuid true true true true n (n + countB ps)
        (n + countB ps + countI (passBParts uuid n ps))
        (n + countB ps + countI (passBParts uuid n ps) +
          countA (passIParts uuid (n + countB ps) (passBParts uuid n ps))) ps := by
    rw [encodedParts]
    exact stage_encode uuid ps n (n + countB ps)
      (n + countB ps + countI (passBParts uuid n ps))
      (n + countB ps + countI (passBParts uuid n ps) +
        countA (passIParts uuid (n + countB ps) (passBParts uuid n ps)))
  have hgoodAll : ∀ x ∈ ps, goodFrag x = true := by
    rw [goodParts, List.all_eq_true] at hgood
    exact hgood
  have hnoT : ∀ pr ∈ passBPairsF uuid n ps ++
      (passIPairsF uuid (n + countB ps) ps ++
        (passAPairsF uuid (n + countB ps + countI (passBParts uuid n ps)) ps ++
          passDPairsF uuid
            (n + countB ps + countI (passBParts uuid n ps) +
              countA (passIParts uuid (n + countB ps) (passBParts uuid n ps))) ps)),
      noTmpl (renderF pr.2) = true := by
    intro pr hpr
    rcases List.mem_append.mp hpr with h1 | h1
    · exact noTmpl_renderF _ (hgoodAll _ (passBPairsF_mem_snd uuid ps n pr h1))
    rcases List.mem_append.mp h1 with h2 | h2
    · exact noTmpl_renderF _ (hgoodAll _ (passIPairsF_mem_snd uuid ps _ pr h2))
    rcases List.mem_append.mp h2 with h3 | h3
    · exact noTmpl_renderF _ (hgoodAll _ (passAPairsF_mem_snd uuid ps _ pr h3))
    · exact noTmpl_renderF _ (hgoodAll _ (passDPairsF_mem_snd uuid ps _ pr h3))
  rw [hpairs, hparts]
  rw [decode_restoresAll hnoT hR]
  rw [stage_id]

/-- C4 counterexample: the round trip fails on the input containing a stray
interpolation opener before a bold fragment. Preprocessing the string
dollar-lbrace "<b>x</b>" first replaces the bold fragment by a token, and the
interpolation pass then captures that token inside a new placeholder;
decoding restores the fragments in the wrong nesting and yields a string
different from the input. -/
theorem claim4_counterexample :
    postprocessText (preprocessText uuidD 0 (String.mk ('$' :: lbrace :: "<b>x</b>".data))).text
        (preprocessText uuidD 0 (String.mk ('$' :: lbrace :: "<b>x</b>".data))).placeholders ≠
      String.mk ('$' :: lbrace :: "<b>x</b>".data) := by
  intro h
  have h2 := congrArg String.data h
  rw [show (postprocessText (preprocessText uuidD 0 (String.mk ('$' :: lbrace :: "<b>x</b>".data))).text
        (preprocessText uuidD 0 (String.mk ('$' :: lbrace :: "<b>x</b>".data))).placeholders).data
      = ['$', lbrace, lbrace, lbrace, 'u', '0', rbrace, rbrace] from rfl] at h2
  simp [String.mk, lbrace, rbrace] at h2

theorem replicate_u_injective :
    Function.Injective (fun k => String.mk (List.replicate k 'u')) := by
  intro a b h
  have h2 := congrArg (fun s => s.data.length) h
  simpa using h2

/-- C4 witness: the amended round trip holds at the concrete fragment list
plain "Hello ", bold "World", interpolation "price", encoded with the
token supply that maps k to a string of k letters u. -/
theorem claim4_witness :
    (goodParts [Frag.plain "Hello ", Frag.bold "World", Frag.interp "price"] = true) ∧
    ([Frag.plain "Hello ", Frag.bold "World", Frag.interp "price"].all
        (fun p => !isTok p) = true) ∧
    postprocessText (preprocessText (fun k => String.mk (List.replicate k 'u')) 0
          (String.mk (renderL [Frag.plain "Hello ", Frag.bold "World",
            Frag.interp "price"]))).text
        (preprocessText (fun k => String.mk (List.replicate k 'u')) 0
          (String.mk (renderL [Frag.plain "Hello ", Frag.bold "World",
            Frag.interp "price"]))).placeholders =
      String.mk (renderL [Frag.plain "Hello ", Frag.bold "World", Frag.interp "price"]) :=
  ⟨by decide, by decide,
    claim4_markup_roundtrip (fun k => String.mk (List.replicate k 'u'))
      [Frag.plain "Hello ", Frag.bold "World", Frag.interp "price"] 0
      (by decide) (by decide) (fun m => replicate_u_safe m) replicate_u_injective⟩
